import Mathlib

/-!
# Verification of the `inefficax` copy-on-write B+tree

This file is a shallow embedding, in Lean 4, of the Rust sources of the
`inefficax` single-file copy-on-write B+tree key/value index
(`src/page_layout.rs`, `src/page.rs`, `src/error.rs`, `src/node.rs`,
`src/pager.rs`, `src/btree.rs`), together with proofs about the embedded
definitions.

Modelling conventions, used consistently below:

* Machine integers (`usize`, `u64`) are modelled as `Nat`.  The source runs on
  a 64-bit machine; every integer that the program can actually produce is far
  below `2^64`, so no wrap-around is modelled.  In the big-endian 8-byte
  encoding the most significant byte carries the entire high part of the
  number (`v / 2^56` instead of `v / 2^56 % 256`), which agrees with the
  source for every value below `2^64` and keeps the encoding injective on all
  of `Nat`.
* Rust `String` keys are modelled as their byte sequences, `List Nat`.
  Rust's `Ord for String` is lexicographic byte order, which coincides with
  the `List.Lex (· < ·)` order on `List Nat` used here.  The UTF-8 validity
  check performed by `String::from_utf8` during deserialization is not
  modelled (keys are byte lists throughout); the zero-length-key check is.
* Fallible Rust functions returning `Result<T, Error>` become functions into
  `Except Error T`.  Rust panics (`unreachable!`, failed `assert!`s and
  out-of-bounds slice indexing) are modelled by the dedicated error value
  `Error.rustPanic`.  The `String` payloads of `Error::KeyNotFound` and
  `Error::UnexpectedError` are dropped.  `Error::FileSystemError` cannot
  arise in the model (file I/O is total on the modelled file).
* The file owned by the pager is modelled as a total map `Nat → Page` from
  byte offsets to pages (all call sites pass page-aligned offsets).  Reading
  a never-written page yields the all-zero page.  Functions taking
  `&mut self` in Rust become explicit state passing: they take a
  `PagerState` and return the (possibly updated) state even when they also
  return an error, mirroring the fact that mutations performed before a Rust
  `?` propagation persist.
* Recursion that follows pointers on disk (tree descent, the free-list walk)
  is not structurally terminating, so those functions take a fuel argument
  and return `Error.outOfFuel` when it runs out; public entry points pass a
  fuel computed from the file cursor which provably suffices on well-formed
  states.
* Every disk write is additionally recorded in an event log (a list of
  `(offset, bytes)` pairs) inside the state.  The log has no influence on
  behaviour; it only makes the temporal write-ordering claim statable.
-/

namespace Inefficax

/-- `PAGE_SIZE` from `page_layout.rs`. -/
def PAGE_SIZE : Nat := 8192
/-- `PTR_SIZE = size_of::<usize>()` on the 64-bit target. -/
def PTR_SIZE : Nat := 8
/-- `KEY_MAX_SIZE = 0xff`. -/
def KEY_MAX_SIZE : Nat := 0xff
/-- `VALUE_SIZE = size_of::<u64>()`. -/
def VALUE_SIZE : Nat := 8

-- Node header layout (`page_layout.rs`).
def IS_ROOT_OFFSET : Nat := 0
def NODE_KIND_OFFSET : Nat := 1
def PARENT_POINTER_OFFSET : Nat := 2
def NODE_HEADER_SIZE : Nat := 1 + 1 + PTR_SIZE

-- Leaf node layout.
def LEAF_NEXT_OFFSET : Nat := NODE_HEADER_SIZE
def LEAF_PREVIOUS_OFFSET : Nat := LEAF_NEXT_OFFSET + PTR_SIZE
def LEAF_KEY_COUNT_OFFSET : Nat := LEAF_PREVIOUS_OFFSET + PTR_SIZE
def LEAF_HEADER_SIZE : Nat := LEAF_KEY_COUNT_OFFSET + PTR_SIZE

-- Internal node layout.
def INTERNAL_CHILD_COUNT_OFFSET : Nat := NODE_HEADER_SIZE
def INTERNAL_HEADER_SIZE : Nat := NODE_HEADER_SIZE + PTR_SIZE

/-- `UNDERFLOW_SPACE` from `btree.rs`. -/
def UNDERFLOW_SPACE : Nat := PAGE_SIZE / 3

/-- The error enumeration of `error.rs` (string payloads dropped), extended
with `rustPanic` (modelling Rust panics) and `outOfFuel` (an artifact of the
fuelled embedding of recursion on disk structures). -/
inductive Error where
  | KeyNotFound
  | UnexpectedError
  | InvalidRootOffset
  | InternalNodeNoChild
  | ImpossibleSplit
  | InvalidNodeKind
  | NodeParseError
  | KeyParseError
  | KeyOverflowError
  | rustPanic
  | outOfFuel
  deriving DecidableEq, Repr

/-- A key: the byte sequence of a Rust `String`. -/
abbrev Key := List Nat

/-- Byte `i` of a byte buffer (out-of-range reads yield `0`, the fill value of
the zero-initialised buffers used throughout the source). -/
def byteAt (d : List Nat) (i : Nat) : Nat := d.getD i 0

/-- The 8-byte big-endian encoding of `v` (see the header comment: the most
significant position carries the whole high part, which agrees with
`usize::to_be_bytes` for all `v < 2^64`). -/
def be8 (v : Nat) : List Nat :=
  [v / 2 ^ 56, v / 2 ^ 48 % 256, v / 2 ^ 40 % 256, v / 2 ^ 32 % 256,
   v / 2 ^ 24 % 256, v / 2 ^ 16 % 256, v / 2 ^ 8 % 256, v % 256]

/-- Decode the 8-byte big-endian integer found at byte offset `o` of `d`
(`usize::from_be_bytes`). -/
def readU64 (d : List Nat) (o : Nat) : Nat :=
  byteAt d o * 2 ^ 56 + byteAt d (o + 1) * 2 ^ 48 + byteAt d (o + 2) * 2 ^ 40 +
    byteAt d (o + 3) * 2 ^ 32 + byteAt d (o + 4) * 2 ^ 24 + byteAt d (o + 5) * 2 ^ 16 +
    byteAt d (o + 6) * 2 ^ 8 + byteAt d (o + 7)

/-- `Page` (`page.rs`): a fixed-size byte buffer.  Every page constructed by
the embedding has `data.length = PAGE_SIZE`. -/
structure Page where
  data : List Nat
  deriving DecidableEq, Repr

/-- `Page::new_empty`. -/
def Page.new_empty : Page := ⟨List.replicate PAGE_SIZE 0⟩

/-- `Page::get_usize_from_offset`: read a big-endian 8-byte integer at a
bounded offset. -/
def Page.get_usize_from_offset (p : Page) (offset : Nat) : Except Error Nat :=
  if offset ≥ PAGE_SIZE - PTR_SIZE then
    .error .UnexpectedError
  else
    .ok (readU64 p.data offset)

/-- `KeyValuePair` (`node.rs`).  Its Rust `Ord` instance compares keys only. -/
structure KeyValuePair where
  key : Key
  value : Nat
  deriving DecidableEq, Repr

instance : Inhabited KeyValuePair := ⟨⟨[], 0⟩⟩

/-- The loop body of Rust's `slice::binary_search` on a window
`[left, right)`: `mid = left + size / 2` where `size = right - left`, compare
the element at `mid` with the probe and narrow the window.  `.inl i` models
`Ok(i)` (found at `i`), `.inr i` models `Err(i)` (insertion point `i`).  The
source loop always terminates because the window shrinks; the embedding uses
a fuel argument (`.inr left`, the state of the terminated loop, is returned
if it ever ran out, and the callers below always pass enough). -/
def binarySearchGo {α : Type} [LinearOrder α] (xs : List α) (q d : α) :
    Nat → Nat → Nat → Nat ⊕ Nat
  | 0, left, _ => .inr left
  | fuel + 1, left, right =>
    if left < right then
      let mid := left + (right - left) / 2
      let k := xs.getD mid d
      if k < q then binarySearchGo xs q d fuel (mid + 1) right
      else if q < k then binarySearchGo xs q d fuel left mid
      else .inl mid
    else .inr left

/-- `xs.binary_search(&q)` (`d` is the irrelevant out-of-range default of the
embedding; the loop never reads out of range).  `binary_search_by_key` on
leaf pairs, and `binary_search` on `KeyValuePair`s, compare keys the same way
because `Ord for KeyValuePair` compares keys only; those call sites pass
`pairs.map key`. -/
def rustBinarySearch {α : Type} [LinearOrder α] (xs : List α) (q d : α) : Nat ⊕ Nat :=
  binarySearchGo xs q d (xs.length + 1) 0 xs.length

/-- `.unwrap_or_else(|x| x)` on a `binary_search` result. -/
def unwrapIdx : Nat ⊕ Nat → Nat
  | .inl i => i
  | .inr i => i

/-- `keys.binary_search(&q).unwrap_or_else(|x| x)`: the child-slot / insertion
index used by `search_node`, `insert_cow` and `delete_cow` in `btree.rs`. -/
def childIdx (keys : List Key) (q : Key) : Nat :=
  unwrapIdx (rustBinarySearch keys q [])

/-- The median-index scan shared (by textual duplication, see the `TODO` at
`btree.rs:151`) by `split_key_value_pairs` and `find_median_key_idx`:
starting from `key_sum = keySum` at index `idx`, return the first index whose
inclusive running sum of key byte-lengths exceeds `total / 2 + 1`, or `0`
when the scan finishes without one. -/
def medianScan (total : Nat) : Nat → Nat → List Key → Nat
  | _, _, [] => 0
  | keySum, idx, k :: ks =>
    if keySum + k.length > total / 2 + 1 then idx
    else medianScan total (keySum + k.length) (idx + 1) ks

/-- `find_median_key_idx` (`btree.rs`). -/
def find_median_key_idx (keys : List Key) : Nat :=
  let total_key_size := (keys.map List.length).sum
  medianScan total_key_size 0 0 keys

/-- `split_key_value_pairs` (`btree.rs`).  The source mutates its argument to
the left half via `split_off`; the embedding returns
`(median key, left half, right half)`. -/
def split_key_value_pairs (kvs : List KeyValuePair) :
    Except Error (Key × List KeyValuePair × List KeyValuePair) :=
  let total_key_size := (kvs.map (fun kv => kv.key.length)).sum
  let median_idx := medianScan total_key_size 0 0 (kvs.map (fun kv => kv.key))
  if median_idx = 0 then .error .ImpossibleSplit
  else
    let sibling_pairs := kvs.drop median_idx
    match (kvs.take median_idx)[median_idx - 1]? with
    | none => .error .ImpossibleSplit
    | some kv => .ok (kv.key, kvs.take median_idx, sibling_pairs)

/-- Modelled from the spec: the cut index described by §4.6 — "compute
`total = Σ|keys[i]|`; scan left-to-right, summing, and return the first index
where the running sum exceeds `total / 2 + 1`", `0` when no index qualifies.
Used only to compare the source's scan against the spec's wording. -/
def specCutIdx (keys : List Key) : Nat :=
  let total := (keys.map List.length).sum
  ((List.range keys.length).find?
    (fun i => decide (((keys.take (i + 1)).map List.length).sum > total / 2 + 1))).getD 0

/-- Modelled from the spec (claim C8): "the index of the first separator key
strictly greater than the query (`keys.len()` when no such key exists)". -/
def firstGtIdx (keys : List Key) (q : Key) : Nat :=
  ((keys.findIdx? (fun k => decide (q < k)))).getD keys.length

/-- Modelled from the code's actual routing: the index of the first separator
key greater than or equal to the query (`keys.len()` when none), i.e. the
number of separator keys strictly below the query. -/
def firstGeIdx (keys : List Key) (q : Key) : Nat :=
  ((keys.findIdx? (fun k => decide (¬ k < q)))).getD keys.length

/-- `NodeKind` (`node.rs`). -/
inductive NodeKind where
  | internal (keys : List Key) (children : List Nat) (occupied_space : Nat)
  | leaf (next previous : Option Nat) (key_value_pairs : List KeyValuePair)
      (occupied_space : Nat)
  deriving DecidableEq, Repr

/-- `Node` (`node.rs`). -/
structure Node where
  node_kind : NodeKind
  parent_offset : Option Nat
  deriving DecidableEq, Repr

/-- `u8::from(&NodeKind)`: 0 internal, 1 leaf. -/
def NodeKind.kindByte : NodeKind → Nat
  | .internal _ _ _ => 0
  | .leaf _ _ _ _ => 1

/-- `bool::to_byte`. -/
def boolByte (b : Bool) : Nat := if b then 1 else 0

/-- The byte sequence `d.drop o |>.take n`: bytes `o..o+n` of a buffer. -/
def sliceAt (d : List Nat) (o n : Nat) : List Nat := (d.drop o).take n

/-- Pad a byte sequence with zeros to `PAGE_SIZE` (the source serialises into
a zero-initialised `[0u8; PAGE_SIZE]` buffer, writing consecutive segments
from offset 0; fields it skips, such as an absent parent pointer, keep their
zero fill, which equals `be8 0`). -/
def padPage (l : List Nat) : List Nat := l ++ List.replicate (PAGE_SIZE - l.length) 0

/-- The keys loop of the internal-node serialiser (`TryFrom<&Node> for
Page`): at running offset `offset`, emit `len byte ++ key bytes` per key;
keys longer than `KEY_MAX_SIZE` fail with `KeyOverflowError`.  The source has
no bounds check in this loop: writing past the page would panic via slice
indexing, modelled by `rustPanic`. -/
def encodeKeys : Nat → List Key → Except Error (List Nat)
  | _, [] => .ok []
  | offset, k :: ks =>
    if k.length > KEY_MAX_SIZE then .error .KeyOverflowError
    else if offset + 1 + k.length > PAGE_SIZE then .error .rustPanic
    else
      match encodeKeys (offset + 1 + k.length) ks with
      | .error e => .error e
      | .ok rest => .ok ((k.length :: k) ++ rest)

/-- The children loop of the internal-node serialiser: 8 bytes per child
offset, failing with the source's `UnexpectedError` when
`offset + PTR_SIZE ≥ PAGE_SIZE`. -/
def encodeChildren : Nat → List Nat → Except Error (List Nat)
  | _, [] => .ok []
  | offset, c :: cs =>
    if offset + PTR_SIZE ≥ PAGE_SIZE then .error .UnexpectedError
    else
      match encodeChildren (offset + PTR_SIZE) cs with
      | .error e => .error e
      | .ok rest => .ok (be8 c ++ rest)

/-- The pairs loop of the leaf serialiser: per pair `len byte ++ key bytes ++
8-byte value`; overlong keys fail with `KeyOverflowError` (checked first),
and the pair is rejected with `UnexpectedError` when
`offset + |key| + 1 + VALUE_SIZE ≥ PAGE_SIZE`. -/
def encodePairs : Nat → List KeyValuePair → Except Error (List Nat)
  | _, [] => .ok []
  | offset, kv :: rest =>
    if kv.key.length > KEY_MAX_SIZE then .error .KeyOverflowError
    else if offset + kv.key.length + 1 + VALUE_SIZE ≥ PAGE_SIZE then .error .UnexpectedError
    else
      match encodePairs (offset + 1 + kv.key.length + VALUE_SIZE) rest with
      | .error e => .error e
      | .ok bs => .ok ((kv.key.length :: kv.key) ++ be8 kv.value ++ bs)

/-- `TryFrom<&Node> for Page` (`node.rs`): serialise a node into a page. -/
def pageOfNode (node : Node) : Except Error Page :=
  match node.node_kind with
  | .internal keys children _ =>
    match encodeKeys INTERNAL_HEADER_SIZE keys with
    | .error e => .error e
    | .ok keyBytes =>
      match encodeChildren (INTERNAL_HEADER_SIZE + keyBytes.length) children with
      | .error e => .error e
      | .ok childBytes =>
        .ok ⟨padPage ([boolByte (node.parent_offset = none), NodeKind.kindByte node.node_kind]
          ++ be8 (node.parent_offset.getD 0) ++ be8 children.length ++ keyBytes ++ childBytes)⟩
  | .leaf next previous key_value_pairs _ =>
    match encodePairs LEAF_HEADER_SIZE key_value_pairs with
    | .error e => .error e
    | .ok pairBytes =>
      .ok ⟨padPage ([boolByte (node.parent_offset = none), NodeKind.kindByte node.node_kind]
        ++ be8 (node.parent_offset.getD 0) ++ be8 (next.getD 0) ++ be8 (previous.getD 0)
        ++ be8 key_value_pairs.length ++ pairBytes)⟩

/-- The keys loop of the internal-node deserialiser (`TryFrom<Page> for
Node`): `count` keys, each `len byte ++ bytes`, zero length being a parse
error.  Returns the keys together with the final byte offset. -/
def parseKeys (d : List Nat) : Nat → Nat → Except Error (List Key × Nat)
  | offset, 0 => .ok ([], offset)
  | offset, n + 1 =>
    if byteAt d offset = 0 then .error .KeyParseError
    else
      match parseKeys d (offset + 1 + byteAt d offset) n with
      | .error e => .error e
      | .ok (ks, fin) => .ok (sliceAt d (offset + 1) (byteAt d offset) :: ks, fin)

/-- The children loop of the internal-node deserialiser: `count` 8-byte child
offsets via `get_usize_from_offset` (whose failure the source maps to
`UnexpectedError`).  Returns the children with the final byte offset. -/
def parseChildren (p : Page) : Nat → Nat → Except Error (List Nat × Nat)
  | offset, 0 => .ok ([], offset)
  | offset, n + 1 =>
    match p.get_usize_from_offset offset with
    | .error _ => .error .UnexpectedError
    | .ok c =>
      match parseChildren p (offset + PTR_SIZE) n with
      | .error e => .error e
      | .ok (cs, fin) => .ok (c :: cs, fin)

/-- The pairs loop of the leaf deserialiser: `count` entries `len byte ++ key
++ 8-byte value`, zero key length being a parse error and a value read past
the page end an `UnexpectedError`. -/
def parsePairs (p : Page) : Nat → Nat → Except Error (List KeyValuePair)
  | _, 0 => .ok []
  | idx, n + 1 =>
    if byteAt p.data idx = 0 then .error .KeyParseError
    else
      match p.get_usize_from_offset (idx + 1 + byteAt p.data idx) with
      | .error _ => .error .UnexpectedError
      | .ok value =>
        match parsePairs p (idx + 1 + byteAt p.data idx + PTR_SIZE) n with
        | .error e => .error e
        | .ok kvs => .ok (⟨sliceAt p.data (idx + 1) (byteAt p.data idx), value⟩ :: kvs)

/-- `TryFrom<Page> for Node` (`node.rs`): deserialise a page into a node,
recomputing `occupied_space` (note the leaf `+ 1`, marked load-bearing in the
source). -/
def nodeOfPage (page : Page) : Except Error Node :=
  let parent_offset : Except Error (Option Nat) :=
    if byteAt page.data IS_ROOT_OFFSET = 1 then .ok none
    else
      match page.get_usize_from_offset PARENT_POINTER_OFFSET with
      | .error e => .error e
      | .ok po => .ok (some po)
  match parent_offset with
  | .error e => .error e
  | .ok parent_offset =>
    match byteAt page.data NODE_KIND_OFFSET with
    | 0 =>
      match page.get_usize_from_offset INTERNAL_CHILD_COUNT_OFFSET with
      | .error e => .error e
      | .ok child_count =>
        match parseKeys page.data INTERNAL_HEADER_SIZE (child_count - 1) with
        | .error e => .error e
        | .ok (keys, offset) =>
          match parseChildren page offset child_count with
          | .error e => .error e
          | .ok (children, offset) =>
            .ok ⟨.internal keys children (offset + 1), parent_offset⟩
    | 1 =>
      match page.get_usize_from_offset LEAF_NEXT_OFFSET with
      | .error e => .error e
      | .ok next_addr =>
        match page.get_usize_from_offset LEAF_PREVIOUS_OFFSET with
        | .error e => .error e
        | .ok prev_addr =>
          match page.get_usize_from_offset LEAF_KEY_COUNT_OFFSET with
          | .error e => .error e
          | .ok number_of_keys =>
            match parsePairs page LEAF_HEADER_SIZE number_of_keys with
            | .error e => .error e
            | .ok key_value_pairs =>
              .ok ⟨.leaf (if next_addr = 0 then none else some next_addr)
                (if prev_addr = 0 then none else some prev_addr)
                key_value_pairs
                ((key_value_pairs.map
                  (fun kv => 1 + kv.key.length + VALUE_SIZE)).sum + LEAF_HEADER_SIZE + 1),
                parent_offset⟩
    | _ => .error .InvalidNodeKind

/-- `Config` (`pager.rs`). -/
structure Config where
  root_page : Option Nat
  first_free_page : Option Nat
  deriving DecidableEq, Repr

/-- `From<&Config> for Page`: a zero page carrying `root_page` at bytes 0..8
and `first_free_page` at bytes 8..16 (an absent field keeps the zero fill,
which equals `be8 0`). -/
def Config.toPage (cfg : Config) : Page :=
  ⟨padPage (be8 (cfg.root_page.getD 0) ++ be8 (cfg.first_free_page.getD 0))⟩

/-- One recorded disk write: the byte offset the source seeks to and the
bytes it writes there (instrumentation only; see the header comment). -/
abbrev WriteEv := Nat × List Nat

/-- The state owned by `Pager` (`pager.rs`): the file (a total map from
page-aligned byte offsets to pages; a never-written page reads as zeros),
the end-of-file bump cursor `curser`, the cached `config`, and the
instrumentation-only write log.  The source's `pages_allocated` field is
used only inside `Pager::open` and is not carried. -/
structure PagerState where
  file : Nat → Page
  curser : Nat
  config : Config
  log : List WriteEv

/-- Point update of the file map. -/
def updFile (f : Nat → Page) (o : Nat) (p : Page) : Nat → Page :=
  fun x => if x = o then p else f x

/-- `Pager::get_page`: seek and read one page.  Total in the model (reads of
never-written offsets yield the zero page; on well-formed states every read
is of a previously written page). -/
def Pager.get_page (st : PagerState) (offset : Nat) : Page := st.file offset

/-- `Pager::write_page_at_offset`: seek + write a full page. -/
def Pager.write_page_at_offset (st : PagerState) (offset : Nat) (page : Page) : PagerState :=
  { st with file := updFile st.file offset page, log := st.log ++ [(offset, page.data)] }

/-- `Pager::write_page_at_offset_partial`: seek to a byte offset and write
`bytes`.  Every call site passes a page-aligned offset and fewer than
`PAGE_SIZE` bytes (the source asserts the latter), so this overwrites the
first `bytes.length` bytes of that page. -/
def Pager.write_partial_at (st : PagerState) (offset : Nat) (bytes : List Nat) : PagerState :=
  { st with
    file := updFile st.file offset ⟨bytes ++ (st.file offset).data.drop bytes.length⟩,
    log := st.log ++ [(offset, bytes)] }

/-- `Pager::write_config`: persist the cached config to page 0. -/
def Pager.write_config (st : PagerState) : PagerState :=
  Pager.write_page_at_offset st 0 st.config.toPage

/-- `Pager::set_root_page`: update the cached root and persist the config. -/
def Pager.set_root_page (st : PagerState) (root_page : Nat) : PagerState :=
  Pager.write_config { st with config := { st.config with root_page := some root_page } }

/-- `Pager::alloc_page`: pop the free-list head (reading its 8-byte next
pointer, which cannot fail at offset 0) or bump-allocate at the cursor.  The
popped page is not zeroed. -/
def Pager.alloc_page (st : PagerState) : Nat × PagerState :=
  match st.config.first_free_page with
  | some ffp =>
    (ffp, { st with config := { st.config with
      first_free_page :=
        if readU64 (st.file ffp).data 0 = 0 then none
        else some (readU64 (st.file ffp).data 0) } })
  | none => (st.curser, { st with curser := st.curser + PAGE_SIZE })

/-- `Pager::write_page`: allocate a fresh offset and write the page there. -/
def Pager.write_page (st : PagerState) (page : Page) : Nat × PagerState :=
  match Pager.alloc_page st with
  | (offset, st) => (offset, Pager.write_page_at_offset st offset page)

/-- The walk loop of `Pager::free_page` (the `loop` in the sorted-insert
path): `current_offset` is the last visited free page, `next_offset` the
8-byte pointer just read from it.  Appends when the pointer is 0, splices
when it jumps past `offset`, otherwise advances.  Fuelled; the source loop
terminates because the free list is finite. -/
def freeWalk (st : PagerState) (offset : Nat) :
    Nat → Nat → Nat → Except Error Unit × PagerState
  | 0, _, _ => (.error .outOfFuel, st)
  | _ + 1, current_offset, 0 =>
    -- next_offset = 0: append `offset` at the end of the list
    let st := Pager.write_partial_at st current_offset (be8 offset)
    let st := Pager.write_page_at_offset st offset Page.new_empty
    (.ok (), st)
  | fuel + 1, current_offset, next_offset =>
    if next_offset > offset then
      -- splice `offset` between `current_offset` and `next_offset`
      let st := Pager.write_partial_at st offset (be8 next_offset)
      let st := Pager.write_partial_at st current_offset (be8 offset)
      (.ok (), st)
    else
      freeWalk st offset fuel next_offset (readU64 (st.file next_offset).data 0)

/-- `Pager::free_page`: insert `offset` into the sorted free list. -/
def Pager.free_page (fuel : Nat) (st : PagerState) (offset : Nat) :
    Except Error Unit × PagerState :=
  match st.config.first_free_page with
  | some ffp =>
    if ffp > offset then
      let st := Pager.write_partial_at st offset (be8 ffp ++ be8 0)
      (.ok (), { st with config := { st.config with first_free_page := some offset } })
    else
      freeWalk st offset fuel ffp (readU64 (st.file ffp).data 0)
  | none =>
    let st := Pager.write_page_at_offset st offset Page.new_empty
    let st := { st with config := { st.config with first_free_page := some offset } }
    (.ok (), Pager.write_config st)

/-- `Pager::free_pages`: free every queued offset in order. -/
def Pager.free_pages (fuel : Nat) (st : PagerState) :
    List Nat → Except Error Unit × PagerState
  | [] => (.ok (), st)
  | o :: q =>
    match Pager.free_page fuel st o with
    | (.error e, st) => (.error e, st)
    | (.ok _, st) => Pager.free_pages fuel st q

/-- `FreeQueue::add` (`pager.rs`): insert `offset` into the sorted,
duplicate-free queue at its `binary_search` insertion point; a present
offset is left alone. -/
def FreeQueue.add (q : List Nat) (offset : Nat) : List Nat :=
  match rustBinarySearch q offset 0 with
  | .inl _ => q
  | .inr add_idx => q.insertIdx add_idx offset

/-- `Pager::open` on an empty (fresh) file: `pages_allocated = 0`, so the
config defaults to unset fields and is persisted, after which the cursor is
the file length — `PAGE_SIZE`, since the config write extended the file by
one page. -/
def Pager.openFresh : PagerState :=
  let st : PagerState :=
    { file := fun _ => Page.new_empty, curser := 0,
      config := { root_page := none, first_free_page := none }, log := [] }
  let st := Pager.write_config st
  { st with curser := PAGE_SIZE }

/-- `InsertCOWStatus` (`btree.rs`). -/
inductive InsertCOWStatus where
  | NewOffset (o : Nat)
  | DidSplit (promoted_key : Key) (first second : Nat)
  deriving DecidableEq, Repr

/-- `DeleteCOWStatus` (`btree.rs`). -/
inductive DeleteCOWStatus where
  | NewOffset (o : Nat)
  | DidUnderflow (node : Node)
  deriving DecidableEq, Repr

/-- `BTree::insert_cow` (`btree.rs`).  The `&mut FreeQueue` and `&mut self`
become the threaded `fq` and `st`; the recursion on child pages is fuelled.
Indexing the source performs after an in-bounds access it established itself
(`children[idx]` after `children.get(idx)` succeeded) is modelled with
`List.set`/`getD`; `Vec::remove(0)` on a possibly-empty vector is modelled
with an explicit `rustPanic` check. -/
def BTree.insert_cow (st : PagerState) (fq : List Nat) :
    Nat → Node → Nat → KeyValuePair →
    Except Error InsertCOWStatus × List Nat × PagerState
  | 0, _, _, _ => (.error .outOfFuel, fq, st)
  | fuel + 1, node, node_offset, kv =>
    match node.node_kind with
    | .internal keys children occupied_space =>
      let idx := childIdx keys kv.key
      match children[idx]? with
      | none => (.error .InternalNodeNoChild, fq, st)
      | some child_offset =>
        match nodeOfPage (Pager.get_page st child_offset) with
        | .error e => (.error e, fq, st)
        | .ok child =>
          match BTree.insert_cow st fq fuel child child_offset kv with
          | (.error e, fq, st) => (.error e, fq, st)
          | (.ok (.NewOffset new_child_offset), fq, st) =>
            match pageOfNode
                ⟨.internal keys (children.set idx new_child_offset) occupied_space, none⟩ with
            | .error e => (.error e, fq, st)
            | .ok page =>
              match Pager.write_page st page with
              | (o, st) => (.ok (.NewOffset o), FreeQueue.add fq node_offset, st)
          | (.ok (.DidSplit promoted_key first second), fq, st) =>
            let available_space := PAGE_SIZE - occupied_space
            -- "A new key and a new child (reusing one child) + 1 for some reason?"
            let required_space := PTR_SIZE + promoted_key.length + 1 + 1
            if available_space < required_space then
              -- this node must split; note: the source does NOT enqueue
              -- `node_offset` for freeing on this path
              let keys := keys.insertIdx idx promoted_key
              let children := (children.set idx first).insertIdx (idx + 1) second
              let median_idx := find_median_key_idx keys
              if median_idx = 0 then (.error .ImpossibleSplit, fq, st)
              else
                match keys.drop median_idx with
                | [] => (.error .rustPanic, fq, st) -- `sibling_keys.remove(0)` on empty
                | new_promoted_key :: sibling_keys =>
                  let sibling_children := children.drop (median_idx + 1)
                  match pageOfNode
                      ⟨.internal (keys.take median_idx) (children.take (median_idx + 1)) 0,
                        none⟩ with
                  | .error e => (.error e, fq, st)
                  | .ok first_page =>
                    match Pager.write_page st first_page with
                    | (first_offset, st) =>
                      match pageOfNode ⟨.internal sibling_keys sibling_children 0, none⟩ with
                      | .error e => (.error e, fq, st)
                      | .ok second_page =>
                        match Pager.write_page st second_page with
                        | (second_offset, st) =>
                          (.ok (.DidSplit new_promoted_key first_offset second_offset), fq, st)
            else
              let keys := keys.insertIdx idx promoted_key
              let children := (children.set idx first).insertIdx (idx + 1) second
              match pageOfNode ⟨.internal keys children occupied_space, none⟩ with
              | .error e => (.error e, fq, st)
              | .ok page =>
                match Pager.write_page st page with
                | (o, st) => (.ok (.NewOffset o), FreeQueue.add fq node_offset, st)
    | .leaf next previous key_value_pairs occupied_space =>
      let available_space := PAGE_SIZE - occupied_space
      let required_space := 1 + kv.key.length + VALUE_SIZE
      if available_space < required_space then
        match split_key_value_pairs key_value_pairs with
        | .error e => (.error e, fq, st)
        | .ok (promoted_key, key_value_pairs, sibling_key_value_pairs) =>
          -- route the new pair into the appropriate half
          let key_value_pairs :=
            if kv.key ≤ promoted_key then
              key_value_pairs.insertIdx
                (childIdx (key_value_pairs.map (fun p => p.key)) kv.key) kv
            else key_value_pairs
          let sibling_key_value_pairs :=
            if kv.key ≤ promoted_key then sibling_key_value_pairs
            else sibling_key_value_pairs.insertIdx
              (childIdx (sibling_key_value_pairs.map (fun p => p.key)) kv.key) kv
          match pageOfNode ⟨.leaf next previous key_value_pairs 0, none⟩ with
          | .error e => (.error e, fq, st)
          | .ok new_node_page =>
            match Pager.write_page st new_node_page with
            | (new_node_offset, st) =>
              let fq := FreeQueue.add fq node_offset
              match pageOfNode
                  ⟨.leaf none none sibling_key_value_pairs 0, node.parent_offset⟩ with
              | .error e => (.error e, fq, st)
              | .ok sibling_page =>
                match Pager.write_page st sibling_page with
                | (sibling_offset, st) =>
                  (.ok (.DidSplit promoted_key new_node_offset sibling_offset), fq, st)
      else
        let idx := childIdx (key_value_pairs.map (fun p => p.key)) kv.key
        match pageOfNode
            ⟨.leaf next previous (key_value_pairs.insertIdx idx kv) occupied_space, none⟩ with
        | .error e => (.error e, fq, st)
        | .ok page =>
          match Pager.write_page st page with
          | (new_addr, st) => (.ok (.NewOffset new_addr), FreeQueue.add fq node_offset, st)

/-- `BTree::insert` (`btree.rs`). -/
def BTree.insert (fuel : Nat) (st : PagerState) (key : Key) (value : Nat) :
    Except Error Unit × PagerState :=
  match st.config.root_page with
  | none => (.error .InvalidRootOffset, st)
  | some root_offset =>
    match nodeOfPage (Pager.get_page st root_offset) with
    | .error e => (.error e, st)
    | .ok root =>
      match BTree.insert_cow st [] fuel root root_offset ⟨key, value⟩ with
      | (.error e, _, st) => (.error e, st)
      | (.ok (.NewOffset o), fq, st) =>
        let fq := FreeQueue.add fq root_offset
        let st := Pager.set_root_page st o
        Pager.free_pages fuel st fq
      | (.ok (.DidSplit promoted_key first second), fq, st) =>
        match pageOfNode ⟨.internal [promoted_key] [first, second] 0, none⟩ with
        | .error e => (.error e, st)
        | .ok page =>
          match Pager.write_page st page with
          | (new_root_offset, st) =>
            let fq := FreeQueue.add fq root_offset
            let st := Pager.set_root_page st new_root_offset
            Pager.free_pages fuel st fq

/-- `BTree::search_node` (`btree.rs`).  A found index returned by
`binary_search_by_key` is always in bounds, so the source's `pairs[x]` is
modelled with `getD`. -/
def BTree.search_node (st : PagerState) :
    Nat → Node → Key → Except Error (Option Nat) × PagerState
  | 0, _, _ => (.error .outOfFuel, st)
  | fuel + 1, node, key =>
    match node.node_kind with
    | .internal keys children _ =>
      let idx := childIdx keys key
      match children[idx]? with
      | none => (.error .InternalNodeNoChild, st)
      | some child_offset =>
        match nodeOfPage (Pager.get_page st child_offset) with
        | .error e => (.error e, st)
        | .ok child_node => BTree.search_node st fuel child_node key
    | .leaf _ _ key_value_pairs _ =>
      (.ok (match rustBinarySearch (key_value_pairs.map (fun p => p.key)) key [] with
        | .inl x => some ((key_value_pairs.getD x default).value)
        | .inr _ => none), st)

/-- `BTree::search` (`btree.rs`). -/
def BTree.search (fuel : Nat) (st : PagerState) (key : Key) :
    Except Error (Option Nat) × PagerState :=
  match st.config.root_page with
  | none => (.error .InvalidRootOffset, st)
  | some root_offset =>
    match nodeOfPage (Pager.get_page st root_offset) with
    | .error e => (.error e, st)
    | .ok root_node => BTree.search_node st fuel root_node key

/-- `BTree::delete_cow` (`btree.rs`).  Transcription notes: `unreachable!`
sites and `assert!` failures are `rustPanic`; reads `keys[child_idx.min
(sibling_idx)]` whose bound the source does not establish get an explicit
bound check (Rust would panic); `Vec::remove`/slot assignments whose bounds
were established earlier in the same function are `List.eraseIdx`/`List.set`;
the `usize` subtractions in the merge conditions are `Nat` subtractions (on
parsed nodes both operands exceed the subtrahend). -/
def BTree.delete_cow (st : PagerState) (fq : List Nat) :
    Nat → Node → Nat → Key →
    Except Error (Option Nat × DeleteCOWStatus) × List Nat × PagerState
  | 0, _, _, _ => (.error .outOfFuel, fq, st)
  | fuel + 1, node, node_offset, key =>
    match node.node_kind with
    | .internal keys children occupied_space =>
      let child_idx := childIdx keys key
      match children[child_idx]? with
      | none => (.error .InternalNodeNoChild, fq, st)
      | some child_offset =>
        match nodeOfPage (Pager.get_page st child_offset) with
        | .error e => (.error e, fq, st)
        | .ok child_node =>
          match BTree.delete_cow st fq fuel child_node child_offset key with
          | (.error e, fq, st) => (.error e, fq, st)
          | (.ok (removed_value, .NewOffset o), fq, st) =>
            let fq := FreeQueue.add fq node_offset
            match pageOfNode
                ⟨.internal keys (children.set child_idx o) occupied_space, none⟩ with
            | .error e => (.error e, fq, st)
            | .ok page =>
              match Pager.write_page st page with
              | (offset, st) => (.ok (removed_value, .NewOffset offset), fq, st)
          | (.ok (removed_value, .DidUnderflow unode), fq, st) =>
            let sibling_idx := if child_idx = 0 then 1 else child_idx - 1
            if sibling_idx ≥ children.length then
              (.error .rustPanic, fq, st) -- unreachable!("DidUnderflow - only one child")
            else
              let sibling_offset := children.getD sibling_idx 0
              let sep := keys.getD (child_idx.min sibling_idx) []
              match nodeOfPage (Pager.get_page st sibling_offset) with
              | .error e => (.error e, fq, st)
              | .ok sibling_node =>
                if (child_idx.min sibling_idx) ≥ keys.length then
                  -- every branch below reads or writes
                  -- `keys[child_idx.min(sibling_idx)]`, which panics out of bounds
                  (.error .rustPanic, fq, st)
                else
                match unode.node_kind, sibling_node.node_kind with
                | .internal child_keys child_children child_occupied_space,
                  .internal sibling_keys sibling_children sibling_occupied_space =>
                  if sibling_occupied_space + child_occupied_space - INTERNAL_HEADER_SIZE
                      < PAGE_SIZE then
                    -- merge the two internal children
                    let merged_keys :=
                      if sibling_idx < child_idx then
                        sibling_keys ++ [sep] ++ child_keys
                      else child_keys ++ [sep] ++ sibling_keys
                    let merged_children :=
                      if sibling_idx < child_idx then
                        sibling_children ++ child_children
                      else child_children ++ sibling_children
                    if merged_children.length ≠ merged_keys.length + 1 then
                      (.error .rustPanic, fq, st) -- assert_eq!
                    else
                      match pageOfNode ⟨.internal merged_keys merged_children 0, none⟩ with
                      | .error e => (.error e, fq, st)
                      | .ok merged_page =>
                        match Pager.write_page st merged_page with
                        | (new_child_offset, st) =>
                          let new_children :=
                            (children.set child_idx new_child_offset).eraseIdx sibling_idx
                          let new_keys := keys.eraseIdx (child_idx.min sibling_idx)
                          let fq := FreeQueue.add fq child_offset
                          let fq := FreeQueue.add fq sibling_offset
                          if new_children.length = 0 then
                            (.error .rustPanic, fq, st) -- assert_ne!
                          else
                            let new_occupied :=
                              occupied_space - (sep.length + 1 + PTR_SIZE)
                            if new_occupied < UNDERFLOW_SPACE then
                              (.ok (removed_value, .DidUnderflow
                                ⟨.internal new_keys new_children new_occupied, none⟩), fq, st)
                            else
                              match pageOfNode
                                  ⟨.internal new_keys new_children new_occupied, none⟩ with
                              | .error e => (.error e, fq, st)
                              | .ok page =>
                                match Pager.write_page st page with
                                | (offset, st) =>
                                  let fq := FreeQueue.add fq node_offset
                                  (.ok (removed_value, .NewOffset offset), fq, st)
                  else
                    -- redistribute: concatenate and split at the median
                    let combined_keys :=
                      if child_idx < sibling_idx then
                        child_keys ++ [sep] ++ sibling_keys
                      else sibling_keys ++ [sep] ++ child_keys
                    let combined_children :=
                      if child_idx < sibling_idx then
                        child_children ++ sibling_children
                      else sibling_children ++ child_children
                    let median_idx := find_median_key_idx combined_keys
                    if median_idx = 0 then
                      (.error .rustPanic, fq, st) -- unreachable!("Impossible split")
                    else
                      match combined_keys.drop median_idx with
                      | [] => (.error .rustPanic, fq, st) -- `.remove(0)` on empty
                      | median_key :: right_keys =>
                        let left_keys := combined_keys.take median_idx
                        let left_children := combined_children.take (median_idx + 1)
                        let right_children := combined_children.drop (median_idx + 1)
                        -- child gets the left half when it sorts first, else the right
                        let new_child_keys :=
                          if child_idx < sibling_idx then left_keys else right_keys
                        let new_child_children :=
                          if child_idx < sibling_idx then left_children else right_children
                        let new_sibling_keys :=
                          if child_idx < sibling_idx then right_keys else left_keys
                        let new_sibling_children :=
                          if child_idx < sibling_idx then right_children else left_children
                        if new_child_children.length ≠ new_child_keys.length + 1 then
                          (.error .rustPanic, fq, st) -- assert_eq!
                        else if new_sibling_children.length ≠ new_sibling_keys.length + 1 then
                          (.error .rustPanic, fq, st) -- assert_eq!
                        else
                          match pageOfNode
                              ⟨.internal new_child_keys new_child_children 0, none⟩ with
                          | .error e => (.error e, fq, st)
                          | .ok child_page =>
                            match Pager.write_page st child_page with
                            | (new_child_offset, st) =>
                              match pageOfNode
                                  ⟨.internal new_sibling_keys new_sibling_children 0,
                                    none⟩ with
                              | .error e => (.error e, fq, st)
                              | .ok sibling_page =>
                                match Pager.write_page st sibling_page with
                                | (new_sibling_offset, st) =>
                                  let new_children :=
                                    (children.set sibling_idx new_sibling_offset).set
                                      child_idx new_child_offset
                                  let new_keys :=
                                    keys.set (child_idx.min sibling_idx) median_key
                                  let fq := FreeQueue.add fq child_offset
                                  let fq := FreeQueue.add fq sibling_offset
                                  match pageOfNode
                                      ⟨.internal new_keys new_children 0, none⟩ with
                                  | .error e => (.error e, fq, st)
                                  | .ok parent_page =>
                                    match Pager.write_page st parent_page with
                                    | (offset, st) =>
                                      let fq := FreeQueue.add fq node_offset
                                      (.ok (removed_value, .NewOffset offset), fq, st)
                | .leaf _ _ child_kv_pairs child_occupied_space,
                  .leaf _ _ sibling_kv_pairs sibling_occupied_space =>
                  if sibling_occupied_space + child_occupied_space - LEAF_HEADER_SIZE
                      < PAGE_SIZE then
                    -- merge the two leaf children
                    let merged_pairs :=
                      if sibling_idx < child_idx then
                        sibling_kv_pairs ++ child_kv_pairs
                      else child_kv_pairs ++ sibling_kv_pairs
                    if merged_pairs.length = 0 then
                      (.error .rustPanic, fq, st) -- assert_ne!
                    else
                      match pageOfNode ⟨.leaf none none merged_pairs 0, none⟩ with
                      | .error e => (.error e, fq, st)
                      | .ok merged_page =>
                        match Pager.write_page st merged_page with
                        | (new_child_offset, st) =>
                          let new_children :=
                            (children.set child_idx new_child_offset).eraseIdx sibling_idx
                          let new_keys := keys.eraseIdx (child_idx.min sibling_idx)
                          let fq := FreeQueue.add fq child_offset
                          let fq := FreeQueue.add fq sibling_offset
                          if new_children.length = 0 then
                            (.error .rustPanic, fq, st) -- assert_ne!
                          else
                            let new_occupied :=
                              occupied_space - (sep.length + 1 + PTR_SIZE)
                            if new_occupied < UNDERFLOW_SPACE then
                              (.ok (removed_value, .DidUnderflow
                                ⟨.internal new_keys new_children new_occupied, none⟩), fq, st)
                            else
                              match pageOfNode
                                  ⟨.internal new_keys new_children new_occupied, none⟩ with
                              | .error e => (.error e, fq, st)
                              | .ok page =>
                                match Pager.write_page st page with
                                | (offset, st) =>
                                  let fq := FreeQueue.add fq node_offset
                                  (.ok (removed_value, .NewOffset offset), fq, st)
                  else
                    -- redistribute: concatenate in index order and split
                    match split_key_value_pairs
                        (if child_idx < sibling_idx then
                          child_kv_pairs ++ sibling_kv_pairs
                         else sibling_kv_pairs ++ child_kv_pairs) with
                    | .error e => (.error e, fq, st)
                    | .ok (median_key, left_pairs, right_pairs) =>
                      let new_child_pairs :=
                        if child_idx < sibling_idx then left_pairs else right_pairs
                      let new_sibling_pairs :=
                        if child_idx < sibling_idx then right_pairs else left_pairs
                      match pageOfNode ⟨.leaf none none new_child_pairs 0, none⟩ with
                      | .error e => (.error e, fq, st)
                      | .ok child_page =>
                        match Pager.write_page st child_page with
                        | (new_child_offset, st) =>
                          match pageOfNode ⟨.leaf none none new_sibling_pairs 0, none⟩ with
                          | .error e => (.error e, fq, st)
                          | .ok sibling_page =>
                            match Pager.write_page st sibling_page with
                            | (new_sibling_offset, st) =>
                              let new_children :=
                                (children.set sibling_idx new_sibling_offset).set
                                  child_idx new_child_offset
                              let new_keys :=
                                keys.set (child_idx.min sibling_idx) median_key
                              let fq := FreeQueue.add fq child_offset
                              let fq := FreeQueue.add fq sibling_offset
                              match pageOfNode ⟨.internal new_keys new_children 0, none⟩ with
                              | .error e => (.error e, fq, st)
                              | .ok parent_page =>
                                match Pager.write_page st parent_page with
                                | (offset, st) =>
                                  let fq := FreeQueue.add fq node_offset
                                  (.ok (removed_value, .NewOffset offset), fq, st)
                | _, _ =>
                  (.error .rustPanic, fq, st)
                  -- unreachable!("An internal node can only have either leaf *or*
                  -- internal children.")
    | .leaf next previous key_value_pairs occupied_space =>
      match rustBinarySearch (key_value_pairs.map (fun p => p.key)) key [] with
      | .inr _ => (.error .KeyNotFound, fq, st)
      | .inl idx =>
        let removed := key_value_pairs.getD idx default
        let key_value_pairs := key_value_pairs.eraseIdx idx
        let removed_space := removed.key.length + 1 + VALUE_SIZE
        if occupied_space - removed_space < UNDERFLOW_SPACE then
          (.ok (some removed.value, .DidUnderflow
            ⟨.leaf next previous key_value_pairs (occupied_space - removed_space), none⟩),
            fq, st)
        else
          match pageOfNode ⟨.leaf next previous key_value_pairs occupied_space, none⟩ with
          | .error e => (.error e, fq, st)
          | .ok page =>
            match Pager.write_page st page with
            | (offset, st) =>
              let fq := FreeQueue.add fq node_offset
              (.ok (some removed.value, .NewOffset offset), fq, st)

/-- `BTree::delete` (`btree.rs`), including single-child root promotion. -/
def BTree.delete (fuel : Nat) (st : PagerState) (key : Key) :
    Except Error (Option Nat) × PagerState :=
  match st.config.root_page with
  | none => (.error .InvalidRootOffset, st)
  | some root_offset =>
    match nodeOfPage (Pager.get_page st root_offset) with
    | .error e => (.error e, st)
    | .ok root =>
      match BTree.delete_cow st [] fuel root root_offset key with
      | (.error e, _, st) => (.error e, st)
      | (.ok (removed_value, .NewOffset o), fq, st) =>
        let fq := FreeQueue.add fq root_offset
        let st := Pager.set_root_page st o
        match Pager.free_pages fuel st fq with
        | (.error e, st) => (.error e, st)
        | (.ok _, st) => (.ok removed_value, st)
      | (.ok (removed_value, .DidUnderflow node), fq, st) =>
        match node.node_kind with
        | .internal keys children _ =>
          if keys.length = 0 then
            -- promote the lonely child (`children[0]` panics when empty)
            if children.length = 0 then (.error .rustPanic, st)
            else
              let st := Pager.set_root_page st (children.getD 0 0)
              let fq := FreeQueue.add fq root_offset
              match Pager.free_pages fuel st fq with
              | (.error e, st) => (.error e, st)
              | (.ok _, st) => (.ok removed_value, st)
          else
            let fq := FreeQueue.add fq root_offset
            match pageOfNode node with
            | .error e => (.error e, st)
            | .ok page =>
              match Pager.write_page st page with
              | (new_root_offset, st) =>
                let st := Pager.set_root_page st new_root_offset
                match Pager.free_pages fuel st fq with
                | (.error e, st) => (.error e, st)
                | (.ok _, st) => (.ok removed_value, st)
        | .leaf _ _ _ _ =>
          let fq := FreeQueue.add fq root_offset
          match pageOfNode node with
          | .error e => (.error e, st)
          | .ok page =>
            match Pager.write_page st page with
            | (new_root_offset, st) =>
              let st := Pager.set_root_page st new_root_offset
              match Pager.free_pages fuel st fq with
              | (.error e, st) => (.error e, st)
              | (.ok _, st) => (.ok removed_value, st)

/-- `BTree::open` on a fresh (empty) file: the pager config has no root, so
an empty leaf root is written and installed.  (Serialising the empty leaf
cannot fail; the `Except` mirrors the source signature.) -/
def BTree.openFresh : Except Error PagerState :=
  let st := Pager.openFresh
  match pageOfNode ⟨.leaf none none [] 0, none⟩ with
  | .error e => .error e
  | .ok page =>
    match Pager.write_page st page with
    | (root_offset, st) => .ok (Pager.set_root_page st root_offset)

/-- Fuel for the public operations: an artifact of the embedding (see the
header comment).  `curser / PAGE_SIZE` bounds the number of pages ever
allocated, hence both the height of the tree and the length of the free
list; the `+ 2` covers the root step and the final walk step. -/
def opFuel (st : PagerState) : Nat := st.curser / PAGE_SIZE + 2

/-- `insert` as the caller sees it (fuel supplied by the wrapper). -/
def BTree.insertOp (st : PagerState) (key : Key) (value : Nat) :
    Except Error Unit × PagerState :=
  BTree.insert (opFuel st) st key value

/-- `delete` as the caller sees it. -/
def BTree.deleteOp (st : PagerState) (key : Key) :
    Except Error (Option Nat) × PagerState :=
  BTree.delete (opFuel st) st key

/-- `search` as the caller sees it. -/
def BTree.searchOp (st : PagerState) (key : Key) :
    Except Error (Option Nat) × PagerState :=
  BTree.search (opFuel st) st key

/-! ### Specification-side definitions

The definitions below are not translations of source functions; they are the
vocabulary in which the theorems speak about the embedded program: a
representation predicate tying an on-disk subtree to the flat list of
key/value pairs it stores, the free-list chain, and a reference lookup. -/

/-- `k` lies strictly above an optional lower bound. -/
def ltLo (lo : Option Key) (k : Key) : Prop :=
  match lo with
  | none => True
  | some l => l < k

/-- `k` lies at or below an optional upper bound (leaf pairs may equal their
separator). -/
def leHi (hi : Option Key) (k : Key) : Prop :=
  match hi with
  | none => True
  | some h => k ≤ h

/-- `k` lies strictly below an optional upper bound (separator keys of inner
nodes are strictly below the separator above them). -/
def ltHi (hi : Option Key) (k : Key) : Prop :=
  match hi with
  | none => True
  | some h => k < h

/-- One child per separator gap: `ReprKids R lo hi keys children L O` says the
`children` offsets, separated by `keys`, hold the concatenation `L` of their
pair lists and together own the page offsets `O`, each child representing its
slice within the bounds induced by the neighbouring separators. -/
def ReprKids (R : Nat → Option Key → Option Key → List KeyValuePair → List Nat → Prop) :
    Option Key → Option Key → List Key → List Nat → List KeyValuePair → List Nat → Prop
  | lo, hi, [], [c], L, O => R c lo hi L O
  | lo, hi, k :: ks, c :: cs, L, O =>
    ∃ L1 L2 O1 O2, L = L1 ++ L2 ∧ O = O1 ++ O2 ∧ R c lo (some k) L1 O1 ∧
      ReprKids R (some k) hi ks cs L2 O2
  | _, _, _, _, _, _ => False

/-- The representation predicate: the page at offset `o` of `st` is the root
of a well-formed subtree of height `h` holding exactly the pairs `L` (all of
whose keys lie in `(lo, hi]`), the pages of the subtree being `O`.
`occupied_space` is pinned to the recomputed value and bounded by
`PAGE_SIZE`, which is exactly what makes re-serialisation succeed. -/
def ReprAt (st : PagerState) :
    Nat → Nat → Option Key → Option Key → List KeyValuePair → List Nat → Prop
  | 0, _, _, _, _, _ => False
  | h + 1, o, lo, hi, L, O =>
    ∃ nd : Node, nodeOfPage (st.file o) = .ok nd ∧ nd.parent_offset = none ∧
    match nd.node_kind with
    | .leaf next previous pairs occ =>
      next = none ∧ previous = none ∧ L = pairs ∧ O = [o] ∧
      (pairs.map (fun kv => kv.key)).Pairwise (· < ·) ∧
      (∀ kv ∈ pairs, 1 ≤ kv.key.length ∧ kv.key.length ≤ KEY_MAX_SIZE ∧
        ltLo lo kv.key ∧ leHi hi kv.key) ∧
      occ = (pairs.map (fun kv => 1 + kv.key.length + VALUE_SIZE)).sum
        + LEAF_HEADER_SIZE + 1 ∧
      occ ≤ PAGE_SIZE
    | .internal keys children occ =>
      ∃ O', O = o :: O' ∧
      keys ≠ [] ∧ keys.Pairwise (· < ·) ∧
      (∀ k ∈ keys, 1 ≤ k.length ∧ k.length ≤ KEY_MAX_SIZE ∧ ltLo lo k ∧ ltHi hi k) ∧
      occ = INTERNAL_HEADER_SIZE + (keys.map (fun k => 1 + k.length)).sum
        + 8 * children.length + 1 ∧
      occ ≤ PAGE_SIZE ∧
      ReprKids (ReprAt st h) lo hi keys children L O'

/-- The on-disk free list as a chain: from an optional head, each page's
first 8 bytes name the next free page, `0` terminating the list. -/
inductive FreeChain (st : PagerState) : Option Nat → List Nat → Prop
  | nil : FreeChain st none []
  | cons (o : Nat) (rest : List Nat) :
      FreeChain st (if readU64 (st.file o).data 0 = 0 then none
        else some (readU64 (st.file o).data 0)) rest →
      FreeChain st (some o) (o :: rest)

/-- Insertion into a sorted list of offsets (ties keep the existing element
first; the callers only insert absent offsets). -/
def insertSortedNat (x : Nat) : List Nat → List Nat
  | [] => [x]
  | c :: cs => if x < c then x :: c :: cs else c :: insertSortedNat x cs

/-- Reference lookup in a flat pair list. -/
def lookupKV (L : List KeyValuePair) (q : Key) : Option Nat :=
  (L.find? (fun kv => decide (kv.key = q))).map (fun kv => kv.value)

/-- The first 8 bytes of the page at `o`, as the optional next-pointer they
encode. -/
def nextOpt (st : PagerState) (o : Nat) : Option Nat :=
  if readU64 (st.file o).data 0 = 0 then none else some (readU64 (st.file o).data 0)

/-- The free-list invariant: some sorted chain `C` of nonzero in-file offsets
hangs off the cached config's head pointer. -/
def ChainInv (st : PagerState) (C : List Nat) : Prop :=
  FreeChain st st.config.first_free_page C ∧ C.Pairwise (· < ·) ∧
  ∀ c ∈ C, c ≠ 0 ∧ c < st.curser

/-- The state of a freshly opened tree (`BTree::open` on an empty file),
extracted from the `Except` (opening a fresh file cannot fail). -/
def freshState : PagerState :=
  match BTree.openFresh with
  | .ok st => st
  | .error _ => Pager.openFresh

/-! ## Theorems -/

/-- `Page::get_usize_from_offset` boundary behaviour: the read fails exactly
when `offset + 8 ≥ PAGE_SIZE` (the source test `offset >= PAGE_SIZE - PTR_SIZE`),
and otherwise returns the big-endian integer stored at bytes
`offset..offset+8`. -/
theorem get_usize_from_offset_eq (p : Page) (offset : Nat) :
    p.get_usize_from_offset offset =
      if offset + 8 ≥ PAGE_SIZE then .error .UnexpectedError
      else .ok (readU64 p.data offset) := by
  unfold Page.get_usize_from_offset
  by_cases h : offset ≥ PAGE_SIZE - PTR_SIZE
  · rw [if_pos h, if_pos (by simp only [PAGE_SIZE, PTR_SIZE] at h ⊢; omega)]
  · rw [if_neg h, if_neg (by simp only [PAGE_SIZE, PTR_SIZE] at h ⊢; omega)]

/-- Auxiliary: a `countP` is fixed by a cut position `c` such that the
predicate holds strictly below `c` and fails from `c` on. -/
theorem countP_eq_of_split {α : Type} [LinearOrder α] (d : α)
    (l : List α) (p : α → Bool) (c : Nat) (hc : c ≤ l.length)
    (h1 : ∀ i, i < c → p (l.getD i d) = true)
    (h2 : ∀ i, c ≤ i → i < l.length → p (l.getD i d) = false) :
    l.countP p = c := by
  induction l generalizing c with
  | nil =>
    simp only [List.length_nil, Nat.le_zero] at hc
    simp [hc]
  | cons k ks ih =>
    cases c with
    | zero =>
      have hk : p k = false := by
        have := h2 0 (Nat.le_refl 0) (by simp)
        simpa using this
      have hks : ks.countP p = 0 := by
        refine ih 0 (Nat.zero_le _) (fun i hi => absurd hi (Nat.not_lt_zero i)) ?_
        intro i _ hi
        have := h2 (i + 1) (Nat.zero_le _) (by simpa using Nat.succ_lt_succ hi)
        simpa using this
      simp [List.countP_cons, hk, hks]
    | succ c' =>
      have hk : p k = true := by
        have := h1 0 (Nat.succ_pos c')
        simpa using this
      have hks : ks.countP p = c' := by
        refine ih c' (by simpa using hc) ?_ ?_
        · intro i hi
          have := h1 (i + 1) (by omega)
          simpa using this
        · intro i hi hi'
          have := h2 (i + 1) (by omega) (by simpa using Nat.succ_lt_succ hi')
          simpa using this
      simp [List.countP_cons, hk, hks]

/-- Auxiliary: if everything before `left` is `< q` and everything from
`left` on is `> q`, then `q` is not in the list. -/
theorem not_mem_of_window {α : Type} [LinearOrder α] (d : α)
    (keys : List α) (q : α) (left : Nat)
    (hpre : ∀ i, i < left → keys.getD i d < q)
    (hsuf : ∀ i, left ≤ i → i < keys.length → q < keys.getD i d) :
    q ∉ keys := by
  intro hmem
  obtain ⟨j, hj, hjq⟩ := List.getElem_of_mem hmem
  rcases Nat.lt_or_ge j left with h | h
  · have := hpre j h
    rw [List.getD_eq_getElem _ _ hj, hjq] at this
    exact lt_irrefl q this
  · have := hsuf j h hj
    rw [List.getD_eq_getElem _ _ hj, hjq] at this
    exact lt_irrefl q this

/-- Auxiliary: sorted list index monotonicity, `getD` form. -/
theorem sorted_getD_lt {α : Type} [LinearOrder α] (d : α)
    (keys : List α) (hs : keys.Pairwise (· < ·))
    {i j : Nat} (hij : i < j) (hj : j < keys.length) :
    keys.getD i d < keys.getD j d := by
  have hi : i < keys.length := lt_trans hij hj
  rw [List.getD_eq_getElem _ _ hi, List.getD_eq_getElem _ _ hj]
  exact List.pairwise_iff_getElem.mp hs i j hi hj hij

/-- The characterisation of Rust's `binary_search` loop on a sorted window:
it lands on the number of keys strictly below the probe, as `Ok` exactly when
the probe is present. -/
theorem binarySearchGo_eq {α : Type} [LinearOrder α] (d : α)
    (keys : List α) (q : α) (hs : keys.Pairwise (· < ·)) :
    ∀ fuel left right, right ≤ keys.length → left ≤ right → right - left ≤ fuel →
    (∀ i, i < left → keys.getD i d < q) →
    (∀ i, right ≤ i → i < keys.length → q < keys.getD i d) →
    binarySearchGo keys q d fuel left right =
      if q ∈ keys then .inl (keys.countP (fun k => decide (k < q)))
      else .inr (keys.countP (fun k => decide (k < q))) := by
  intro fuel
  induction fuel with
  | zero =>
    intro left right hr hl hf hpre hsuf
    have hrl : left = right := by omega
    subst hrl
    rw [if_neg (not_mem_of_window d keys q left hpre hsuf)]
    have : keys.countP (fun k => decide (k < q)) = left := by
      refine countP_eq_of_split d keys _ left (le_trans hl hr) ?_ ?_
      · intro i hi; simpa using hpre i hi
      · intro i hi hi'
        simpa using (lt_asymm (hsuf i hi hi') : ¬ keys.getD i d < q)
    rw [this]
    rfl
  | succ n ih =>
    intro left right hr hl hf hpre hsuf
    by_cases hlr : left < right
    · have hmidlt : left + (right - left) / 2 < right := by omega
      have hmidlen : left + (right - left) / 2 < keys.length := lt_of_lt_of_le hmidlt hr
      simp only [binarySearchGo, if_pos hlr]
      set mid := left + (right - left) / 2 with hmid
      by_cases h1 : keys.getD mid d < q
      · rw [if_pos h1]
        refine ih (mid + 1) right hr (by omega) (by omega) ?_ hsuf
        intro i hi
        rcases Nat.lt_or_ge i mid with h | h
        · exact lt_trans (sorted_getD_lt d keys hs h hmidlen) h1
        · have : i = mid := by omega
          rw [this]; exact h1
      · rw [if_neg h1]
        by_cases h2 : q < keys.getD mid d
        · rw [if_pos h2]
          refine ih left mid (le_of_lt hmidlen) (by omega) (by omega) hpre ?_
          intro i hi hi'
          rcases Nat.lt_or_ge mid i with h | h
          · exact lt_trans h2 (sorted_getD_lt d keys hs h hi')
          · have : i = mid := by omega
            rw [this]; exact h2
        · rw [if_neg h2]
          have hkq : keys.getD mid d = q := le_antisymm (not_lt.mp h2) (not_lt.mp h1)
          have hmem : q ∈ keys := by
            rw [← hkq, List.getD_eq_getElem _ _ hmidlen]
            exact List.getElem_mem hmidlen
          rw [if_pos hmem]
          have : keys.countP (fun k => decide (k < q)) = mid := by
            refine countP_eq_of_split d keys _ mid (le_of_lt hmidlen) ?_ ?_
            · intro i hi
              have := sorted_getD_lt d keys hs hi hmidlen
              rw [hkq] at this
              simpa using this
            · intro i hi hi'
              rcases Nat.lt_or_ge i (mid + 1) with h | h
              · have : i = mid := by omega
                rw [this, hkq]
                simp
              · have := sorted_getD_lt d keys hs (show mid < i by omega) hi'
                rw [hkq] at this
                simpa using (lt_asymm this : ¬ keys.getD i d < q)
          rw [this]
    · simp only [binarySearchGo, if_neg hlr]
      have hrl : left = right := by omega
      subst hrl
      rw [if_neg (not_mem_of_window d keys q left hpre hsuf)]
      have : keys.countP (fun k => decide (k < q)) = left := by
        refine countP_eq_of_split d keys _ left (le_trans hl hr) ?_ ?_
        · intro i hi; simpa using hpre i hi
        · intro i hi hi'
          simpa using (lt_asymm (hsuf i hi hi') : ¬ keys.getD i d < q)
      rw [this]

/-- `keys.binary_search(&q)` on a strictly sorted list: `Ok(c)` when the probe
is present, `Err(c)` when absent, where `c` is the number of keys strictly
below the probe. -/
theorem rustBinarySearch_eq {α : Type} [LinearOrder α] (d : α)
    (keys : List α) (q : α) (hs : keys.Pairwise (· < ·)) :
    rustBinarySearch keys q d =
      if q ∈ keys then .inl (keys.countP (fun k => decide (k < q)))
      else .inr (keys.countP (fun k => decide (k < q))) := by
  refine binarySearchGo_eq d keys q hs (keys.length + 1) 0 keys.length (le_refl _)
    (Nat.zero_le _) (by omega) ?_ ?_
  · intro i hi; exact absurd hi (Nat.not_lt_zero i)
  · intro i hi hi'; omega

/-- The routing index used throughout `btree.rs` equals the number of
separator keys strictly below the query. -/
theorem childIdx_eq_countP (keys : List Key) (q : Key) (hs : keys.Pairwise (· < ·)) :
    childIdx keys q = keys.countP (fun k => decide (k < q)) := by
  unfold childIdx
  rw [rustBinarySearch_eq [] keys q hs]
  split <;> rfl

/-- On a sorted list, the index of the first key `≥ q` is the number of keys
`< q`. -/
theorem firstGeIdx_eq_countP (keys : List Key) (q : Key) (hs : keys.Pairwise (· < ·)) :
    firstGeIdx keys q = keys.countP (fun k => decide (k < q)) := by
  induction keys with
  | nil => rfl
  | cons k ks ih =>
    obtain ⟨hk, hks⟩ := List.pairwise_cons.mp hs
    by_cases h : k < q
    · have hcons : (k :: ks).findIdx? (fun k => decide (¬ k < q)) 0 =
          Option.map (fun i => i + 1) (ks.findIdx? (fun k => decide (¬ k < q)) 0) := by
        rw [List.findIdx?_cons, if_neg (by simpa using h), List.findIdx?_succ]
      unfold firstGeIdx at ih ⊢
      rw [hcons, List.countP_cons, ← ih hks]
      cases hf : ks.findIdx? (fun k => decide (¬ k < q)) 0 <;>
        simp [hf, h, List.length_cons]
    · have hcons : (k :: ks).findIdx? (fun k => decide (¬ k < q)) 0 = some 0 := by
        rw [List.findIdx?_cons, if_pos (by simpa using h)]
      have hzero : ks.countP (fun k => decide (k < q)) = 0 := by
        rw [List.countP_eq_zero]
        intro x hx
        have : k < x := hk x hx
        simp only [decide_eq_true_eq]
        intro hlt
        exact h (lt_trans this hlt)
      unfold firstGeIdx
      rw [hcons, List.countP_cons, hzero]
      simp [h]

/-- On a sorted list, a query equal to the key at index `i` is routed to
index `i` itself (the child on the left of that separator). -/
theorem childIdx_of_getD_eq (keys : List Key) (q : Key) (hs : keys.Pairwise (· < ·))
    (i : Nat) (hi : i < keys.length) (heq : keys.getD i [] = q) :
    childIdx keys q = i := by
  rw [childIdx_eq_countP keys q hs]
  refine countP_eq_of_split [] keys _ i (le_of_lt hi) ?_ ?_
  · intro j hj
    have := sorted_getD_lt [] keys hs hj hi
    rw [heq] at this
    simpa using this
  · intro j hj hj'
    rcases Nat.lt_or_ge j (i + 1) with h | h
    · have : j = i := by omega
      rw [this, heq]
      simp
    · have := sorted_getD_lt [] keys hs (show i < j by omega) hj'
      rw [heq] at this
      simpa using (lt_asymm this : ¬ keys.getD j [] < q)

/-- The median scan, with running sum `s` and starting index `idx`, returns
`idx + j` for the first relative position `j` whose inclusive running sum
exceeds `total / 2 + 1`, and `0` when there is none. -/
theorem medianScan_eq (total : Nat) (ks : List Key) :
    ∀ s idx, medianScan total s idx ks =
      (match (List.range ks.length).find?
          (fun j => decide (s + ((ks.take (j + 1)).map List.length).sum > total / 2 + 1)) with
       | some j => idx + j
       | none => 0) := by
  induction ks with
  | nil => intro s idx; rfl
  | cons k t ih =>
    intro s idx
    rw [medianScan]
    by_cases h : s + k.length > total / 2 + 1
    · rw [if_pos h, List.length_cons, List.range_succ_eq_map,
        List.find?_cons_of_pos _ (by
          simp only [List.take_succ_cons, List.take_zero, List.map_cons, List.map_nil,
            List.sum_cons, List.sum_nil, Nat.add_zero]
          exact decide_eq_true h)]
      simp
    · have hfun : ((fun j => decide (s + (((k :: t).take (j + 1)).map List.length).sum >
            total / 2 + 1)) ∘ Nat.succ) =
          (fun j => decide (s + k.length + ((t.take (j + 1)).map List.length).sum >
            total / 2 + 1)) := by
        funext j
        simp only [Function.comp_apply, Nat.succ_eq_add_one, List.take_succ_cons,
          List.map_cons, List.sum_cons]
        rw [decide_eq_decide]
        omega
      rw [if_neg h, ih (s + k.length) (idx + 1), List.length_cons, List.range_succ_eq_map,
        List.find?_cons_of_neg _ (by
          simp only [List.take_succ_cons, List.take_zero, List.map_cons, List.map_nil,
            List.sum_cons, List.sum_nil, Nat.add_zero]
          simpa using h),
        List.find?_map, hfun]
      cases hf : (List.range t.length).find?
          (fun j => decide (s + k.length + ((t.take (j + 1)).map List.length).sum >
            total / 2 + 1)) with
      | none => simp [hf]
      | some j =>
        show idx + 1 + j = idx + Nat.succ j
        omega

/-- The duplicated scan in `find_median_key_idx` computes the spec's cut
index. -/
theorem find_median_key_idx_eq (keys : List Key) :
    find_median_key_idx keys = specCutIdx keys := by
  simp only [find_median_key_idx, specCutIdx]
  rw [medianScan_eq]
  have hz : (fun j => decide (0 + ((keys.take (j + 1)).map List.length).sum >
      (keys.map List.length).sum / 2 + 1)) =
      (fun j => decide (((keys.take (j + 1)).map List.length).sum >
        (keys.map List.length).sum / 2 + 1)) := by
    funext j
    rw [Nat.zero_add]
  rw [hz]
  cases hf : (List.range keys.length).find?
      (fun j => decide (((keys.take (j + 1)).map List.length).sum >
        (keys.map List.length).sum / 2 + 1)) with
  | none => simp [hf]
  | some j => simp [hf]

/-- A nonzero cut index is a position inside the list. -/
theorem specCutIdx_lt_length (keys : List Key) (h : specCutIdx keys ≠ 0) :
    specCutIdx keys < keys.length := by
  simp only [specCutIdx] at h ⊢
  cases hf : (List.range keys.length).find?
      (fun j => decide (((keys.take (j + 1)).map List.length).sum >
        (keys.map List.length).sum / 2 + 1)) with
  | none => rw [hf] at h; simp at h
  | some j =>
    have := List.mem_range.mp (List.mem_of_find?_eq_some hf)
    simpa using this

/-- `split_key_value_pairs`, characterised: with `c` the spec's cut index of
the keys, it fails if and only if `c = 0`, and otherwise promotes the key of
the pair at index `c - 1` (the last pair of the left half), returning the
first `c` pairs as the left half and the pairs from `c` on as the right
half. -/
theorem split_key_value_pairs_eq (kvs : List KeyValuePair) :
    split_key_value_pairs kvs =
      if specCutIdx (kvs.map (fun kv => kv.key)) = 0 then .error .ImpossibleSplit
      else .ok ((kvs.getD (specCutIdx (kvs.map (fun kv => kv.key)) - 1) default).key,
        kvs.take (specCutIdx (kvs.map (fun kv => kv.key))),
        kvs.drop (specCutIdx (kvs.map (fun kv => kv.key)))) := by
  have hms : medianScan ((kvs.map (fun kv => kv.key.length)).sum) 0 0
      (kvs.map (fun kv => kv.key)) = specCutIdx (kvs.map (fun kv => kv.key)) := by
    have h1 : (kvs.map (fun kv => kv.key.length)).sum =
        ((kvs.map (fun kv => kv.key)).map List.length).sum := by
      rw [List.map_map]
      rfl
    rw [h1]
    exact find_median_key_idx_eq (kvs.map fun kv => kv.key)
  simp only [split_key_value_pairs]
  rw [hms]
  by_cases h : specCutIdx (kvs.map fun kv => kv.key) = 0
  · rw [if_pos h, if_pos h]
  · rw [if_neg h, if_neg h]
    have hlt : specCutIdx (kvs.map fun kv => kv.key) < kvs.length := by
      have := specCutIdx_lt_length _ h
      simpa using this
    have hc1 : specCutIdx (kvs.map fun kv => kv.key) - 1 < kvs.length := by omega
    have hget : (kvs.take (specCutIdx (kvs.map fun kv => kv.key)))[(specCutIdx
        (kvs.map fun kv => kv.key)) - 1]? = some (kvs.getD
        (specCutIdx (kvs.map fun kv => kv.key) - 1) default) := by
      rw [List.getElem?_take, if_pos (by omega), List.getElem?_eq_getElem hc1,
        List.getD_eq_getElem _ _ hc1]
    rw [hget]

/-- Decoding an 8-byte big-endian encoding recovers the encoded value. -/
theorem readU64_be8 (v : Nat) : readU64 (be8 v) 0 = v := by
  show (v / 2 ^ 56) * 2 ^ 56 + (v / 2 ^ 48 % 256) * 2 ^ 48 + (v / 2 ^ 40 % 256) * 2 ^ 40 +
      (v / 2 ^ 32 % 256) * 2 ^ 32 + (v / 2 ^ 24 % 256) * 2 ^ 24 + (v / 2 ^ 16 % 256) * 2 ^ 16 +
      (v / 2 ^ 8 % 256) * 2 ^ 8 + v % 256 = v
  omega

/-- `be8` always encodes to 8 bytes. -/
theorem be8_length_thm (v : Nat) : (be8 v).length = 8 := rfl

/-- Reading past a prefix lands in the suffix. -/
theorem byteAt_append_right (pre l : List Nat) (i : Nat) :
    byteAt (pre ++ l) (pre.length + i) = byteAt l i := by
  unfold byteAt
  rw [List.getD_eq_getElem?_getD, List.getD_eq_getElem?_getD,
    List.getElem?_append_right (by omega)]
  congr 2
  omega

/-- Reading inside a prefix ignores the suffix. -/
theorem byteAt_append_left (l r : List Nat) (i : Nat) (h : i < l.length) :
    byteAt (l ++ r) i = byteAt l i := by
  unfold byteAt
  rw [List.getD_eq_getElem?_getD, List.getD_eq_getElem?_getD, List.getElem?_append_left h]

/-- Decoding the 8 bytes found right after a prefix recovers the value placed
there by `be8`. -/
theorem readU64_append (pre : List Nat) (v : Nat) (rest : List Nat) :
    readU64 (pre ++ be8 v ++ rest) pre.length = v := by
  have h0 : ∀ (k : Nat), k < 8 → byteAt (pre ++ be8 v ++ rest) (pre.length + k) =
      byteAt (be8 v) k := by
    intro k hk
    rw [List.append_assoc, byteAt_append_right, byteAt_append_left _ _ _ (by simpa using hk)]
  have e0 := h0 0 (by omega)
  rw [Nat.add_zero] at e0
  unfold readU64
  rw [e0, h0 1 (by omega), h0 2 (by omega), h0 3 (by omega), h0 4 (by omega),
    h0 5 (by omega), h0 6 (by omega), h0 7 (by omega)]
  have b0 : byteAt (be8 v) 0 = v / 2 ^ 56 := rfl
  have b1 : byteAt (be8 v) 1 = v / 2 ^ 48 % 256 := rfl
  have b2 : byteAt (be8 v) 2 = v / 2 ^ 40 % 256 := rfl
  have b3 : byteAt (be8 v) 3 = v / 2 ^ 32 % 256 := rfl
  have b4 : byteAt (be8 v) 4 = v / 2 ^ 24 % 256 := rfl
  have b5 : byteAt (be8 v) 5 = v / 2 ^ 16 % 256 := rfl
  have b6 : byteAt (be8 v) 6 = v / 2 ^ 8 % 256 := rfl
  have b7 : byteAt (be8 v) 7 = v % 256 := rfl
  rw [b0, b1, b2, b3, b4, b5, b6, b7]
  omega

/-- Slicing out a middle segment of an append. -/
theorem sliceAt_append (pre l rest : List Nat) :
    sliceAt (pre ++ l ++ rest) pre.length l.length = l := by
  unfold sliceAt
  rw [List.append_assoc, List.drop_left, List.take_left]

/-- Length of a successful pairs encoding: the sum of the slot sizes. -/
theorem encodePairs_length :
    ∀ (pairs : List KeyValuePair) (o : Nat) (bs : List Nat),
    encodePairs o pairs = .ok bs →
    bs.length = (pairs.map (fun kv => 1 + kv.key.length + VALUE_SIZE)).sum := by
  intro pairs
  induction pairs with
  | nil =>
    intro o bs h
    rw [encodePairs] at h
    injection h with h
    subst h
    rfl
  | cons kv rest ih =>
    intro o bs h
    rw [encodePairs] at h
    split at h
    · exact absurd h (by simp)
    · split at h
      · exact absurd h (by simp)
      · cases hrec : encodePairs (o + 1 + kv.key.length + VALUE_SIZE) rest with
        | error e => rw [hrec] at h; exact absurd h (by simp)
        | ok bs' =>
          rw [hrec] at h
          injection h with h
          subst h
          have := ih _ _ hrec
          simp only [List.map_cons, List.sum_cons, List.length_append, List.length_cons,
            be8_length_thm, this]
          simp only [VALUE_SIZE]
          omega

/-- Length of a successful keys encoding. -/
theorem encodeKeys_length :
    ∀ (keys : List Key) (o : Nat) (bs : List Nat),
    encodeKeys o keys = .ok bs →
    bs.length = (keys.map (fun k => 1 + k.length)).sum := by
  intro keys
  induction keys with
  | nil =>
    intro o bs h
    rw [encodeKeys] at h
    injection h with h
    subst h
    rfl
  | cons k rest ih =>
    intro o bs h
    rw [encodeKeys] at h
    split at h
    · exact absurd h (by simp)
    · split at h
      · exact absurd h (by simp)
      · cases hrec : encodeKeys (o + 1 + k.length) rest with
        | error e => rw [hrec] at h; exact absurd h (by simp)
        | ok bs' =>
          rw [hrec] at h
          injection h with h
          subst h
          have := ih _ _ hrec
          simp only [List.map_cons, List.sum_cons, List.length_append, List.length_cons, this]
          omega

/-- Length of a successful children encoding. -/
theorem encodeChildren_length :
    ∀ (children : List Nat) (o : Nat) (bs : List Nat),
    encodeChildren o children = .ok bs →
    bs.length = 8 * children.length := by
  intro children
  induction children with
  | nil =>
    intro o bs h
    rw [encodeChildren] at h
    injection h with h
    subst h
    rfl
  | cons c rest ih =>
    intro o bs h
    rw [encodeChildren] at h
    split at h
    · exact absurd h (by simp)
    · cases hrec : encodeChildren (o + PTR_SIZE) rest with
      | error e => rw [hrec] at h; exact absurd h (by simp)
      | ok bs' =>
        rw [hrec] at h
        injection h with h
        subst h
        have := ih _ _ hrec
        simp only [List.length_append, List.length_cons, be8_length_thm, this]
        omega

/-- Parsing a serialised pairs section (at its own offset, with arbitrary
surrounding bytes) recovers the pairs. -/
theorem parsePairs_of_encode :
    ∀ (pairs : List KeyValuePair) (pre post bs : List Nat),
    encodePairs pre.length pairs = .ok bs →
    (∀ kv ∈ pairs, 1 ≤ kv.key.length) →
    parsePairs ⟨pre ++ bs ++ post⟩ pre.length pairs.length = .ok pairs := by
  intro pairs
  induction pairs with
  | nil =>
    intro pre post bs h _
    rw [encodePairs] at h
    injection h with h
    subst h
    rfl
  | cons kv rest ih =>
    intro pre post bs h hk
    rw [encodePairs] at h
    split at h
    · exact absurd h (by simp)
    · rename_i hbound
      split at h
      · exact absurd h (by simp)
      · rename_i hsize
        cases hrec : encodePairs (pre.length + 1 + kv.key.length + VALUE_SIZE) rest with
        | error e => rw [hrec] at h; exact absurd h (by simp)
        | ok bs' =>
          rw [hrec] at h
          injection h with h
          subst h
          have hklen : 1 ≤ kv.key.length := hk kv (List.mem_cons_self kv rest)
          have f1 : byteAt (pre ++ ((kv.key.length :: kv.key) ++ be8 kv.value ++ bs') ++ post)
              pre.length = kv.key.length := by
            rw [List.append_assoc]
            have := byteAt_append_right pre
              (((kv.key.length :: kv.key) ++ be8 kv.value ++ bs') ++ post) 0
            rw [Nat.add_zero] at this
            rw [this]
            rfl
          have hd2 : pre ++ ((kv.key.length :: kv.key) ++ be8 kv.value ++ bs') ++ post =
              (pre ++ (kv.key.length :: kv.key)) ++ be8 kv.value ++ (bs' ++ post) := by
            simp [List.append_assoc]
          have hlen2 : (pre ++ (kv.key.length :: kv.key)).length =
              pre.length + 1 + kv.key.length := by
            simp only [List.length_append, List.length_cons]
            omega
          have f2 : readU64 (pre ++ ((kv.key.length :: kv.key) ++ be8 kv.value ++ bs') ++ post)
              (pre.length + 1 + kv.key.length) = kv.value := by
            rw [hd2, ← hlen2]
            exact readU64_append _ _ _
          have hd3 : pre ++ ((kv.key.length :: kv.key) ++ be8 kv.value ++ bs') ++ post =
              (pre ++ [kv.key.length]) ++ kv.key ++ (be8 kv.value ++ bs' ++ post) := by
            simp [List.append_assoc]
          have hlen3 : (pre ++ [kv.key.length]).length = pre.length + 1 := by simp
          have f3 : sliceAt (pre ++ ((kv.key.length :: kv.key) ++ be8 kv.value ++ bs') ++ post)
              (pre.length + 1) kv.key.length = kv.key := by
            rw [hd3, ← hlen3]
            have := sliceAt_append (pre ++ [kv.key.length]) kv.key
              (be8 kv.value ++ bs' ++ post)
            exact this
          have hd4 : pre ++ ((kv.key.length :: kv.key) ++ be8 kv.value ++ bs') ++ post =
              (pre ++ (kv.key.length :: kv.key) ++ be8 kv.value) ++ bs' ++ post := by
            simp [List.append_assoc]
          have hlen4 : (pre ++ (kv.key.length :: kv.key) ++ be8 kv.value).length =
              pre.length + 1 + kv.key.length + VALUE_SIZE := by
            simp only [List.length_append, List.length_cons, be8_length_thm, VALUE_SIZE]
            omega
          have f4 : parsePairs ⟨pre ++ ((kv.key.length :: kv.key) ++ be8 kv.value ++ bs') ++
              post⟩ (pre.length + 1 + kv.key.length + PTR_SIZE) rest.length = .ok rest := by
            have heq : (PTR_SIZE : Nat) = VALUE_SIZE := rfl
            rw [heq]
            have := ih (pre ++ (kv.key.length :: kv.key) ++ be8 kv.value) post bs'
              (by rw [hlen4]; exact hrec)
              (fun kv hkv => hk kv (List.mem_cons_of_mem _ hkv))
            rw [hlen4] at this
            rw [hd4]
            exact this
          show parsePairs ⟨pre ++ ((kv.key.length :: kv.key) ++ be8 kv.value ++ bs') ++ post⟩
            pre.length (rest.length + 1) = .ok (kv :: rest)
          rw [parsePairs]
          show (if byteAt (pre ++ ((kv.key.length :: kv.key) ++ be8 kv.value ++ bs') ++ post)
              pre.length = 0 then _ else _) = _
          rw [f1, if_neg (by omega)]
          have hval : Page.get_usize_from_offset
              ⟨pre ++ ((kv.key.length :: kv.key) ++ be8 kv.value ++ bs') ++ post⟩
              (pre.length + 1 + kv.key.length) = .ok kv.value := by
            unfold Page.get_usize_from_offset
            rw [if_neg (by
              simp only [PAGE_SIZE, PTR_SIZE, KEY_MAX_SIZE, VALUE_SIZE] at hsize ⊢
              omega)]
            rw [f2]
          rw [hval, f4, f3]

/-- Parsing a serialised keys section recovers the keys and lands at the
offset right after it. -/
theorem parseKeys_of_encode :
    ∀ (keys : List Key) (pre post bs : List Nat),
    encodeKeys pre.length keys = .ok bs →
    (∀ k ∈ keys, 1 ≤ k.length) →
    parseKeys (pre ++ bs ++ post) pre.length keys.length =
      .ok (keys, pre.length + bs.length) := by
  intro keys
  induction keys with
  | nil =>
    intro pre post bs h _
    rw [encodeKeys] at h
    injection h with h
    subst h
    show Except.ok ([], pre.length) = Except.ok ([], pre.length + ([] : List Nat).length)
    rfl
  | cons k rest ih =>
    intro pre post bs h hk
    rw [encodeKeys] at h
    split at h
    · exact absurd h (by simp)
    · rename_i hbound
      split at h
      · exact absurd h (by simp)
      · rename_i hsize
        cases hrec : encodeKeys (pre.length + 1 + k.length) rest with
        | error e => rw [hrec] at h; exact absurd h (by simp)
        | ok bs' =>
          rw [hrec] at h
          injection h with h
          subst h
          have hklen : 1 ≤ k.length := hk k (List.mem_cons_self k rest)
          have f1 : byteAt (pre ++ ((k.length :: k) ++ bs') ++ post) pre.length
              = k.length := by
            rw [List.append_assoc]
            have := byteAt_append_right pre (((k.length :: k) ++ bs') ++ post) 0
            rw [Nat.add_zero] at this
            rw [this]
            rfl
          have hd3 : pre ++ ((k.length :: k) ++ bs') ++ post =
              (pre ++ [k.length]) ++ k ++ (bs' ++ post) := by
            simp [List.append_assoc]
          have hlen3 : (pre ++ [k.length]).length = pre.length + 1 := by simp
          have f3 : sliceAt (pre ++ ((k.length :: k) ++ bs') ++ post)
              (pre.length + 1) k.length = k := by
            rw [hd3, ← hlen3]
            exact sliceAt_append (pre ++ [k.length]) k (bs' ++ post)
          have hd4 : pre ++ ((k.length :: k) ++ bs') ++ post =
              (pre ++ (k.length :: k)) ++ bs' ++ post := by
            simp [List.append_assoc]
          have hlen4 : (pre ++ (k.length :: k)).length = pre.length + 1 + k.length := by
            simp only [List.length_append, List.length_cons]
            omega
          have f4 : parseKeys (pre ++ ((k.length :: k) ++ bs') ++ post)
              (pre.length + 1 + k.length) rest.length =
              .ok (rest, pre.length + 1 + k.length + bs'.length) := by
            have := ih (pre ++ (k.length :: k)) post bs'
              (by rw [hlen4]; exact hrec)
              (fun k hkk => hk k (List.mem_cons_of_mem _ hkk))
            rw [hlen4] at this
            rw [hd4]
            exact this
          show parseKeys (pre ++ ((k.length :: k) ++ bs') ++ post)
            pre.length (rest.length + 1) =
            .ok (k :: rest, pre.length + ((k.length :: k) ++ bs').length)
          rw [parseKeys]
          show (if byteAt (pre ++ ((k.length :: k) ++ bs') ++ post) pre.length = 0
            then _ else _) = _
          rw [f1, if_neg (by omega), f4, f3]
          show Except.ok (k :: rest, pre.length + 1 + k.length + bs'.length) = _
          have : pre.length + ((k.length :: k) ++ bs').length =
              pre.length + 1 + k.length + bs'.length := by
            simp only [List.length_append, List.length_cons]
            omega
          rw [this]

/-- Parsing a serialised children section recovers the child offsets and
lands at the offset right after it. -/
theorem parseChildren_of_encode :
    ∀ (children : List Nat) (pre post bs : List Nat),
    encodeChildren pre.length children = .ok bs →
    parseChildren ⟨pre ++ bs ++ post⟩ pre.length children.length =
      .ok (children, pre.length + bs.length) := by
  intro children
  induction children with
  | nil =>
    intro pre post bs h
    rw [encodeChildren] at h
    injection h with h
    subst h
    show Except.ok ([], pre.length) = Except.ok ([], pre.length + ([] : List Nat).length)
    rfl
  | cons c rest ih =>
    intro pre post bs h
    rw [encodeChildren] at h
    split at h
    · exact absurd h (by simp)
    · rename_i hsize
      cases hrec : encodeChildren (pre.length + PTR_SIZE) rest with
      | error e => rw [hrec] at h; exact absurd h (by simp)
      | ok bs' =>
        rw [hrec] at h
        injection h with h
        subst h
        have hd2 : pre ++ (be8 c ++ bs') ++ post = pre ++ be8 c ++ (bs' ++ post) := by
          simp [List.append_assoc]
        have f2 : readU64 (pre ++ (be8 c ++ bs') ++ post) pre.length = c := by
          rw [hd2]
          exact readU64_append pre c (bs' ++ post)
        have hval : Page.get_usize_from_offset ⟨pre ++ (be8 c ++ bs') ++ post⟩ pre.length
            = .ok c := by
          unfold Page.get_usize_from_offset
          rw [if_neg (by
            simp only [PAGE_SIZE, PTR_SIZE] at hsize ⊢
            omega)]
          rw [f2]
        have hd4 : pre ++ (be8 c ++ bs') ++ post = (pre ++ be8 c) ++ bs' ++ post := by
          simp [List.append_assoc]
        have hlen4 : (pre ++ be8 c).length = pre.length + PTR_SIZE := by
          simp only [List.length_append, be8_length_thm, PTR_SIZE]
        have f4 : parseChildren ⟨pre ++ (be8 c ++ bs') ++ post⟩ (pre.length + PTR_SIZE)
            rest.length = .ok (rest, pre.length + PTR_SIZE + bs'.length) := by
          have := ih (pre ++ be8 c) post bs' (by rw [hlen4]; exact hrec)
          rw [hlen4] at this
          rw [hd4]
          exact this
        show parseChildren ⟨pre ++ (be8 c ++ bs') ++ post⟩ pre.length (rest.length + 1) =
          .ok (c :: rest, pre.length + (be8 c ++ bs').length)
        rw [parseChildren, hval, f4]
        show Except.ok (c :: rest, pre.length + PTR_SIZE + bs'.length) = _
        have : pre.length + (be8 c ++ bs').length = pre.length + PTR_SIZE + bs'.length := by
          simp only [List.length_append, be8_length_thm, PTR_SIZE]
          omega
        rw [this]

/-- Deserialising the page image of a root-less leaf with absent sibling
pointers recovers the pairs, with `occupied_space` recomputed (including the
load-bearing `+ 1`). -/
theorem nodeOfPage_leaf_page (pairs : List KeyValuePair) (pairBytes : List Nat)
    (hep : encodePairs LEAF_HEADER_SIZE pairs = .ok pairBytes)
    (hk : ∀ kv ∈ pairs, 1 ≤ kv.key.length) :
    nodeOfPage ⟨padPage ([1, 1] ++ be8 0 ++ be8 0 ++ be8 0
        ++ be8 pairs.length ++ pairBytes)⟩ =
      .ok ⟨.leaf none none pairs
        ((pairs.map (fun kv => 1 + kv.key.length + VALUE_SIZE)).sum + LEAF_HEADER_SIZE + 1),
        none⟩ := by
  set p : Page := ⟨padPage ([1, 1] ++ be8 0 ++ be8 0 ++ be8 0
    ++ be8 pairs.length ++ pairBytes)⟩ with hp
  have f_isroot : byteAt p.data IS_ROOT_OFFSET = 1 := rfl
  have f_kind : byteAt p.data NODE_KIND_OFFSET = 1 := rfl
  have f_next : p.get_usize_from_offset LEAF_NEXT_OFFSET = .ok 0 := by
    unfold Page.get_usize_from_offset
    rw [if_neg (by simp [PAGE_SIZE, PTR_SIZE, LEAF_NEXT_OFFSET, NODE_HEADER_SIZE])]
    have hA : p.data = ([1, 1] ++ be8 0) ++ be8 0 ++
        (be8 0 ++ be8 pairs.length ++ pairBytes ++
          List.replicate (PAGE_SIZE - ([1, 1] ++ be8 0 ++ be8 0 ++ be8 0
            ++ be8 pairs.length ++ pairBytes).length) 0) := by
      rw [hp]
      show padPage _ = _
      unfold padPage
      simp [List.append_assoc]
    rw [hA]
    exact congrArg Except.ok (readU64_append ([1, 1] ++ be8 0) 0 _)
  have f_prev : p.get_usize_from_offset LEAF_PREVIOUS_OFFSET = .ok 0 := by
    unfold Page.get_usize_from_offset
    rw [if_neg (by
      simp [PAGE_SIZE, PTR_SIZE, LEAF_PREVIOUS_OFFSET, LEAF_NEXT_OFFSET, NODE_HEADER_SIZE])]
    have hA : p.data = ([1, 1] ++ be8 0 ++ be8 0) ++ be8 0 ++
        (be8 pairs.length ++ pairBytes ++
          List.replicate (PAGE_SIZE - ([1, 1] ++ be8 0 ++ be8 0 ++ be8 0
            ++ be8 pairs.length ++ pairBytes).length) 0) := by
      rw [hp]
      show padPage _ = _
      unfold padPage
      simp [List.append_assoc]
    rw [hA]
    exact congrArg Except.ok (readU64_append ([1, 1] ++ be8 0 ++ be8 0) 0 _)
  have f_cnt : p.get_usize_from_offset LEAF_KEY_COUNT_OFFSET = .ok pairs.length := by
    unfold Page.get_usize_from_offset
    rw [if_neg (by
      simp [PAGE_SIZE, PTR_SIZE, LEAF_KEY_COUNT_OFFSET, LEAF_PREVIOUS_OFFSET,
        LEAF_NEXT_OFFSET, NODE_HEADER_SIZE])]
    have hA : p.data = ([1, 1] ++ be8 0 ++ be8 0 ++ be8 0) ++ be8 pairs.length ++
        (pairBytes ++
          List.replicate (PAGE_SIZE - ([1, 1] ++ be8 0 ++ be8 0 ++ be8 0
            ++ be8 pairs.length ++ pairBytes).length) 0) := by
      rw [hp]
      show padPage _ = _
      unfold padPage
      simp [List.append_assoc]
    rw [hA]
    exact congrArg Except.ok (readU64_append ([1, 1] ++ be8 0 ++ be8 0 ++ be8 0) _ _)
  have hlenH : ([1, 1] ++ be8 0 ++ be8 0 ++ be8 0 ++ be8 pairs.length).length =
      LEAF_HEADER_SIZE := rfl
  have hep' : encodePairs ([1, 1] ++ be8 0 ++ be8 0 ++ be8 0 ++ be8 pairs.length).length
      pairs = .ok pairBytes := by rw [hlenH]; exact hep
  have f_pairs : parsePairs p LEAF_HEADER_SIZE pairs.length = .ok pairs := by
    have := parsePairs_of_encode pairs
      ([1, 1] ++ be8 0 ++ be8 0 ++ be8 0 ++ be8 pairs.length)
      (List.replicate (PAGE_SIZE - ([1, 1] ++ be8 0 ++ be8 0 ++ be8 0
        ++ be8 pairs.length ++ pairBytes).length) 0) pairBytes hep' hk
    rw [hlenH] at this
    exact this
  rw [nodeOfPage]
  show (match p.get_usize_from_offset LEAF_NEXT_OFFSET with
    | Except.error e => Except.error e
    | Except.ok next_addr =>
      match p.get_usize_from_offset LEAF_PREVIOUS_OFFSET with
      | Except.error e => Except.error e
      | Except.ok prev_addr =>
        match p.get_usize_from_offset LEAF_KEY_COUNT_OFFSET with
        | Except.error e => Except.error e
        | Except.ok number_of_keys =>
          match parsePairs p LEAF_HEADER_SIZE number_of_keys with
          | Except.error e => Except.error e
          | Except.ok key_value_pairs =>
            Except.ok (⟨.leaf (if next_addr = 0 then none else some next_addr)
              (if prev_addr = 0 then none else some prev_addr) key_value_pairs
              ((key_value_pairs.map (fun kv : KeyValuePair =>
                1 + kv.key.length + VALUE_SIZE)).sum
                + LEAF_HEADER_SIZE + 1), none⟩ : Node)) = _
  rw [f_next, f_prev, f_cnt]
  show (match parsePairs p LEAF_HEADER_SIZE pairs.length with
    | Except.error e => Except.error e
    | Except.ok key_value_pairs =>
      Except.ok (⟨.leaf none none key_value_pairs
        ((key_value_pairs.map (fun kv : KeyValuePair =>
          1 + kv.key.length + VALUE_SIZE)).sum
          + LEAF_HEADER_SIZE + 1), none⟩ : Node)) = _
  rw [f_pairs]

/-- Unfolding equation for serialising a leaf. -/
theorem pageOfNode_leaf_eq (next previous : Option Nat) (pairs : List KeyValuePair)
    (occ : Nat) (par : Option Nat) :
    pageOfNode ⟨.leaf next previous pairs occ, par⟩ =
      match encodePairs LEAF_HEADER_SIZE pairs with
      | .error e => .error e
      | .ok pairBytes =>
        .ok ⟨padPage ([boolByte (par = none), 1] ++ be8 (par.getD 0) ++ be8 (next.getD 0)
          ++ be8 (previous.getD 0) ++ be8 pairs.length ++ pairBytes)⟩ := rfl

/-- Unfolding equation for serialising an internal node. -/
theorem pageOfNode_internal_eq (keys : List Key) (children : List Nat) (occ : Nat)
    (par : Option Nat) :
    pageOfNode ⟨.internal keys children occ, par⟩ =
      match encodeKeys INTERNAL_HEADER_SIZE keys with
      | .error e => .error e
      | .ok keyBytes =>
        match encodeChildren (INTERNAL_HEADER_SIZE + keyBytes.length) children with
        | .error e => .error e
        | .ok childBytes =>
          .ok ⟨padPage ([boolByte (par = none), 0] ++ be8 (par.getD 0)
            ++ be8 children.length ++ keyBytes ++ childBytes)⟩ := rfl

/-- Round trip for leaves, stated on `pageOfNode`. -/
theorem nodeOfPage_pageOfNode_leaf (pairs : List KeyValuePair) (occ : Nat) (p : Page)
    (h : pageOfNode ⟨.leaf none none pairs occ, none⟩ = .ok p)
    (hk : ∀ kv ∈ pairs, 1 ≤ kv.key.length) :
    nodeOfPage p = .ok ⟨.leaf none none pairs
      ((pairs.map (fun kv => 1 + kv.key.length + VALUE_SIZE)).sum + LEAF_HEADER_SIZE + 1),
      none⟩ := by
  rw [pageOfNode_leaf_eq] at h
  cases hep : encodePairs LEAF_HEADER_SIZE pairs with
  | error e => rw [hep] at h; exact absurd h (by simp)
  | ok pairBytes =>
    rw [hep] at h
    injection h with h
    subst h
    exact nodeOfPage_leaf_page pairs pairBytes hep hk

/-- Deserialising the page image of a root-less internal node recovers it,
with `occupied_space` recomputed. -/
theorem nodeOfPage_internal_page (keys : List Key) (children : List Nat)
    (keyBytes childBytes : List Nat)
    (hek : encodeKeys INTERNAL_HEADER_SIZE keys = .ok keyBytes)
    (hec : encodeChildren (INTERNAL_HEADER_SIZE + keyBytes.length) children = .ok childBytes)
    (hlen : children.length = keys.length + 1)
    (hk : ∀ k ∈ keys, 1 ≤ k.length) :
    nodeOfPage ⟨padPage ([1, 0] ++ be8 0 ++ be8 children.length ++ keyBytes ++ childBytes)⟩ =
      .ok ⟨.internal keys children
        (INTERNAL_HEADER_SIZE + keyBytes.length + childBytes.length + 1), none⟩ := by
  set p : Page :=
    ⟨padPage ([1, 0] ++ be8 0 ++ be8 children.length ++ keyBytes ++ childBytes)⟩ with hp
  have f_cnt : p.get_usize_from_offset INTERNAL_CHILD_COUNT_OFFSET = .ok children.length := by
    unfold Page.get_usize_from_offset
    rw [if_neg (by
      simp [PAGE_SIZE, PTR_SIZE, INTERNAL_CHILD_COUNT_OFFSET, NODE_HEADER_SIZE])]
    have hA : p.data = ([1, 0] ++ be8 0) ++ be8 children.length ++
        (keyBytes ++ childBytes ++ List.replicate (PAGE_SIZE -
          ([1, 0] ++ be8 0 ++ be8 children.length ++ keyBytes ++ childBytes).length) 0) := by
      rw [hp]
      show padPage _ = _
      unfold padPage
      simp [List.append_assoc]
    rw [hA]
    exact congrArg Except.ok (readU64_append ([1, 0] ++ be8 0) _ _)
  have hlenH : ([1, 0] ++ be8 0 ++ be8 children.length).length = INTERNAL_HEADER_SIZE := rfl
  have hek' : encodeKeys ([1, 0] ++ be8 0 ++ be8 children.length).length keys =
      .ok keyBytes := by rw [hlenH]; exact hek
  have f_keys : parseKeys p.data INTERNAL_HEADER_SIZE keys.length =
      .ok (keys, INTERNAL_HEADER_SIZE + keyBytes.length) := by
    have hA : p.data = ([1, 0] ++ be8 0 ++ be8 children.length) ++ keyBytes ++
        (childBytes ++ List.replicate (PAGE_SIZE -
          ([1, 0] ++ be8 0 ++ be8 children.length ++ keyBytes ++ childBytes).length) 0) := by
      rw [hp]
      show padPage _ = _
      unfold padPage
      simp [List.append_assoc]
    rw [hA]
    have := parseKeys_of_encode keys ([1, 0] ++ be8 0 ++ be8 children.length)
      (childBytes ++ List.replicate (PAGE_SIZE -
        ([1, 0] ++ be8 0 ++ be8 children.length ++ keyBytes ++ childBytes).length) 0)
      keyBytes hek' hk
    rw [hlenH] at this
    exact this
  have f_keys' : parseKeys p.data INTERNAL_HEADER_SIZE (children.length - 1) =
      .ok (keys, INTERNAL_HEADER_SIZE + keyBytes.length) := by
    rw [hlen, Nat.add_sub_cancel]
    exact f_keys
  have hlenH2 : (([1, 0] ++ be8 0 ++ be8 children.length) ++ keyBytes).length =
      INTERNAL_HEADER_SIZE + keyBytes.length := by
    simp only [List.length_append, List.length_cons, List.length_nil, be8_length_thm,
      INTERNAL_HEADER_SIZE, NODE_HEADER_SIZE, PTR_SIZE]
  have hec' : encodeChildren (([1, 0] ++ be8 0 ++ be8 children.length) ++ keyBytes).length
      children = .ok childBytes := by rw [hlenH2]; exact hec
  have f_children : parseChildren p (INTERNAL_HEADER_SIZE + keyBytes.length)
      children.length =
      .ok (children, INTERNAL_HEADER_SIZE + keyBytes.length + childBytes.length) := by
    have hA : p = ⟨(([1, 0] ++ be8 0 ++ be8 children.length) ++ keyBytes) ++ childBytes ++
        List.replicate (PAGE_SIZE -
          ([1, 0] ++ be8 0 ++ be8 children.length ++ keyBytes ++ childBytes).length) 0⟩ := by
      rw [hp]
      refine congrArg Page.mk ?_
      show padPage _ = _
      unfold padPage
      simp [List.append_assoc]
    rw [hA]
    have := parseChildren_of_encode children
      (([1, 0] ++ be8 0 ++ be8 children.length) ++ keyBytes)
      (List.replicate (PAGE_SIZE -
        ([1, 0] ++ be8 0 ++ be8 children.length ++ keyBytes ++ childBytes).length) 0)
      childBytes hec'
    rw [hlenH2] at this
    exact this
  rw [nodeOfPage]
  show (match p.get_usize_from_offset INTERNAL_CHILD_COUNT_OFFSET with
    | Except.error e => Except.error e
    | Except.ok child_count =>
      match parseKeys p.data INTERNAL_HEADER_SIZE (child_count - 1) with
      | Except.error e => Except.error e
      | Except.ok (ks, offset) =>
        match parseChildren p offset child_count with
        | Except.error e => Except.error e
        | Except.ok (cs, offset) =>
          Except.ok (⟨.internal ks cs (offset + 1), none⟩ : Node)) = _
  rw [f_cnt]
  show (match parseKeys p.data INTERNAL_HEADER_SIZE (children.length - 1) with
    | Except.error e => Except.error e
    | Except.ok (ks, offset) =>
      match parseChildren p offset children.length with
      | Except.error e => Except.error e
      | Except.ok (cs, offset) =>
        Except.ok (⟨.internal ks cs (offset + 1), none⟩ : Node)) = _
  rw [f_keys']
  show (match parseChildren p (INTERNAL_HEADER_SIZE + keyBytes.length) children.length with
    | Except.error e => Except.error e
    | Except.ok (cs, offset) =>
      Except.ok (⟨.internal keys cs (offset + 1), none⟩ : Node)) = _
  rw [f_children]

/-- Round trip for internal nodes, stated on `pageOfNode`. -/
theorem nodeOfPage_pageOfNode_internal (keys : List Key) (children : List Nat)
    (occ : Nat) (p : Page)
    (h : pageOfNode ⟨.internal keys children occ, none⟩ = .ok p)
    (hlen : children.length = keys.length + 1)
    (hk : ∀ k ∈ keys, 1 ≤ k.length) :
    nodeOfPage p = .ok ⟨.internal keys children
      (INTERNAL_HEADER_SIZE + (keys.map (fun k => 1 + k.length)).sum
        + 8 * children.length + 1), none⟩ := by
  rw [pageOfNode_internal_eq] at h
  cases hek : encodeKeys INTERNAL_HEADER_SIZE keys with
  | error e => rw [hek] at h; exact absurd h (by simp)
  | ok keyBytes =>
    rw [hek] at h
    replace h : (match encodeChildren (INTERNAL_HEADER_SIZE + keyBytes.length) children with
      | Except.error e => (Except.error e : Except Error Page)
      | Except.ok childBytes =>
        Except.ok ⟨padPage ([1, 0] ++ be8 0 ++ be8 children.length
          ++ keyBytes ++ childBytes)⟩) = Except.ok p := h
    cases hec : encodeChildren (INTERNAL_HEADER_SIZE + keyBytes.length) children with
    | error e => rw [hec] at h; exact absurd h (by simp)
    | ok childBytes =>
      rw [hec] at h
      injection h with h
      subst h
      have := nodeOfPage_internal_page keys children keyBytes childBytes hek hec hlen hk
      rw [encodeKeys_length keys _ _ hek, encodeChildren_length children _ _ hec] at this
      exact this

/-- The pairs encoder succeeds whenever every key fits in a length byte and
the section ends by byte `PAGE_SIZE - 1`. -/
theorem encodePairs_ok :
    ∀ (pairs : List KeyValuePair) (o : Nat),
    (∀ kv ∈ pairs, kv.key.length ≤ KEY_MAX_SIZE) →
    o + (pairs.map (fun kv => 1 + kv.key.length + VALUE_SIZE)).sum ≤ PAGE_SIZE - 1 →
    ∃ bs, encodePairs o pairs = .ok bs := by
  intro pairs
  induction pairs with
  | nil => intro o _ _; exact ⟨[], rfl⟩
  | cons kv rest ih =>
    intro o hk hsz
    simp only [List.map_cons, List.sum_cons] at hsz
    obtain ⟨bs', hbs'⟩ := ih (o + 1 + kv.key.length + VALUE_SIZE)
      (fun x hx => hk x (List.mem_cons_of_mem _ hx))
      (by simp only [VALUE_SIZE] at hsz ⊢; omega)
    refine ⟨(kv.key.length :: kv.key) ++ be8 kv.value ++ bs', ?_⟩
    rw [encodePairs]
    rw [if_neg (by
      have := hk kv (List.mem_cons_self kv rest)
      omega)]
    rw [if_neg (by
      simp only [PAGE_SIZE, VALUE_SIZE] at hsz ⊢
      omega)]
    rw [hbs']

/-- The keys encoder succeeds whenever every key fits in a length byte and
the section ends by byte `PAGE_SIZE`. -/
theorem encodeKeys_ok :
    ∀ (keys : List Key) (o : Nat),
    (∀ k ∈ keys, k.length ≤ KEY_MAX_SIZE) →
    o + (keys.map (fun k => 1 + k.length)).sum ≤ PAGE_SIZE →
    ∃ bs, encodeKeys o keys = .ok bs := by
  intro keys
  induction keys with
  | nil => intro o _ _; exact ⟨[], rfl⟩
  | cons k rest ih =>
    intro o hk hsz
    simp only [List.map_cons, List.sum_cons] at hsz
    obtain ⟨bs', hbs'⟩ := ih (o + 1 + k.length)
      (fun x hx => hk x (List.mem_cons_of_mem _ hx))
      (by omega)
    refine ⟨(k.length :: k) ++ bs', ?_⟩
    rw [encodeKeys]
    rw [if_neg (by
      have := hk k (List.mem_cons_self k rest)
      omega)]
    rw [if_neg (by omega)]
    rw [hbs']

/-- The children encoder succeeds whenever the section ends by byte
`PAGE_SIZE - 1`. -/
theorem encodeChildren_ok :
    ∀ (children : List Nat) (o : Nat),
    o + 8 * children.length ≤ PAGE_SIZE - 1 →
    ∃ bs, encodeChildren o children = .ok bs := by
  intro children
  induction children with
  | nil => intro o _; exact ⟨[], rfl⟩
  | cons c rest ih =>
    intro o hsz
    simp only [List.length_cons] at hsz
    obtain ⟨bs', hbs'⟩ := ih (o + PTR_SIZE) (by simp only [PTR_SIZE] at hsz ⊢; omega)
    refine ⟨be8 c ++ bs', ?_⟩
    rw [encodeChildren]
    rw [if_neg (by simp only [PAGE_SIZE, PTR_SIZE] at hsz ⊢; omega)]
    rw [hbs']

/-- Serialising a leaf succeeds under the size bound that the occupied-space
accounting maintains. -/
theorem pageOfNode_leaf_ok (next previous : Option Nat) (pairs : List KeyValuePair)
    (occ : Nat) (par : Option Nat)
    (hk : ∀ kv ∈ pairs, kv.key.length ≤ KEY_MAX_SIZE)
    (hsz : LEAF_HEADER_SIZE + (pairs.map (fun kv => 1 + kv.key.length + VALUE_SIZE)).sum ≤
      PAGE_SIZE - 1) :
    ∃ p, pageOfNode ⟨.leaf next previous pairs occ, par⟩ = .ok p := by
  obtain ⟨bs, hbs⟩ := encodePairs_ok pairs LEAF_HEADER_SIZE hk hsz
  rw [pageOfNode_leaf_eq, hbs]
  exact ⟨_, rfl⟩

/-- Serialising an internal node succeeds under the corresponding size
bound. -/
theorem pageOfNode_internal_ok (keys : List Key) (children : List Nat) (occ : Nat)
    (par : Option Nat)
    (hk : ∀ k ∈ keys, k.length ≤ KEY_MAX_SIZE)
    (hsz : INTERNAL_HEADER_SIZE + (keys.map (fun k => 1 + k.length)).sum +
      8 * children.length ≤ PAGE_SIZE - 1) :
    ∃ p, pageOfNode ⟨.internal keys children occ, par⟩ = .ok p := by
  obtain ⟨keyBytes, hkb⟩ := encodeKeys_ok keys INTERNAL_HEADER_SIZE hk
    (by simp only [PAGE_SIZE] at hsz ⊢; omega)
  obtain ⟨childBytes, hcb⟩ := encodeChildren_ok children
    (INTERNAL_HEADER_SIZE + keyBytes.length)
    (by rw [encodeKeys_length keys _ _ hkb]; omega)
  refine ⟨⟨padPage ([boolByte (decide (par = none)), 0] ++ be8 (par.getD 0)
    ++ be8 children.length ++ keyBytes ++ childBytes)⟩, ?_⟩
  rw [pageOfNode_internal_eq, hkb]
  show (match encodeChildren (INTERNAL_HEADER_SIZE + keyBytes.length) children with
    | Except.error e => (Except.error e : Except Error Page)
    | Except.ok childBytes =>
      Except.ok ⟨padPage ([boolByte (decide (par = none)), 0] ++ be8 (par.getD 0)
        ++ be8 children.length ++ keyBytes ++ childBytes)⟩) = _
  rw [hcb]

/-- **C9** (counterexample).  The claim says a read of 8 bytes at offset `o`
fails exactly when `o + 8 > PAGE_SIZE`, so the read at `o = 8184` (with
`8184 + 8 = PAGE_SIZE`, hence not `> PAGE_SIZE`) should succeed; the source
test `offset >= PAGE_SIZE - PTR_SIZE` rejects it. -/
theorem claimC9_counterexample :
    8184 + 8 ≤ PAGE_SIZE ∧
    Page.new_empty.get_usize_from_offset 8184 = .error .UnexpectedError :=
  ⟨by decide, rfl⟩

/-- **C9** (amended).  Reading an 8-byte big-endian integer from a page at
offset `o` fails exactly when `o + 8 ≥ PAGE_SIZE` (not `>`); for every offset
with `o + 8 < PAGE_SIZE` the read succeeds and returns the big-endian integer
stored at bytes `o..o+8`. -/
theorem claimC9 (p : Page) (offset : Nat) :
    p.get_usize_from_offset offset =
      if offset + 8 ≥ PAGE_SIZE then .error .UnexpectedError
      else .ok (readU64 p.data offset) :=
  get_usize_from_offset_eq p offset

/-- **C8** (counterexample).  The claim says the child followed by the
descent is at the index of the first separator key strictly greater than the
query, which for separator keys `["b"]` and query `"b"` is index `1` (the
right child); the routing index actually computed by
`keys.binary_search(&q).unwrap_or_else(|x| x)` is `0` (the left child). -/
theorem claimC8_counterexample :
    childIdx [[98]] [98] = 0 ∧ firstGtIdx [[98]] [98] = 1 :=
  ⟨rfl, rfl⟩

/-- **C8** (amended).  When descending through an internal node, the child
followed is the one at the index of the first separator key greater than *or
equal to* the query (`keys.len()` when no such key exists); in particular a
query equal to a separator key is routed to the child on the *left* of that
separator (the child slot with the separator's own index). -/
theorem claimC8 (keys : List Key) (q : Key) (hs : keys.Pairwise (· < ·)) :
    (∀ (st : PagerState) (fuel : Nat) (children : List Nat) (occ : Nat) (par : Option Nat),
      BTree.search_node st (fuel + 1) ⟨.internal keys children occ, par⟩ q =
        (match children[firstGeIdx keys q]? with
         | none => (Except.error Error.InternalNodeNoChild, st)
         | some child_offset =>
           match nodeOfPage (Pager.get_page st child_offset) with
           | Except.error e => (Except.error e, st)
           | Except.ok child_node => BTree.search_node st fuel child_node q)) ∧
    childIdx keys q = firstGeIdx keys q ∧
    (∀ i, i < keys.length → keys.getD i [] = q → childIdx keys q = i) := by
  have hge : childIdx keys q = firstGeIdx keys q := by
    rw [childIdx_eq_countP keys q hs, firstGeIdx_eq_countP keys q hs]
  refine ⟨?_, hge, fun i hi he => childIdx_of_getD_eq keys q hs i hi he⟩
  intro st fuel children occ par
  show (match children[childIdx keys q]? with
    | none => (Except.error Error.InternalNodeNoChild, st)
    | some child_offset =>
      match nodeOfPage (Pager.get_page st child_offset) with
      | Except.error e => (Except.error e, st)
      | Except.ok child_node => BTree.search_node st fuel child_node q) = _
  rw [hge]

/-- Witness for `claimC8` at separator keys `["a", "c"]` and query `"c"`. -/
theorem claimC8_witness :
    (([[97], [99]] : List Key).Pairwise (· < ·)) ∧
    ((∀ (st : PagerState) (fuel : Nat) (children : List Nat) (occ : Nat) (par : Option Nat),
      BTree.search_node st (fuel + 1) ⟨.internal [[97], [99]] children occ, par⟩ [99] =
        (match children[firstGeIdx [[97], [99]] [99]]? with
         | none => (Except.error Error.InternalNodeNoChild, st)
         | some child_offset =>
           match nodeOfPage (Pager.get_page st child_offset) with
           | Except.error e => (Except.error e, st)
           | Except.ok child_node => BTree.search_node st fuel child_node [99])) ∧
     childIdx [[97], [99]] [99] = firstGeIdx [[97], [99]] [99] ∧
     (∀ i, i < ([[97], [99]] : List Key).length →
       ([[97], [99]] : List Key).getD i [] = [99] → childIdx [[97], [99]] [99] = i)) :=
  ⟨by decide, claimC8 [[97], [99]] [99] (by decide)⟩

/-- `search_node` threads the pager state through unchanged: the descent only
ever calls `get_page`. -/
theorem search_node_state (st : PagerState) :
    ∀ fuel node key, (BTree.search_node st fuel node key).2 = st := by
  intro fuel
  induction fuel with
  | zero => intro node key; rfl
  | succ n ih =>
    intro node key
    obtain ⟨nk, par⟩ := node
    cases nk with
    | internal keys children occ =>
      show (match children[childIdx keys key]? with
        | none => (Except.error Error.InternalNodeNoChild, st)
        | some child_offset =>
          match nodeOfPage (Pager.get_page st child_offset) with
          | Except.error e => (Except.error e, st)
          | Except.ok child_node => BTree.search_node st n child_node key).2 = st
      cases children[childIdx keys key]? with
      | none => rfl
      | some child_offset =>
        show (match nodeOfPage (Pager.get_page st child_offset) with
          | Except.error e => (Except.error e, st)
          | Except.ok child_node => BTree.search_node st n child_node key).2 = st
        cases nodeOfPage (Pager.get_page st child_offset) with
        | error e => rfl
        | ok child_node => exact ih child_node key
    | leaf nx pv kvs occ => rfl

/-- **C10**.  `search` is read-only: for every pager state and every query
key, a call to `search` returns the state exactly as it was — same file
contents, same cached config (root offset and free-list head), and an
unchanged write log (so no page write happened) — whether it succeeds or
fails. -/
theorem claimC10 (st : PagerState) (key : Key) :
    (BTree.searchOp st key).2 = st := by
  show (BTree.search (opFuel st) st key).2 = st
  unfold BTree.search
  cases hr : st.config.root_page with
  | none => rfl
  | some root_offset =>
    show (match nodeOfPage (Pager.get_page st root_offset) with
      | Except.error e => (Except.error e, st)
      | Except.ok root_node => BTree.search_node st (opFuel st) root_node key).2 = st
    cases nodeOfPage (Pager.get_page st root_offset) with
    | error e => rfl
    | ok root_node => exact search_node_state st (opFuel st) root_node key

/-- **C7** (counterexample).  For the pairs
`[("aa", 1), ("bb", 2), ("cc", 3)]` the cut index is `2`, and the source
promotes the key of the pair at index `1` (`"bb"`, the last pair of the left
half), not the key of the pair at the cut index (`"cc"`) as the claim
states. -/
theorem claimC7_counterexample :
    specCutIdx [[97, 97], [98, 98], [99, 99]] = 2 ∧
    split_key_value_pairs
        [⟨[97, 97], 1⟩, ⟨[98, 98], 2⟩, ⟨[99, 99], 3⟩] =
      .ok ([98, 98], [⟨[97, 97], 1⟩, ⟨[98, 98], 2⟩], [⟨[99, 99], 3⟩]) ∧
    (([⟨[97, 97], 1⟩, ⟨[98, 98], 2⟩, ⟨[99, 99], 3⟩] :
        List KeyValuePair).getD 2 default).key ≠ [98, 98] :=
  ⟨rfl, rfl, by decide⟩

/-- **C7** (amended).  Both split functions choose the cut index as the first
index at which the inclusive running sum of key byte-lengths exceeds
`total / 2 + 1` (`0`, failing with `ImpossibleSplit`, when no index
qualifies); for a leaf split the promoted key is the key of the pair at
index `cut - 1` (the last pair of the left half), and the right half begins
at the cut index inclusive. -/
theorem claimC7 (keys : List Key) (kvs : List KeyValuePair) :
    find_median_key_idx keys = specCutIdx keys ∧
    split_key_value_pairs kvs =
      (if specCutIdx (kvs.map (fun kv => kv.key)) = 0 then .error .ImpossibleSplit
       else .ok ((kvs.getD (specCutIdx (kvs.map (fun kv => kv.key)) - 1) default).key,
         kvs.take (specCutIdx (kvs.map (fun kv => kv.key))),
         kvs.drop (specCutIdx (kvs.map (fun kv => kv.key))))) :=
  ⟨find_median_key_idx_eq keys, split_key_value_pairs_eq kvs⟩

/-- Reading the 8-byte head of a buffer that starts with `be8 v` yields `v`. -/
theorem readU64_prefix_be8 (v : Nat) (rest : List Nat) :
    readU64 (be8 v ++ rest) 0 = v := by
  have := readU64_append [] v rest
  simpa using this

/-- Bytes of the zero page. -/
theorem byteAt_replicate_zero (n i : Nat) : byteAt (List.replicate n 0) i = 0 := by
  unfold byteAt
  rw [List.getD_eq_getElem?_getD, List.getElem?_replicate]
  split <;> rfl

/-- The zero page's next pointer reads 0. -/
theorem readU64_new_empty (o : Nat) : readU64 Page.new_empty.data o = 0 := by
  unfold readU64 Page.new_empty
  rw [byteAt_replicate_zero, byteAt_replicate_zero, byteAt_replicate_zero,
    byteAt_replicate_zero, byteAt_replicate_zero, byteAt_replicate_zero,
    byteAt_replicate_zero, byteAt_replicate_zero]
  omega

theorem write_partial_file_same (st : PagerState) (o : Nat) (bs : List Nat) :
    (Pager.write_partial_at st o bs).file o = ⟨bs ++ (st.file o).data.drop bs.length⟩ := by
  unfold Pager.write_partial_at updFile
  simp

theorem write_partial_file_ne (st : PagerState) (o : Nat) (bs : List Nat) (y : Nat)
    (h : y ≠ o) : (Pager.write_partial_at st o bs).file y = st.file y := by
  unfold Pager.write_partial_at updFile
  simp [h]

theorem write_page_at_file_same (st : PagerState) (o : Nat) (p : Page) :
    (Pager.write_page_at_offset st o p).file o = p := by
  unfold Pager.write_page_at_offset updFile
  simp

theorem write_page_at_file_ne (st : PagerState) (o : Nat) (p : Page) (y : Nat)
    (h : y ≠ o) : (Pager.write_page_at_offset st o p).file y = st.file y := by
  unfold Pager.write_page_at_offset updFile
  simp [h]

/-- An empty chain hangs off an absent head. -/
theorem FreeChain_nil_inv {st : PagerState} {h : Option Nat}
    (hch : FreeChain st h []) : h = none := by
  cases hch
  rfl

/-- A nonempty chain starts at its head, whose next pointer carries the
rest. -/
theorem FreeChain_cons_inv {st : PagerState} {h : Option Nat} {r : Nat} {rest : List Nat}
    (hch : FreeChain st h (r :: rest)) :
    h = some r ∧ FreeChain st (nextOpt st r) rest := by
  cases hch with
  | cons o rest h' => exact ⟨rfl, h'⟩

/-- A chain is insensitive to the contents of pages outside it. -/
theorem FreeChain_agree {st st' : PagerState} :
    ∀ {h : Option Nat} {C : List Nat}, FreeChain st h C →
    (∀ c ∈ C, st'.file c = st.file c) → FreeChain st' h C := by
  intro h C hch
  induction hch with
  | nil => intro _; exact .nil
  | cons o rest hrest ih =>
    intro hag
    refine .cons o rest ?_
    rw [hag o (List.mem_cons_self o rest)]
    exact ih (fun c hc => hag c (List.mem_cons_of_mem _ hc))

/-- Membership in a sorted insert. -/
theorem mem_insertSortedNat (x y : Nat) :
    ∀ (C : List Nat), y ∈ insertSortedNat x C ↔ y = x ∨ y ∈ C := by
  intro C
  induction C with
  | nil => simp [insertSortedNat]
  | cons c cs ih =>
    rw [insertSortedNat]
    split
    · simp [or_comm, or_assoc, or_left_comm]
    · simp only [List.mem_cons, ih]
      tauto

/-- Sorted insert preserves strict sortedness when the element is absent. -/
theorem pairwise_insertSortedNat (x : Nat) :
    ∀ (C : List Nat), C.Pairwise (· < ·) → x ∉ C →
    (insertSortedNat x C).Pairwise (· < ·) := by
  intro C
  induction C with
  | nil => intro _ _; simp [insertSortedNat]
  | cons c cs ih =>
    intro hs hx
    obtain ⟨hc, hcs⟩ := List.pairwise_cons.mp hs
    rw [insertSortedNat]
    split
    · rename_i hlt
      refine List.pairwise_cons.mpr ⟨?_, hs⟩
      intro y hy
      rcases List.mem_cons.mp hy with rfl | hy
      · exact hlt
      · exact lt_trans hlt (hc y hy)
    · rename_i hnlt
      have hcx : c < x := by
        rcases Nat.lt_or_ge x c with h | h
        · exact absurd h hnlt
        · rcases Nat.eq_or_lt_of_le h with h | h
          · exact absurd h.symm (fun he => hx (by rw [he]; exact List.mem_cons_self c cs))
          · exact h
      refine List.pairwise_cons.mpr ⟨?_, ih hcs (fun hm => hx (List.mem_cons_of_mem _ hm))⟩
      intro y hy
      rcases (mem_insertSortedNat x y cs).mp hy with rfl | hy
      · exact hcx
      · exact hc y hy

/-- A chain with no head is empty. -/
theorem FreeChain_none_inv {st : PagerState} {C : List Nat}
    (h : FreeChain st none C) : C = [] := by
  cases h
  rfl

/-- A chain headed at `o` starts with `o`. -/
theorem FreeChain_some_inv {st : PagerState} {o : Nat} {C : List Nat}
    (h : FreeChain st (some o) C) :
    ∃ rest, C = o :: rest ∧ FreeChain st (nextOpt st o) rest := by
  cases h with
  | cons o rest h' => exact ⟨rest, rfl, h'⟩

/-- The splice/append walk of `free_page` inserts `offset` into the sorted
tail of the chain: starting from a head `cur < x` whose next pointer carries
the chain `rest`, the walk succeeds, leaves the cursor, the config and every
page outside `{x, cur} ∪ rest` untouched, appends to the log only writes at
those offsets, and rethreads the chain as the sorted insert of `x`. -/
theorem freeWalk_insert :
    ∀ (rest : List Nat) (st : PagerState) (x cur fuel : Nat),
    rest.length + 1 ≤ fuel → cur ≠ 0 → x ≠ 0 → cur < x → x ∉ rest →
    (∀ y ∈ rest, y ≠ 0) → (cur :: rest).Pairwise (· < ·) →
    FreeChain st (nextOpt st cur) rest →
    ∃ st', freeWalk st x fuel cur (readU64 (st.file cur).data 0) = (Except.ok (), st') ∧
      st'.curser = st.curser ∧ st'.config = st.config ∧
      (∀ y, y ≠ x → y ≠ cur → y ∉ rest → st'.file y = st.file y) ∧
      FreeChain st' (some cur) (cur :: insertSortedNat x rest) ∧
      ∃ evs, st'.log = st.log ++ evs ∧
        ∀ ev ∈ evs, ev.1 = x ∨ ev.1 = cur ∨ ev.1 ∈ rest := by
  intro rest
  induction rest with
  | nil =>
    intro st x cur fuel hfuel hcur0 hx0 hlt _ _ _ hch
    have hnext : nextOpt st cur = none := FreeChain_nil_inv hch
    have h0 : readU64 (st.file cur).data 0 = 0 := by
      by_cases h : readU64 (st.file cur).data 0 = 0
      · exact h
      · rw [nextOpt, if_neg h] at hnext; exact absurd hnext (by simp)
    obtain ⟨f, rfl⟩ : ∃ f, fuel = f + 1 := ⟨fuel - 1, by omega⟩
    rw [h0]
    refine ⟨Pager.write_page_at_offset (Pager.write_partial_at st cur (be8 x)) x
      Page.new_empty, rfl, rfl, rfl, ?_, ?_, ?_⟩
    · intro y hyx hycur _
      rw [write_page_at_file_ne _ _ _ _ hyx, write_partial_file_ne _ _ _ _ hycur]
    · show FreeChain _ (some cur) [cur, x]
      refine .cons cur [x] ?_
      have h1 : (Pager.write_page_at_offset (Pager.write_partial_at st cur (be8 x)) x
          Page.new_empty).file cur =
          ⟨be8 x ++ (st.file cur).data.drop (be8 x).length⟩ := by
        rw [write_page_at_file_ne _ _ _ _ (Nat.ne_of_lt hlt), write_partial_file_same]
      have h2 : readU64 ((Pager.write_page_at_offset (Pager.write_partial_at st cur
          (be8 x)) x Page.new_empty).file cur).data 0 = x := by
        rw [h1]; exact readU64_prefix_be8 x _
      rw [h2, if_neg hx0]
      refine .cons x [] ?_
      have h3 : readU64 ((Pager.write_page_at_offset (Pager.write_partial_at st cur
          (be8 x)) x Page.new_empty).file x).data 0 = 0 := by
        rw [write_page_at_file_same]; exact readU64_new_empty 0
      rw [h3, if_pos rfl]
      exact .nil
    · refine ⟨[(cur, be8 x), (x, Page.new_empty.data)], ?_, ?_⟩
      · simp [Pager.write_page_at_offset, Pager.write_partial_at]
      · intro ev hev
        simp only [List.mem_cons, List.not_mem_nil, or_false] at hev
        rcases hev with rfl | rfl
        · right; left; rfl
        · left; rfl
  | cons r rest' ih =>
    intro st x cur fuel hfuel hcur0 hx0 hlt hxrest hall0 hsort hch
    obtain ⟨hnx, hch'⟩ := FreeChain_cons_inv hch
    have hrne : r ≠ 0 := hall0 r (List.mem_cons_self r rest')
    have hrd : readU64 (st.file cur).data 0 = r := by
      by_cases h : readU64 (st.file cur).data 0 = 0
      · rw [nextOpt, if_pos h] at hnx; exact absurd hnx (by simp)
      · rw [nextOpt, if_neg h] at hnx; exact Option.some.inj hnx
    obtain ⟨hcurall, hsort'⟩ := List.pairwise_cons.mp hsort
    have hxr_ne : x ≠ r := fun h => hxrest (h ▸ List.mem_cons_self r rest')
    have hxrest' : x ∉ rest' := fun h => hxrest (List.mem_cons_of_mem r h)
    obtain ⟨f, rfl⟩ : ∃ f, fuel = f + 1 := ⟨fuel - 1, by omega⟩
    rw [hrd]
    have hstep : freeWalk st x (f + 1) cur r =
        if r > x then
          (Except.ok (), Pager.write_partial_at (Pager.write_partial_at st x (be8 r))
            cur (be8 x))
        else freeWalk st x f r (readU64 (st.file r).data 0) := by
      obtain ⟨m, rfl⟩ : ∃ m, r = m + 1 := ⟨r - 1, by omega⟩
      rfl
    rw [hstep]
    by_cases hxr : r > x
    · rw [if_pos hxr]
      have hcr : cur < r := hcurall r (List.mem_cons_self r rest')
      refine ⟨Pager.write_partial_at (Pager.write_partial_at st x (be8 r)) cur (be8 x),
        rfl, rfl, rfl, ?_, ?_, ?_⟩
      · intro y hyx hycur _
        rw [write_partial_file_ne _ _ _ _ hycur, write_partial_file_ne _ _ _ _ hyx]
      · rw [insertSortedNat, if_pos hxr]
        refine .cons cur (x :: r :: rest') ?_
        have h1 : (Pager.write_partial_at (Pager.write_partial_at st x (be8 r)) cur
            (be8 x)).file cur =
            ⟨be8 x ++ ((Pager.write_partial_at st x (be8 r)).file cur).data.drop
              (be8 x).length⟩ := write_partial_file_same _ _ _
        have h2 : readU64 ((Pager.write_partial_at (Pager.write_partial_at st x (be8 r))
            cur (be8 x)).file cur).data 0 = x := by
          rw [h1]; exact readU64_prefix_be8 x _
        rw [h2, if_neg hx0]
        refine .cons x (r :: rest') ?_
        have h3 : (Pager.write_partial_at (Pager.write_partial_at st x (be8 r)) cur
            (be8 x)).file x = ⟨be8 r ++ (st.file x).data.drop (be8 r).length⟩ := by
          rw [write_partial_file_ne _ _ _ _ (ne_of_gt hlt), write_partial_file_same]
        have h4 : readU64 ((Pager.write_partial_at (Pager.write_partial_at st x (be8 r))
            cur (be8 x)).file x).data 0 = r := by
          rw [h3]; exact readU64_prefix_be8 r _
        rw [h4, if_neg hrne]
        have hbase : FreeChain st (some r) (r :: rest') := .cons r rest' hch'
        refine FreeChain_agree hbase ?_
        intro c hc
        have hcx : c ≠ x := fun h => hxrest (h ▸ hc)
        have hccur : c ≠ cur := Nat.ne_of_gt (hcurall c hc)
        rw [write_partial_file_ne _ _ _ _ hccur, write_partial_file_ne _ _ _ _ hcx]
      · refine ⟨[(x, be8 r), (cur, be8 x)], ?_, ?_⟩
        · simp [Pager.write_partial_at]
        · intro ev hev
          simp only [List.mem_cons, List.not_mem_nil, or_false] at hev
          rcases hev with rfl | rfl
          · left; rfl
          · right; left; rfl
    · rw [if_neg hxr]
      have hrx : r < x := by
        have : ¬ x < r := hxr
        omega
      obtain ⟨st', heq, hcur', hcfg', hpres, hchain', evs, hlog, hevs⟩ :=
        ih st x r f (by simp at hfuel ⊢; omega) hrne hx0 hrx hxrest'
          (fun y hy => hall0 y (List.mem_cons_of_mem r hy)) hsort' hch'
      refine ⟨st', heq, hcur', hcfg', ?_, ?_, ?_⟩
      · intro y hyx hycur hymem
        have hyr : y ≠ r := fun h => hymem (h ▸ List.mem_cons_self r rest')
        have hymem' : y ∉ rest' := fun h => hymem (List.mem_cons_of_mem r h)
        exact hpres y hyx hyr hymem'
      · rw [insertSortedNat, if_neg hxr]
        refine .cons cur (r :: insertSortedNat x rest') ?_
        have hfc : st'.file cur = st.file cur := by
          refine hpres cur (Nat.ne_of_lt hlt) (Nat.ne_of_lt ?_) ?_
          · exact hcurall r (List.mem_cons_self r rest')
          · intro h
            exact absurd (hcurall cur (List.mem_cons_of_mem r h)) (lt_irrefl cur)
        rw [hfc, hrd, if_neg hrne]
        exact hchain'
      · refine ⟨evs, hlog, ?_⟩
        intro ev hev
        rcases hevs ev hev with h | h | h
        · exact Or.inl h
        · exact Or.inr (Or.inr (h ▸ List.mem_cons_self r rest'))
        · exact Or.inr (Or.inr (List.mem_cons_of_mem r h))

/-- `Pager::free_page` on a state holding a sorted free chain `C` of nonzero
offsets, freeing an absent nonzero page `x`: it succeeds, keeps the cursor,
the cached root and every page outside `{0, x} ∪ C` (page 0 is rewritten only
when the list was empty and the config is persisted), appends to the log only
writes at those offsets, and the resulting chain is the sorted insert of `x`
into `C`, hanging off the updated config head. -/
theorem free_page_spec (st : PagerState) (C : List Nat) (x fuel : Nat)
    (hch : FreeChain st st.config.first_free_page C)
    (hsort : C.Pairwise (· < ·))
    (h0 : ∀ c ∈ C, c ≠ 0)
    (hx : x ∉ C) (hx0 : x ≠ 0)
    (hfuel : C.length + 1 ≤ fuel) :
    ∃ st', Pager.free_page fuel st x = (Except.ok (), st') ∧
      st'.curser = st.curser ∧
      st'.config.root_page = st.config.root_page ∧
      FreeChain st' st'.config.first_free_page (insertSortedNat x C) ∧
      (∀ y, y ≠ 0 → y ≠ x → y ∉ C → st'.file y = st.file y) ∧
      ∃ evs, st'.log = st.log ++ evs ∧
        ∀ ev ∈ evs, ev.1 = 0 ∨ ev.1 = x ∨ ev.1 ∈ C := by
  cases hffp : st.config.first_free_page with
  | none =>
    have hC : C = [] := FreeChain_none_inv (hffp ▸ hch)
    subst hC
    refine ⟨Pager.write_config
      { Pager.write_page_at_offset st x Page.new_empty with
        config := { (Pager.write_page_at_offset st x Page.new_empty).config with
          first_free_page := some x } }, ?_, rfl, rfl, ?_, ?_, ?_⟩
    · unfold Pager.free_page
      simp only [hffp]
    · show FreeChain _ (some x) [x]
      refine .cons x [] ?_
      have hfx : (Pager.write_config
          { Pager.write_page_at_offset st x Page.new_empty with
            config := { (Pager.write_page_at_offset st x Page.new_empty).config with
              first_free_page := some x } }).file x = Page.new_empty := by
        show (Pager.write_page_at_offset _ 0 _).file x = _
        rw [write_page_at_file_ne _ _ _ _ hx0]
        exact write_page_at_file_same st x Page.new_empty
      have hr : readU64 ((Pager.write_config
          { Pager.write_page_at_offset st x Page.new_empty with
            config := { (Pager.write_page_at_offset st x Page.new_empty).config with
              first_free_page := some x } }).file x).data 0 = 0 := by
        rw [hfx]; exact readU64_new_empty 0
      rw [hr, if_pos rfl]
      exact .nil
    · intro y hy0 hyx _
      show (Pager.write_page_at_offset _ 0 _).file y = st.file y
      rw [write_page_at_file_ne _ _ _ _ hy0]
      exact write_page_at_file_ne st x Page.new_empty y hyx
    · refine ⟨[(x, Page.new_empty.data),
        (0, ({ (Pager.write_page_at_offset st x Page.new_empty).config with
          first_free_page := some x } : Config).toPage.data)], ?_, ?_⟩
      · show (st.log ++ [(x, Page.new_empty.data)]) ++ [(0, _)] = _
        rw [List.append_assoc]
        rfl
      · intro ev hev
        simp only [List.mem_cons, List.not_mem_nil, or_false] at hev
        rcases hev with rfl | rfl
        · right; left; rfl
        · left; rfl
  | some ffp =>
    obtain ⟨rest, hC, hch'⟩ := FreeChain_some_inv (hffp ▸ hch)
    subst hC
    have hffp0 : ffp ≠ 0 := h0 ffp (List.mem_cons_self ffp rest)
    by_cases hgt : ffp > x
    · refine ⟨{ Pager.write_partial_at st x (be8 ffp ++ be8 0) with
        config := { (Pager.write_partial_at st x (be8 ffp ++ be8 0)).config with
          first_free_page := some x } }, ?_, rfl, rfl, ?_, ?_, ?_⟩
      · unfold Pager.free_page
        simp only [hffp]
        rw [if_pos hgt]
      · show FreeChain _ (some x) (insertSortedNat x (ffp :: rest))
        rw [insertSortedNat, if_pos hgt]
        refine .cons x (ffp :: rest) ?_
        have hfx : ({ Pager.write_partial_at st x (be8 ffp ++ be8 0) with
            config := { (Pager.write_partial_at st x (be8 ffp ++ be8 0)).config with
              first_free_page := some x } } : PagerState).file x =
            ⟨(be8 ffp ++ be8 0) ++ (st.file x).data.drop (be8 ffp ++ be8 0).length⟩ :=
          write_partial_file_same st x _
        have hr : readU64 (({ Pager.write_partial_at st x (be8 ffp ++ be8 0) with
            config := { (Pager.write_partial_at st x (be8 ffp ++ be8 0)).config with
              first_free_page := some x } } : PagerState).file x).data 0 = ffp := by
          rw [hfx]
          show readU64 ((be8 ffp ++ be8 0) ++ _) 0 = ffp
          rw [List.append_assoc]
          exact readU64_prefix_be8 ffp _
        rw [hr, if_neg hffp0]
        refine FreeChain_agree (hffp ▸ hch) ?_
        intro c hc
        exact write_partial_file_ne st x _ c (fun h => hx (h ▸ hc))
      · intro y _ hyx _
        exact write_partial_file_ne st x _ y hyx
      · refine ⟨[(x, be8 ffp ++ be8 0)], rfl, ?_⟩
        intro ev hev
        simp only [List.mem_cons, List.not_mem_nil, or_false] at hev
        rcases hev with rfl
        right; left; rfl
    · have hxf : x ≠ ffp := fun h => hx (h ▸ List.mem_cons_self ffp rest)
      have hflt : ffp < x := by omega
      have hxrest : x ∉ rest := fun h => hx (List.mem_cons_of_mem ffp h)
      obtain ⟨st', heq, hcurs, hcfg, hpres, hchain, evs, hlog, hevs⟩ :=
        freeWalk_insert rest st x ffp fuel (by simp at hfuel; omega) hffp0 hx0 hflt
          hxrest (fun y hy => h0 y (List.mem_cons_of_mem ffp hy)) hsort hch'
      refine ⟨st', ?_, hcurs, by rw [hcfg], ?_, ?_, ?_⟩
      · unfold Pager.free_page
        simp only [hffp]
        rw [if_neg hgt]
        exact heq
      · rw [hcfg, hffp, insertSortedNat, if_neg hgt]
        exact hchain
      · intro y _ hyx hyC
        refine hpres y hyx (fun h => hyC (h ▸ List.mem_cons_self ffp rest))
          (fun h => hyC (List.mem_cons_of_mem ffp h))
      · refine ⟨evs, hlog, ?_⟩
        intro ev hev
        rcases hevs ev hev with h | h | h
        · exact Or.inr (Or.inl h)
        · exact Or.inr (Or.inr (h ▸ List.mem_cons_self ffp rest))
        · exact Or.inr (Or.inr (List.mem_cons_of_mem ffp h))

/-- Sorted insert grows the list by one. -/
theorem insertSortedNat_length (x : Nat) :
    ∀ (C : List Nat), (insertSortedNat x C).length = C.length + 1 := by
  intro C
  induction C with
  | nil => rfl
  | cons c cs ih =>
    rw [insertSortedNat]
    split
    · rfl
    · simp [ih]

/-- `Pager::free_pages` frees a duplicate-free queue of nonzero pages absent
from the chain: every `free_page` succeeds, and the final chain is sorted
with membership the union of the old chain and the queue.  Cursor and cached
root survive; pages outside `{0} ∪ Q ∪ C` are untouched and the log gains
only writes at those offsets. -/
theorem free_pages_spec (fuel : Nat) :
    ∀ (Q : List Nat) (st : PagerState) (C : List Nat),
    FreeChain st st.config.first_free_page C →
    C.Pairwise (· < ·) →
    (∀ c ∈ C, c ≠ 0) →
    Q.Nodup →
    (∀ q ∈ Q, q ∉ C ∧ q ≠ 0) →
    C.length + Q.length + 1 ≤ fuel →
    ∃ st' C', Pager.free_pages fuel st Q = (Except.ok (), st') ∧
      st'.curser = st.curser ∧
      st'.config.root_page = st.config.root_page ∧
      FreeChain st' st'.config.first_free_page C' ∧
      C'.Pairwise (· < ·) ∧
      (∀ y, y ∈ C' ↔ y ∈ C ∨ y ∈ Q) ∧
      (∀ y, y ≠ 0 → y ∉ Q → y ∉ C → st'.file y = st.file y) ∧
      ∃ evs, st'.log = st.log ++ evs ∧
        ∀ ev ∈ evs, ev.1 = 0 ∨ ev.1 ∈ Q ∨ ev.1 ∈ C := by
  intro Q
  induction Q with
  | nil =>
    intro st C hch hsort h0 _ _ _
    refine ⟨st, C, rfl, rfl, rfl, hch, hsort, ?_, ?_, [], by simp, by simp⟩
    · simp
    · intro y _ _ _; rfl
  | cons q Q' ih =>
    intro st C hch hsort h0 hnd hQ hfuel
    obtain ⟨hqC, hq0⟩ := hQ q (List.mem_cons_self q Q')
    obtain ⟨st1, heq1, hcurs1, hroot1, hch1, hpres1, evs1, hlog1, hevs1⟩ :=
      free_page_spec st C q fuel hch hsort h0 hqC hq0 (by simp at hfuel; omega)
    obtain ⟨hqQ', hnd'⟩ := List.nodup_cons.mp hnd
    obtain ⟨st2, C', heq2, hcurs2, hroot2, hch2, hsort2, hmem2, hpres2, evs2, hlog2, hevs2⟩ :=
      ih st1 (insertSortedNat q C) hch1
        (pairwise_insertSortedNat q C hsort hqC)
        (fun c hc => by
          rcases (mem_insertSortedNat q c C).mp hc with rfl | hc
          · exact hq0
          · exact h0 c hc)
        hnd'
        (fun q' hq' => by
          obtain ⟨hq'C, hq'0⟩ := hQ q' (List.mem_cons_of_mem q hq')
          refine ⟨fun hmem => ?_, hq'0⟩
          rcases (mem_insertSortedNat q q' C).mp hmem with rfl | hmem
          · exact hqQ' hq'
          · exact hq'C hmem)
        (by rw [insertSortedNat_length]; simp at hfuel ⊢; omega)
    have hred : Pager.free_pages fuel st (q :: Q') = Pager.free_pages fuel st1 Q' := by
      conv_lhs => unfold Pager.free_pages
      rw [heq1]
    refine ⟨st2, C', by rw [hred]; exact heq2, by rw [hcurs2, hcurs1],
      by rw [hroot2, hroot1], hch2, hsort2, ?_, ?_, evs1 ++ evs2, ?_, ?_⟩
    · intro y
      rw [hmem2 y, mem_insertSortedNat]
      simp only [List.mem_cons]
      tauto
    · intro y hy0 hyQ hyC
      have hyq : y ≠ q := fun h => hyQ (h ▸ List.mem_cons_self q Q')
      have hyQ' : y ∉ Q' := fun h => hyQ (List.mem_cons_of_mem q h)
      have hyI : y ∉ insertSortedNat q C := fun h => by
        rcases (mem_insertSortedNat q y C).mp h with rfl | h
        · exact hyq rfl
        · exact hyC h
      rw [hpres2 y hy0 hyQ' hyI, hpres1 y hy0 hyq hyC]
    · rw [hlog2, hlog1, List.append_assoc]
    · intro ev hev
      rcases List.mem_append.mp hev with h | h
      · rcases hevs1 ev h with h' | h' | h'
        · exact Or.inl h'
        · exact Or.inr (Or.inl (h' ▸ List.mem_cons_self q Q'))
        · exact Or.inr (Or.inr h')
      · rcases hevs2 ev h with h' | h' | h'
        · exact Or.inl h'
        · exact Or.inr (Or.inl (List.mem_cons_of_mem q h'))
        · rcases (mem_insertSortedNat q ev.1 C).mp h' with h'' | h''
          · exact Or.inr (Or.inl (h'' ▸ List.mem_cons_self q Q'))
          · exact Or.inr (Or.inr h'')

/-- `Pager::alloc_page` pops the free-list head when the chain is nonempty
and bump-allocates at the cursor otherwise; the file, the log and the cached
root are untouched either way. -/
theorem alloc_page_spec (st : PagerState) (C : List Nat)
    (hch : FreeChain st st.config.first_free_page C) :
    ∃ o st', Pager.alloc_page st = (o, st') ∧
      st'.file = st.file ∧ st'.log = st.log ∧
      st'.config.root_page = st.config.root_page ∧
      ((C = [] ∧ o = st.curser ∧ st'.curser = st.curser + PAGE_SIZE ∧
          st'.config.first_free_page = none) ∨
        (∃ rest, C = o :: rest ∧ st'.curser = st.curser ∧
          FreeChain st' st'.config.first_free_page rest)) := by
  cases hffp : st.config.first_free_page with
  | none =>
    have hC : C = [] := FreeChain_none_inv (hffp ▸ hch)
    refine ⟨st.curser, { st with curser := st.curser + PAGE_SIZE }, ?_, rfl, rfl, rfl,
      Or.inl ⟨hC, rfl, rfl, hffp⟩⟩
    unfold Pager.alloc_page
    simp only [hffp]
  | some ffp =>
    obtain ⟨rest, hC, hch'⟩ := FreeChain_some_inv (hffp ▸ hch)
    refine ⟨ffp, { st with config := { st.config with
        first_free_page := if readU64 (st.file ffp).data 0 = 0 then none
          else some (readU64 (st.file ffp).data 0) } }, ?_, rfl, rfl, rfl,
      Or.inr ⟨rest, hC, rfl, ?_⟩⟩
    · unfold Pager.alloc_page
      simp only [hffp]
    · refine FreeChain_agree hch' ?_
      intro c _
      rfl

/-- On the freshly opened tree, `insert_cow` of any pair either hits the
split path (which fails at once: an empty leaf cannot be split) or writes
the one-pair leaf. -/
theorem insert_cow_fresh_leaf (kv : KeyValuePair) :
    BTree.insert_cow freshState [] 4 ⟨.leaf none none [] 35, none⟩ 8192 kv =
    if 8192 - 35 < 1 + kv.key.length + 8 then
      (.error .ImpossibleSplit, [], freshState)
    else
      match pageOfNode ⟨.leaf none none [kv] 35, none⟩ with
      | .error e => (.error e, [], freshState)
      | .ok page =>
        match Pager.write_page freshState page with
        | (new_addr, st) => (.ok (.NewOffset new_addr), FreeQueue.add [] 8192, st) := rfl

/-- `BTree::insert` on the fresh state, reduced to its dispatch over
`insert_cow` on the (concrete) empty root leaf. -/
theorem insert_fresh_step (key : Key) (value : Nat) :
    BTree.insert 4 freshState key value =
    match BTree.insert_cow freshState [] 4 ⟨.leaf none none [] 35, none⟩ 8192
        ⟨key, value⟩ with
    | (.error e, _, st) => (.error e, st)
    | (.ok (.NewOffset o), fq, st) =>
      let fq := FreeQueue.add fq 8192
      let st := Pager.set_root_page st o
      Pager.free_pages 4 st fq
    | (.ok (.DidSplit promoted_key first second), fq, st) =>
      match pageOfNode ⟨.internal [promoted_key] [first, second] 0, none⟩ with
      | .error e => (.error e, st)
      | .ok page =>
        match Pager.write_page st page with
        | (new_root_offset, st) =>
          let fq := FreeQueue.add fq 8192
          let st := Pager.set_root_page st new_root_offset
          Pager.free_pages 4 st fq := rfl

/-- The pair serialiser rejects an over-long key up front. -/
theorem encodePairs_long_key (kv : KeyValuePair) (h : 255 < kv.key.length) :
    encodePairs LEAF_HEADER_SIZE [kv] = .error .KeyOverflowError := by
  unfold encodePairs
  rw [if_pos (show kv.key.length > KEY_MAX_SIZE from h)]

/-- Serialising a one-pair leaf with an over-long key fails with
`KeyOverflowError`. -/
theorem pageOfNode_long_key (kv : KeyValuePair) (h : 255 < kv.key.length) :
    pageOfNode ⟨.leaf none none [kv] 35, none⟩ = .error .KeyOverflowError := by
  unfold pageOfNode
  simp only [encodePairs_long_key kv h]

/-- Search on the fresh (empty) tree finds nothing and changes nothing. -/
theorem search_fresh (key : Key) :
    BTree.searchOp freshState key = (Except.ok none, freshState) := rfl

/-- When the pair does not fit the empty root leaf's available space,
`insert_cow` on the fresh tree fails with `ImpossibleSplit`. -/
theorem insert_cow_fresh_big (kv : KeyValuePair)
    (h : 8192 - 35 < 1 + kv.key.length + 8) :
    BTree.insert_cow freshState [] 4 ⟨.leaf none none [] 35, none⟩ 8192 kv =
    (.error .ImpossibleSplit, [], freshState) := by
  rw [insert_cow_fresh_leaf kv, if_pos h]

/-- C6 counterexample: inserting a key of 8149 bytes into a fresh tree fails
with `ImpossibleSplit` — not `KeyOverflow` — because the pair no longer fits
in the empty root leaf's available space and the split path is taken before
the key-length check is ever reached. -/
theorem claimC6_counterexample :
    255 < (List.replicate 8149 97 : Key).length ∧
    BTree.insertOp freshState (List.replicate 8149 97) 1 =
      (Except.error Error.ImpossibleSplit, freshState) ∧
    Error.ImpossibleSplit ≠ Error.KeyOverflowError := by
  refine ⟨by rw [List.length_replicate]; omega, ?_, by decide⟩
  simp only [BTree.insertOp]
  rw [show opFuel freshState = 4 from rfl]
  rw [insert_fresh_step (List.replicate 8149 97) 1]
  rw [insert_cow_fresh_big ⟨List.replicate 8149 97, 1⟩
    (by rw [List.length_replicate]; omega)]

/-- A represented children sequence has one more child than separators. -/
theorem ReprKids_shape
    (R : Nat → Option Key → Option Key → List KeyValuePair → List Nat → Prop) :
    ∀ (keys : List Key) (children : List Nat) (lo hi : Option Key)
      (L : List KeyValuePair) (O : List Nat),
    ReprKids R lo hi keys children L O → children.length = keys.length + 1 := by
  intro keys
  induction keys with
  | nil =>
    intro children lo hi L O hk
    match children with
    | [] => exact (hk : False).elim
    | [c] => rfl
    | c :: c2 :: cs => exact (hk : False).elim
  | cons k ks ih =>
    intro children lo hi L O hk
    match children with
    | [] => exact (hk : False).elim
    | c :: cs =>
      obtain ⟨L1, L2, O1, O2, _, _, _, hrest⟩ := hk
      simp [ih cs (some k) hi L2 O2 hrest]

/-- A represented subtree only depends on the pages it owns: agreement of
the file on `O` transports `ReprAt` between states. -/
theorem ReprAt_agree : ∀ (h : Nat) (st st' : PagerState) (o : Nat)
    (lo hi : Option Key) (L : List KeyValuePair) (O : List Nat),
    ReprAt st h o lo hi L O → (∀ p ∈ O, st'.file p = st.file p) →
    ReprAt st' h o lo hi L O := by
  intro h
  induction h with
  | zero => intro st st' o lo hi L O hrep _; exact (hrep : False).elim
  | succ h ih =>
    intro st st' o lo hi L O hrep hag
    obtain ⟨nd, hparse, hpar, hrest⟩ := hrep
    cases hnk : nd.node_kind with
    | leaf next previous pairs occ =>
      rw [hnk] at hrest
      obtain ⟨hn, hp, hL, hO, hs, hb, ho, hole⟩ := hrest
      refine ⟨nd, ?_, hpar, ?_⟩
      · rw [hag o (by rw [hO]; exact List.mem_cons_self o [])]
        exact hparse
      · rw [hnk]
        exact ⟨hn, hp, hL, hO, hs, hb, ho, hole⟩
    | internal keys children occ =>
      rw [hnk] at hrest
      obtain ⟨O', hO, hne, hsort, hbnd, hocc, hole, hkids⟩ := hrest
      have inner : ∀ (ks : List Key) (cs : List Nat) (lo' hi' : Option Key)
          (L' : List KeyValuePair) (O2 : List Nat),
          ReprKids (ReprAt st h) lo' hi' ks cs L' O2 →
          (∀ p ∈ O2, st'.file p = st.file p) →
          ReprKids (ReprAt st' h) lo' hi' ks cs L' O2 := by
        intro ks
        induction ks with
        | nil =>
          intro cs lo' hi' L' O2 hk hag2
          match cs with
          | [] => exact (hk : False).elim
          | [c] => exact ih st st' c lo' hi' L' O2 hk hag2
          | c :: c2 :: cs => exact (hk : False).elim
        | cons k ks ihk =>
          intro cs lo' hi' L' O2 hk hag2
          match cs with
          | [] => exact (hk : False).elim
          | c :: cs =>
            obtain ⟨L1, L2, O1, O2', hL, hO2, hc, hrest'⟩ := hk
            refine ⟨L1, L2, O1, O2', hL, hO2, ?_, ?_⟩
            · exact ih st st' c lo' (some k) L1 O1 hc
                (fun p hp => hag2 p (by rw [hO2]; exact List.mem_append_left _ hp))
            · exact ihk cs (some k) hi' L2 O2' hrest'
                (fun p hp => hag2 p (by rw [hO2]; exact List.mem_append_right _ hp))
      refine ⟨nd, ?_, hpar, ?_⟩
      · rw [hag o (by rw [hO]; exact List.mem_cons_self o O')]
        exact hparse
      · rw [hnk]
        refine ⟨O', hO, hne, hsort, hbnd, hocc, hole, ?_⟩
        exact inner keys children lo hi L O' hkids
          (fun p hp => hag p (by rw [hO]; exact List.mem_cons_of_mem o hp))

/-- Generic contents extraction for a children sequence: if every child
relation yields sorted in-window contents, so does the whole sequence, the
windows being stitched together by the (sorted, in-window) separators. -/
theorem ReprKids_bounds_of
    (R : Nat → Option Key → Option Key → List KeyValuePair → List Nat → Prop)
    (hR : ∀ c lo hi L O, R c lo hi L O →
      (L.map (fun kv => kv.key)).Pairwise (· < ·) ∧
      (∀ kv ∈ L, 1 ≤ kv.key.length ∧ kv.key.length ≤ KEY_MAX_SIZE ∧
        ltLo lo kv.key ∧ leHi hi kv.key)) :
    ∀ (ks : List Key) (cs : List Nat) (lo hi : Option Key)
      (L : List KeyValuePair) (O : List Nat),
    ReprKids R lo hi ks cs L O →
    ks.Pairwise (· < ·) →
    (∀ k ∈ ks, ltLo lo k) →
    (∀ k ∈ ks, ltHi hi k) →
    (L.map (fun kv => kv.key)).Pairwise (· < ·) ∧
    (∀ kv ∈ L, 1 ≤ kv.key.length ∧ kv.key.length ≤ KEY_MAX_SIZE ∧
      ltLo lo kv.key ∧ leHi hi kv.key) := by
  intro ks
  induction ks with
  | nil =>
    intro cs lo hi L O hk _ _ _
    match cs with
    | [] => exact (hk : False).elim
    | [c] => exact hR c lo hi L O hk
    | c :: c2 :: cs => exact (hk : False).elim
  | cons k ks ihk =>
    intro cs lo hi L O hk hsk hklo hkhi
    match cs with
    | [] => exact (hk : False).elim
    | c :: cs =>
      obtain ⟨L1, L2, O1, O2', hL, _, hc, hrest'⟩ := hk
      obtain ⟨hkk, hsk'⟩ := List.pairwise_cons.mp hsk
      obtain ⟨hs1, hb1⟩ := hR c lo (some k) L1 O1 hc
      obtain ⟨hs2, hb2⟩ := ihk cs (some k) hi L2 O2' hrest' hsk'
        (fun k' hk' => hkk k' hk')
        (fun k' hk' => hkhi k' (List.mem_cons_of_mem k hk'))
      subst hL
      constructor
      · rw [List.map_append, List.pairwise_append]
        refine ⟨hs1, hs2, ?_⟩
        intro a ha b hb
        obtain ⟨kv1, hkv1, rfl⟩ := List.mem_map.mp ha
        obtain ⟨kv2, hkv2, rfl⟩ := List.mem_map.mp hb
        have h1 : kv1.key ≤ k := (hb1 kv1 hkv1).2.2.2
        have h2 : k < kv2.key := (hb2 kv2 hkv2).2.2.1
        exact lt_of_le_of_lt h1 h2
      · intro kv hkv
        rcases List.mem_append.mp hkv with hkv | hkv
        · obtain ⟨h1, h2, h3, h4⟩ := hb1 kv hkv
          refine ⟨h1, h2, h3, ?_⟩
          have hk4 : kv.key ≤ k := h4
          have hkh : ltHi hi k := hkhi k (List.mem_cons_self k ks)
          cases hi with
          | none => exact trivial
          | some hv => exact le_of_lt (lt_of_le_of_lt hk4 hkh)
        · obtain ⟨h1, h2, h3, h4⟩ := hb2 kv hkv
          refine ⟨h1, h2, ?_, h4⟩
          have hk3 : k < kv.key := h3
          have hkl : ltLo lo k := hklo k (List.mem_cons_self k ks)
          cases lo with
          | none => exact trivial
          | some lv => exact lt_trans hkl hk3

/-- Contents extraction: the pairs of a represented subtree have sorted
(hence distinct) keys of legal length, all lying in the window `(lo, hi]`. -/
theorem ReprAt_bounds : ∀ (h : Nat) (st : PagerState) (o : Nat)
    (lo hi : Option Key) (L : List KeyValuePair) (O : List Nat),
    ReprAt st h o lo hi L O →
    (L.map (fun kv => kv.key)).Pairwise (· < ·) ∧
    (∀ kv ∈ L, 1 ≤ kv.key.length ∧ kv.key.length ≤ KEY_MAX_SIZE ∧
      ltLo lo kv.key ∧ leHi hi kv.key) := by
  intro h
  induction h with
  | zero => intro st o lo hi L O hrep; exact (hrep : False).elim
  | succ h ih =>
    intro st o lo hi L O hrep
    obtain ⟨nd, _, _, hrest⟩ := hrep
    cases hnk : nd.node_kind with
    | leaf next previous pairs occ =>
      rw [hnk] at hrest
      obtain ⟨_, _, hL, _, hs, hb, _, _⟩ := hrest
      subst hL
      exact ⟨hs, hb⟩
    | internal keys children occ =>
      rw [hnk] at hrest
      obtain ⟨O', _, _, hsort, hbnd, _, _, hkids⟩ := hrest
      exact ReprKids_bounds_of (ReprAt st h)
        (fun c lo' hi' L' O2 hc => ih st c lo' hi' L' O2 hc)
        keys children lo hi L O' hkids hsort
        (fun k hk => (hbnd k hk).2.2.1) (fun k hk => (hbnd k hk).2.2.2)

/-- Lookup misses a list without the key. -/
theorem lookupKV_eq_none (L : List KeyValuePair) (q : Key)
    (h : ∀ kv ∈ L, kv.key ≠ q) : lookupKV L q = none := by
  unfold lookupKV
  rw [List.find?_eq_none.mpr (fun kv hkv => by simpa using h kv hkv)]
  rfl

/-- Lookup skips a prefix free of the key. -/
theorem lookupKV_append_right (L1 L2 : List KeyValuePair) (q : Key)
    (h : ∀ kv ∈ L1, kv.key ≠ q) :
    lookupKV (L1 ++ L2) q = lookupKV L2 q := by
  induction L1 with
  | nil => rfl
  | cons kv L1 ih =>
    unfold lookupKV
    rw [List.cons_append, List.find?_cons,
      show decide (kv.key = q) = false from by
        simpa using h kv (List.mem_cons_self kv L1)]
    exact ih (fun kv' hkv' => h kv' (List.mem_cons_of_mem kv hkv'))

/-- Lookup ignores a suffix free of the key. -/
theorem lookupKV_append_left (L1 L2 : List KeyValuePair) (q : Key)
    (h : ∀ kv ∈ L2, kv.key ≠ q) :
    lookupKV (L1 ++ L2) q = lookupKV L1 q := by
  induction L1 with
  | nil => exact lookupKV_eq_none L2 q h
  | cons kv L1 ih =>
    unfold lookupKV
    rw [List.cons_append, List.find?_cons, List.find?_cons]
    split
    · rfl
    · exact ih

/-- On sorted pairs containing the query, lookup returns the value of the
pair at the index `binary_search` lands on. -/
theorem lookupKV_found (pairs : List KeyValuePair) (q : Key)
    (hs : (pairs.map (fun kv => kv.key)).Pairwise (· < ·))
    (hmem : q ∈ pairs.map (fun kv => kv.key)) :
    lookupKV pairs q =
      some ((pairs.getD ((pairs.map (fun kv => kv.key)).countP
        (fun k => decide (k < q))) default).value) := by
  induction pairs with
  | nil => exact absurd hmem (by simp)
  | cons kv rest ih =>
    rw [List.map_cons] at hs hmem
    obtain ⟨hhead, hs'⟩ := List.pairwise_cons.mp hs
    by_cases he : kv.key = q
    · have hcount : (kv.key :: rest.map (fun kv => kv.key)).countP
          (fun k => decide (k < q)) = 0 := by
        rw [List.countP_eq_zero]
        intro x hx
        rcases List.mem_cons.mp hx with rfl | hx
        · simp [he]
        · have := hhead x hx
          simp only [decide_eq_true_eq]
          rw [← he]
          exact not_lt_of_gt this
      rw [List.map_cons, hcount]
      unfold lookupKV
      rw [List.find?_cons, show decide (kv.key = q) = true from by simpa using he]
      rfl
    · have hmem' : q ∈ rest.map (fun kv => kv.key) := by
        rcases List.mem_cons.mp hmem with h | h
        · exact absurd h.symm he
        · exact h
      have hlt : kv.key < q := by
        obtain ⟨kv', hkv', hq⟩ := List.mem_map.mp hmem'
        rw [← hq]
        exact hhead kv'.key (List.mem_map.mpr ⟨kv', hkv', rfl⟩)
      have hcount : (kv.key :: rest.map (fun kv => kv.key)).countP
          (fun k => decide (k < q)) =
          (rest.map (fun kv => kv.key)).countP (fun k => decide (k < q)) + 1 := by
        rw [List.countP_cons]
        simp [hlt]
      rw [List.map_cons, hcount]
      unfold lookupKV
      rw [List.find?_cons, show decide (kv.key = q) = false from by simpa using he]
      rw [show ((kv :: rest).getD ((rest.map (fun kv => kv.key)).countP
          (fun k => decide (k < q)) + 1)) default =
          rest.getD ((rest.map (fun kv => kv.key)).countP
          (fun k => decide (k < q))) default from rfl]
      exact ih hs' hmem'

/-- Every pair of a represented children sequence lies strictly above the
sequence's lower bound, provided the separators do. -/
theorem ReprKids_ltLo (st : PagerState) (h : Nat) :
    ∀ (ks : List Key) (cs : List Nat) (lo hi : Option Key)
      (L : List KeyValuePair) (O : List Nat),
    ReprKids (ReprAt st h) lo hi ks cs L O →
    ks.Pairwise (· < ·) →
    (∀ k ∈ ks, ltLo lo k) →
    ∀ kv ∈ L, ltLo lo kv.key := by
  intro ks
  induction ks with
  | nil =>
    intro cs lo hi L O hk _ _ kv hkv
    match cs with
    | [] => exact (hk : False).elim
    | [c] => exact ((ReprAt_bounds h st c lo hi L O hk).2 kv hkv).2.2.1
    | c :: c2 :: cs => exact (hk : False).elim
  | cons k ks ih =>
    intro cs lo hi L O hk hsk hklo kv hkv
    match cs with
    | [] => exact (hk : False).elim
    | c :: cs =>
      obtain ⟨L1, L2, O1, O2, hL, _, hc, hrest⟩ := hk
      obtain ⟨hkk, hsk'⟩ := List.pairwise_cons.mp hsk
      subst hL
      rcases List.mem_append.mp hkv with hkv | hkv
      · exact ((ReprAt_bounds h st c lo (some k) L1 O1 hc).2 kv hkv).2.2.1
      · have hk2 : ltLo (some k) kv.key :=
          ih cs (some k) hi L2 O2 hrest hsk' (fun k' hk' => hkk k' hk') kv hkv
        have hkl : ltLo lo k := hklo k (List.mem_cons_self k ks)
        cases lo with
        | none => exact trivial
        | some lv => exact lt_trans hkl hk2

/-- Routing: the child picked by `binary_search(..).unwrap_or_else(|x| x)`
on the separators of a represented children sequence exists, is itself a
represented subtree, and carries every pair of the sequence whose key is the
query. -/
theorem ReprKids_route (st : PagerState) (h : Nat) (q : Key) :
    ∀ (keys : List Key) (children : List Nat) (lo hi : Option Key)
      (L : List KeyValuePair) (O : List Nat),
    ReprKids (ReprAt st h) lo hi keys children L O →
    keys.Pairwise (· < ·) →
    ∃ c lo' hi' Lc Oc,
      children[keys.countP (fun k => decide (k < q))]? = some c ∧
      ReprAt st h c lo' hi' Lc Oc ∧
      lookupKV L q = lookupKV Lc q ∧
      ∀ p ∈ Oc, p ∈ O := by
  intro keys
  induction keys with
  | nil =>
    intro children lo hi L O hk _
    match children with
    | [] => exact (hk : False).elim
    | [c] => exact ⟨c, lo, hi, L, O, rfl, hk, rfl, fun p hp => hp⟩
    | c :: c2 :: cs => exact (hk : False).elim
  | cons k ks ih =>
    intro children lo hi L O hk hsort
    match children with
    | [] => exact (hk : False).elim
    | c :: cs =>
      obtain ⟨L1, L2, O1, O2, hL, hO, hc, hrest⟩ := hk
      obtain ⟨hkk, hsort'⟩ := List.pairwise_cons.mp hsort
      by_cases hklt : k < q
      · obtain ⟨c', lo', hi', Lc, Oc, hidx, hrep, hlook, hsub⟩ :=
          ih cs (some k) hi L2 O2 hrest hsort'
        have hcount : (k :: ks).countP (fun k => decide (k < q)) =
            ks.countP (fun k => decide (k < q)) + 1 := by
          rw [List.countP_cons]
          simp [hklt]
        refine ⟨c', lo', hi', Lc, Oc, ?_, hrep, ?_, ?_⟩
        · rw [hcount]
          simpa using hidx
        · subst hL
          rw [lookupKV_append_right L1 L2 q, hlook]
          intro kv hkv he
          have hle : kv.key ≤ k :=
            ((ReprAt_bounds h st c lo (some k) L1 O1 hc).2 kv hkv).2.2.2
          rw [he] at hle
          exact absurd hklt (not_lt_of_ge hle)
        · intro p hp
          rw [hO]
          exact List.mem_append_right _ (hsub p hp)
      · have hcount : (k :: ks).countP (fun k => decide (k < q)) = 0 := by
          rw [List.countP_eq_zero]
          intro x hx
          rcases List.mem_cons.mp hx with rfl | hx
          · simpa using hklt
          · simp only [decide_eq_true_eq]
            intro hlt
            exact hklt (lt_trans (hkk x hx) hlt)
        refine ⟨c, lo, some k, L1, O1, ?_, hc, ?_, ?_⟩
        · rw [hcount]
          simp
        · subst hL
          rw [lookupKV_append_left L1 L2 q]
          intro kv hkv he
          have hk2 : ltLo (some k) kv.key :=
            ReprKids_ltLo st h ks cs (some k) hi L2 O2 hrest hsort'
              (fun k' hk' => hkk k' hk') kv hkv
          rw [he] at hk2
          exact hklt hk2
        · intro p hp
          rw [hO]
          exact List.mem_append_left _ hp

/-- `search_node` on a represented subtree returns exactly the reference
lookup of the subtree's contents (and leaves the state alone). -/
theorem search_node_correct : ∀ (h : Nat) (st : PagerState) (o : Nat)
    (lo hi : Option Key) (L : List KeyValuePair) (O : List Nat)
    (nd : Node) (key : Key) (fuel : Nat),
    ReprAt st h o lo hi L O → nodeOfPage (st.file o) = Except.ok nd → h ≤ fuel →
    BTree.search_node st fuel nd key = (Except.ok (lookupKV L key), st) := by
  intro h
  induction h with
  | zero => intro st o lo hi L O nd key fuel hrep _ _; exact (hrep : False).elim
  | succ h ih =>
    intro st o lo hi L O nd key fuel hrep hparse hfuel
    obtain ⟨nd', hparse', hpar, hrest⟩ := hrep
    rw [hparse] at hparse'
    obtain rfl : nd = nd' := Except.ok.inj hparse'
    obtain ⟨f, rfl⟩ : ∃ f, fuel = f + 1 := ⟨fuel - 1, by omega⟩
    cases hnk : nd.node_kind with
    | leaf next previous pairs occ =>
      rw [hnk] at hrest
      obtain ⟨_, _, hL, _, hs, _, _, _⟩ := hrest
      subst hL
      conv_lhs => unfold BTree.search_node
      rw [hnk]
      show (Except.ok (match rustBinarySearch (L.map (fun p => p.key)) key [] with
        | Sum.inl x => some ((L.getD x default).value)
        | Sum.inr _ => none), st) = (Except.ok (lookupKV L key), st)
      have hbs := rustBinarySearch_eq ([] : Key) (L.map (fun p => p.key)) key hs
      rw [hbs]
      by_cases hmem : key ∈ L.map (fun p => p.key)
      · rw [if_pos hmem, lookupKV_found L key hs hmem]
      · rw [if_neg hmem, lookupKV_eq_none L key
          (fun kv hkv he => hmem (he ▸ List.mem_map.mpr ⟨kv, hkv, rfl⟩))]
    | internal keys children occ =>
      rw [hnk] at hrest
      obtain ⟨O', hO, hne, hsort, hbnd, hocc, hole, hkids⟩ := hrest
      obtain ⟨c, lo', hi', Lc, Oc, hidx, hrep', hlook, _⟩ :=
        ReprKids_route st h key keys children lo hi L O' hkids hsort
      cases h with
      | zero => exact (hrep' : False).elim
      | succ h' =>
        have hrep'' := hrep'
        obtain ⟨ndc, hcparse, _, _⟩ := hrep''
        conv_lhs => unfold BTree.search_node
        rw [hnk]
        show (match children[childIdx keys key]? with
          | none => (Except.error Error.InternalNodeNoChild, st)
          | some child_offset =>
            match nodeOfPage (Pager.get_page st child_offset) with
            | Except.error e => (Except.error e, st)
            | Except.ok child_node => BTree.search_node st f child_node key) =
          (Except.ok (lookupKV L key), st)
        rw [childIdx_eq_countP keys key hsort, hidx]
        show (match nodeOfPage (Pager.get_page st c) with
          | Except.error e => (Except.error e, st)
          | Except.ok child_node => BTree.search_node st f child_node key) =
          (Except.ok (lookupKV L key), st)
        rw [show Pager.get_page st c = st.file c from rfl, hcparse]
        show BTree.search_node st f ndc key = (Except.ok (lookupKV L key), st)
        rw [ih st c lo' hi' Lc Oc ndc key f hrep' hcparse (by omega), hlook]

/-- `search` on a state whose installed root represents contents `L`
returns exactly the reference lookup, leaving the state alone. -/
theorem search_correct (st : PagerState) (h r : Nat) (L : List KeyValuePair)
    (O : List Nat) (key : Key) (fuel : Nat)
    (hroot : st.config.root_page = some r)
    (hrep : ReprAt st h r none none L O)
    (hfuel : h ≤ fuel) :
    BTree.search fuel st key = (Except.ok (lookupKV L key), st) := by
  cases h with
  | zero => exact (hrep : False).elim
  | succ h' =>
    have hrep' := hrep
    obtain ⟨nd, hparse, _, _⟩ := hrep'
    unfold BTree.search
    rw [hroot]
    show (match nodeOfPage (Pager.get_page st r) with
      | Except.error e => (Except.error e, st)
      | Except.ok root_node => BTree.search_node st fuel root_node key) =
      (Except.ok (lookupKV L key), st)
    rw [show Pager.get_page st r = st.file r from rfl, hparse]
    show BTree.search_node st fuel nd key = (Except.ok (lookupKV L key), st)
    exact search_node_correct (h' + 1) st r none none L O nd key fuel hrep hparse hfuel

/-- Kids-level file agreement transport. -/
theorem ReprKids_agree (st st' : PagerState) (h : Nat) :
    ∀ (ks : List Key) (cs : List Nat) (lo hi : Option Key)
      (L : List KeyValuePair) (O : List Nat),
    ReprKids (ReprAt st h) lo hi ks cs L O →
    (∀ p ∈ O, st'.file p = st.file p) →
    ReprKids (ReprAt st' h) lo hi ks cs L O := by
  intro ks
  induction ks with
  | nil =>
    intro cs lo hi L O hk hag
    match cs with
    | [] => exact (hk : False).elim
    | [c] => exact ReprAt_agree h st st' c lo hi L O hk hag
    | c :: c2 :: cs => exact (hk : False).elim
  | cons k ks ih =>
    intro cs lo hi L O hk hag
    match cs with
    | [] => exact (hk : False).elim
    | c :: cs =>
      obtain ⟨L1, L2, O1, O2, hL, hO, hc, hrest⟩ := hk
      refine ⟨L1, L2, O1, O2, hL, hO, ?_, ?_⟩
      · exact ReprAt_agree h st st' c lo (some k) L1 O1 hc
          (fun p hp => hag p (by rw [hO]; exact List.mem_append_left _ hp))
      · exact ih cs (some k) hi L2 O2 hrest
          (fun p hp => hag p (by rw [hO]; exact List.mem_append_right _ hp))

/-- Sum of a map over `insertIdx` (in-bounds insertion). -/
theorem sum_map_insertIdx {α : Type} (f : α → Nat) (x : α) :
    ∀ (l : List α) (n : Nat), n ≤ l.length →
    ((l.insertIdx n x).map f).sum = (l.map f).sum + f x := by
  intro l
  induction l with
  | nil =>
    intro n hn
    have : n = 0 := by simpa using hn
    subst this
    simp [List.insertIdx]
  | cons a t ih =>
    intro n hn
    cases n with
    | zero => simp [List.insertIdx]; omega
    | succ m =>
      rw [List.insertIdx_succ_cons, List.map_cons, List.sum_cons,
        ih m (by simpa using hn), List.map_cons, List.sum_cons]
      omega

/-- `insertIdx` within the left part of an append. -/
theorem insertIdx_append_of_le {α : Type} (x : α) :
    ∀ (A B : List α) (i : Nat), i ≤ A.length →
    (A ++ B).insertIdx i x = A.insertIdx i x ++ B := by
  intro A
  induction A with
  | nil =>
    intro B i hi
    have : i = 0 := by simpa using hi
    subst this
    simp [List.insertIdx]
  | cons a t ih =>
    intro B i hi
    cases i with
    | zero => simp [List.insertIdx]
    | succ m =>
      rw [List.cons_append, List.insertIdx_succ_cons, List.insertIdx_succ_cons,
        ih B m (by simpa using hi), List.cons_append]

/-- `insertIdx` within the right part of an append. -/
theorem insertIdx_append_add {α : Type} (x : α) :
    ∀ (A B : List α) (j : Nat),
    (A ++ B).insertIdx (A.length + j) x = A ++ B.insertIdx j x := by
  intro A
  induction A with
  | nil => intro B j; simp
  | cons a t ih =>
    intro B j
    rw [List.cons_append, show (a :: t).length + j = (t.length + j) + 1 from by
      simp; omega, List.insertIdx_succ_cons, ih B j, List.cons_append]

/-- Membership in an in-bounds `insertIdx`. -/
theorem mem_insertIdx_iff {α : Type} (x y : α) :
    ∀ (l : List α) (n : Nat), n ≤ l.length →
    (y ∈ l.insertIdx n x ↔ y = x ∨ y ∈ l) := by
  intro l
  induction l with
  | nil =>
    intro n hn
    have : n = 0 := by simpa using hn
    subst this
    simp [List.insertIdx, eq_comm]
  | cons a t ih =>
    intro n hn
    cases n with
    | zero => simp [List.insertIdx, eq_comm]
    | succ m =>
      rw [List.insertIdx_succ_cons]
      simp only [List.mem_cons, ih m (by simpa using hn)]
      tauto

/-- Sorted insertion at a position bracketed by the neighbours preserves
strict sortedness. -/
theorem pairwise_insertIdx {α : Type} [LinearOrder α] (x : α) :
    ∀ (l : List α) (n : Nat), n ≤ l.length →
    l.Pairwise (· < ·) →
    (∀ y ∈ l.take n, y < x) →
    (∀ y ∈ l.drop n, x < y) →
    (l.insertIdx n x).Pairwise (· < ·) := by
  intro l
  induction l with
  | nil =>
    intro n hn _ _ _
    have : n = 0 := by simpa using hn
    subst this
    simp [List.insertIdx]
  | cons a t ih =>
    intro n hn hs hpre hsuf
    obtain ⟨ha, hs'⟩ := List.pairwise_cons.mp hs
    cases n with
    | zero =>
      rw [show (a :: t).insertIdx 0 x = x :: a :: t from rfl]
      refine List.pairwise_cons.mpr ⟨?_, hs⟩
      intro y hy
      rcases List.mem_cons.mp hy with rfl | hy
      · exact hsuf y (by simp)
      · have hax : x < a := hsuf a (by simp)
        exact lt_trans hax (ha y hy)
    | succ m =>
      rw [List.insertIdx_succ_cons]
      refine List.pairwise_cons.mpr ⟨?_, ?_⟩
      · intro y hy
        rcases (mem_insertIdx_iff x y t m (by simpa using hn)).mp hy with rfl | hy
        · exact hpre a (by simp)
        · exact ha y hy
      · exact ih m (by simpa using hn) hs'
          (fun y hy => hpre y (by simpa using List.mem_cons_of_mem a hy))
          (fun y hy => hsuf y (by simpa using hy))

/-- The splice decomposition of a represented children sequence at the
routing index of `q`: the routed child is exposed together with its window
and its slice of contents and offsets, and the remainder can be refilled
either with a single replacement child (copy-on-write rewrite) or with a new
separator and two children (a split), in a possibly different state agreeing
outside the slice. -/
theorem ReprKids_splice (st : PagerState) (h : Nat) (q : Key) :
    ∀ (keys : List Key) (children : List Nat) (lo hi : Option Key)
      (L : List KeyValuePair) (O : List Nat),
    ReprKids (ReprAt st h) lo hi keys children L O →
    keys.Pairwise (· < ·) →
    (∀ k ∈ keys, ltLo lo k ∧ ltHi hi k) →
    ltLo lo q → leHi hi q →
    ∃ c lo' hi' Lc Oc Lpre Lpost Opre Opost,
      children[keys.countP (fun k => decide (k < q))]? = some c ∧
      L = Lpre ++ Lc ++ Lpost ∧
      O = Opre ++ Oc ++ Opost ∧
      ReprAt st h c lo' hi' Lc Oc ∧
      ltLo lo' q ∧ leHi hi' q ∧
      (∀ x, ltLo lo' x → ltLo lo x) ∧
      (∀ x, ltHi hi' x → ltHi hi x) ∧
      (∀ x, ltLo lo' x →
        ∀ y ∈ keys.take (keys.countP (fun k => decide (k < q))), y < x) ∧
      (∀ x, ltHi hi' x →
        ∀ y ∈ keys.drop (keys.countP (fun k => decide (k < q))), x < y) ∧
      (∀ x, ltLo lo' x → ∀ y ∈ Lpre, y.key < x) ∧
      (∀ x, leHi hi' x → ∀ y ∈ Lpost, x < y.key) ∧
      (∀ (st' : PagerState) (c' : Nat) (Lc' : List KeyValuePair) (Oc' : List Nat),
        ReprAt st' h c' lo' hi' Lc' Oc' →
        (∀ p, p ∈ Opre ∨ p ∈ Opost → st'.file p = st.file p) →
        ReprKids (ReprAt st' h) lo hi keys
          (children.set (keys.countP (fun k => decide (k < q))) c')
          (Lpre ++ Lc' ++ Lpost) (Opre ++ Oc' ++ Opost)) ∧
      (∀ (st' : PagerState) (pk : Key) (c1 c2 : Nat)
          (L1 L2 : List KeyValuePair) (O1 O2 : List Nat),
        ReprAt st' h c1 lo' (some pk) L1 O1 →
        ReprAt st' h c2 (some pk) hi' L2 O2 →
        (∀ p, p ∈ Opre ∨ p ∈ Opost → st'.file p = st.file p) →
        ReprKids (ReprAt st' h) lo hi
          (keys.insertIdx (keys.countP (fun k => decide (k < q))) pk)
          ((children.set (keys.countP (fun k => decide (k < q))) c1).insertIdx
            (keys.countP (fun k => decide (k < q)) + 1) c2)
          (Lpre ++ (L1 ++ L2) ++ Lpost) (Opre ++ (O1 ++ O2) ++ Opost)) := by
  intro keys
  induction keys with
  | nil =>
    intro children lo hi L O hk _ _ hloq hhiq
    match children with
    | [] => exact (hk : False).elim
    | [c] =>
      refine ⟨c, lo, hi, L, O, [], [], [], [], rfl, by simp, by simp, hk,
        hloq, hhiq, fun x hx => hx, fun x hx => hx,
        (by intro x _ y hy; simp at hy), (by intro x _ y hy; simp at hy),
        (by intro x _ y hy; simp at hy), (by intro x _ y hy; simp at hy), ?_, ?_⟩
      · intro st' c' Lc' Oc' hc' _
        show ReprAt st' h c' lo hi ([] ++ (Lc' ++ [])) ([] ++ (Oc' ++ []))
        rw [List.nil_append, List.nil_append, List.append_nil, List.append_nil]
        exact hc'
      · intro st' pk c1 c2 L1 L2 O1 O2 h1 h2 _
        show ReprKids (ReprAt st' h) lo hi [pk] [c1, c2]
          ([] ++ ((L1 ++ L2) ++ [])) ([] ++ ((O1 ++ O2) ++ []))
        rw [List.nil_append, List.nil_append, List.append_nil, List.append_nil]
        exact ⟨L1, L2, O1, O2, rfl, rfl, h1, h2⟩
    | c :: c2 :: cs => exact (hk : False).elim
  | cons k ks ih =>
    intro children lo hi L O hk hsort hkb hloq hhiq
    match children with
    | [] => exact (hk : False).elim
    | c :: cs =>
      obtain ⟨L1, L2, O1, O2, hL, hO, hc, hrest⟩ := hk
      obtain ⟨hkk, hsort'⟩ := List.pairwise_cons.mp hsort
      have hkbk := hkb k (List.mem_cons_self k ks)
      by_cases hklt : k < q
      · have hcount : (k :: ks).countP (fun k => decide (k < q)) =
            ks.countP (fun k => decide (k < q)) + 1 := by
          rw [List.countP_cons]
          simp [hklt]
        obtain ⟨c', lo', hi', Lc, Oc, Lpre', Lpost', Opre', Opost', hidx, hL2, hO2,
            hcrep, hloq', hhiq', hlotr, hhitr, hCtake, hCdrop, hPre', hPost',
            hfill1, hfill2⟩ :=
          ih cs (some k) hi L2 O2 hrest hsort'
            (fun k' h' => ⟨hkk k' h', (hkb k' (List.mem_cons_of_mem k h')).2⟩)
            hklt hhiq
        refine ⟨c', lo', hi', Lc, Oc, L1 ++ Lpre', Lpost', O1 ++ Opre', Opost',
          ?_, ?_, ?_, hcrep, hloq', hhiq', ?_, hhitr, ?_, ?_, ?_, hPost', ?_, ?_⟩
        · rw [hcount]
          simpa using hidx
        · rw [hL, hL2]
          simp [List.append_assoc]
        · rw [hO, hO2]
          simp [List.append_assoc]
        · intro x hx
          have hkx : ltLo (some k) x := hlotr x hx
          cases lo with
          | none => exact trivial
          | some lv => exact lt_trans hkbk.1 hkx
        · intro x hx y hy
          rw [hcount, List.take_succ_cons] at hy
          rcases List.mem_cons.mp hy with rfl | hy
          · exact hlotr x hx
          · exact hCtake x hx y hy
        · intro x hx y hy
          rw [hcount, List.drop_succ_cons] at hy
          exact hCdrop x hx y hy
        · intro x hx y hy
          rcases List.mem_append.mp hy with hy | hy
          · have hb1 := (ReprAt_bounds h st c lo (some k) L1 O1 hc).2 y hy
            exact lt_of_le_of_lt hb1.2.2.2 (hlotr x hx : k < x)
          · exact hPre' x hx y hy
        · intro st' cNew LcNew OcNew hrep' hag
          have hsetEq : (c :: cs).set (ks.countP (fun k => decide (k < q)) + 1) cNew =
              c :: cs.set (ks.countP (fun k => decide (k < q))) cNew := rfl
          rw [hcount, hsetEq]
          refine ⟨L1, Lpre' ++ LcNew ++ Lpost', O1, Opre' ++ OcNew ++ Opost',
            ?_, ?_, ?_, ?_⟩
          · simp [List.append_assoc]
          · simp [List.append_assoc]
          · exact ReprAt_agree h st st' c lo (some k) L1 O1 hc
              (fun p hp => hag p (Or.inl (List.mem_append_left _ hp)))
          · exact hfill1 st' cNew LcNew OcNew hrep'
              (fun p hp => hag p (by
                rcases hp with hp | hp
                · exact Or.inl (List.mem_append_right _ hp)
                · exact Or.inr hp))
        · intro st' pk c1 c2 L1' L2' O1' O2' h1 h2 hag
          have hinsK : (k :: ks).insertIdx (ks.countP (fun k => decide (k < q)) + 1) pk =
              k :: ks.insertIdx (ks.countP (fun k => decide (k < q))) pk :=
            List.insertIdx_succ_cons ..
          have hinsC : ((c :: cs).set (ks.countP (fun k => decide (k < q)) + 1) c1).insertIdx
              (ks.countP (fun k => decide (k < q)) + 1 + 1) c2 =
              c :: (cs.set (ks.countP (fun k => decide (k < q))) c1).insertIdx
                (ks.countP (fun k => decide (k < q)) + 1) c2 := rfl
          rw [hcount, hinsK, hinsC]
          refine ⟨L1, Lpre' ++ (L1' ++ L2') ++ Lpost', O1, Opre' ++ (O1' ++ O2') ++ Opost',
            ?_, ?_, ?_, ?_⟩
          · simp [List.append_assoc]
          · simp [List.append_assoc]
          · exact ReprAt_agree h st st' c lo (some k) L1 O1 hc
              (fun p hp => hag p (Or.inl (List.mem_append_left _ hp)))
          · exact hfill2 st' pk c1 c2 L1' L2' O1' O2' h1 h2
              (fun p hp => hag p (by
                rcases hp with hp | hp
                · exact Or.inl (List.mem_append_right _ hp)
                · exact Or.inr hp))
      · have hcount : (k :: ks).countP (fun k => decide (k < q)) = 0 := by
          rw [List.countP_eq_zero]
          intro x hx
          rcases List.mem_cons.mp hx with rfl | hx
          · simpa using hklt
          · simp only [decide_eq_true_eq]
            intro hlt
            exact hklt (lt_trans (hkk x hx) hlt)
        have hqk : leHi (some k) q := le_of_not_lt hklt
        refine ⟨c, lo, some k, L1, O1, [], L2, [], O2, ?_, ?_, ?_, hc,
          hloq, hqk, fun x hx => hx, ?_, ?_, ?_,
          (by intro x _ y hy; simp at hy), ?_, ?_, ?_⟩
        · rw [hcount]
          simp
        · rw [hL]
          simp
        · rw [hO]
          simp
        · intro x hx
          have hxk : x < k := hx
          cases hi with
          | none => exact trivial
          | some hv => exact lt_trans hxk hkbk.2
        · intro x _ y hy
          rw [hcount, List.take_zero] at hy
          simp at hy
        · intro x hx y hy
          rw [hcount, List.drop_zero] at hy
          have hxk : x < k := hx
          rcases List.mem_cons.mp hy with rfl | hy
          · exact hxk
          · exact lt_trans hxk (hkk y hy)
        · intro x hx y hy
          have hbounds := ReprKids_bounds_of (ReprAt st h)
            (fun c2 lo2 hi2 L2a O2a hr => ReprAt_bounds h st c2 lo2 hi2 L2a O2a hr)
            ks cs (some k) hi L2 O2 hrest hsort'
            (fun k' h' => hkk k' h')
            (fun k' h' => (hkb k' (List.mem_cons_of_mem k h')).2)
          have hky : k < y.key := (hbounds.2 y hy).2.2.1
          exact lt_of_le_of_lt (hx : x ≤ k) hky
        · intro st' cNew LcNew OcNew hrep' hag
          rw [hcount]
          have hsetEq : (c :: cs).set 0 cNew = cNew :: cs := rfl
          rw [hsetEq]
          refine ⟨LcNew, L2, OcNew, O2, by simp, by simp, hrep', ?_⟩
          exact ReprKids_agree st st' h ks cs (some k) hi L2 O2 hrest
            (fun p hp => hag p (Or.inr hp))
        · intro st' pk c1 c2 L1' L2' O1' O2' h1 h2 hag
          rw [hcount]
          have hinsC : ((c :: cs).set 0 c1).insertIdx 1 c2 = c1 :: c2 :: cs := rfl
          have hinsK : (k :: ks).insertIdx 0 pk = pk :: k :: ks := rfl
          rw [hinsC, hinsK]
          refine ⟨L1', L2' ++ L2, O1', O2' ++ O2, by simp, by simp, h1, ?_⟩
          refine ⟨L2', L2, O2', O2, rfl, rfl, h2, ?_⟩
          exact ReprKids_agree st st' h ks cs (some k) hi L2 O2 hrest
            (fun p hp => hag p (Or.inr hp))

/-- `Pager::write_page` writes the page at a fresh offset: the popped head
of the free list if available, the bump-allocation cursor otherwise. -/
theorem write_page_spec (st : PagerState) (page : Page) (C : List Nat)
    (hch : FreeChain st st.config.first_free_page C)
    (hsort : C.Pairwise (· < ·)) :
    ∃ o st' C', Pager.write_page st page = (o, st') ∧
      st'.file o = page ∧
      (∀ y, y ≠ o → st'.file y = st.file y) ∧
      st'.log = st.log ++ [(o, page.data)] ∧
      st'.config.root_page = st.config.root_page ∧
      FreeChain st' st'.config.first_free_page C' ∧
      C'.Pairwise (· < ·) ∧
      st.curser ≤ st'.curser ∧
      ((C = o :: C' ∧ st'.curser = st.curser) ∨
        (C = [] ∧ C' = [] ∧ o = st.curser ∧ st'.curser = st.curser + PAGE_SIZE)) := by
  obtain ⟨o, st1, halloc, hfile1, hlog1, hroot1, hcase⟩ := alloc_page_spec st C hch
  have hred : Pager.write_page st page = (o, Pager.write_page_at_offset st1 o page) := by
    unfold Pager.write_page
    rw [halloc]
  rcases hcase with ⟨hC, ho, hcurs, hffp⟩ | ⟨rest, hC, hcurs, hch1⟩
  · refine ⟨o, Pager.write_page_at_offset st1 o page, [], hred,
      write_page_at_file_same st1 o page, ?_, ?_, hroot1, ?_, List.Pairwise.nil,
      by rw [show (Pager.write_page_at_offset st1 o page).curser = st1.curser from rfl,
        hcurs]; omega,
      Or.inr ⟨hC, rfl, ho, by
        rw [show (Pager.write_page_at_offset st1 o page).curser = st1.curser from rfl,
          hcurs]⟩⟩
    · intro y hy
      rw [write_page_at_file_ne st1 o page y hy, hfile1]
    · show st1.log ++ _ = _
      rw [hlog1]
    · show FreeChain _ (st1.config.first_free_page) []
      rw [hffp]
      exact .nil
  · subst hC
    obtain ⟨ho0, hsort'⟩ := List.pairwise_cons.mp hsort
    refine ⟨o, Pager.write_page_at_offset st1 o page, rest, hred,
      write_page_at_file_same st1 o page, ?_, ?_, hroot1, ?_, hsort',
      by rw [show (Pager.write_page_at_offset st1 o page).curser = st1.curser from rfl,
        hcurs],
      Or.inl ⟨rfl, by
        rw [show (Pager.write_page_at_offset st1 o page).curser = st1.curser from rfl,
          hcurs]⟩⟩
    · intro y hy
      rw [write_page_at_file_ne st1 o page y hy, hfile1]
    · show st1.log ++ _ = _
      rw [hlog1]
    · show FreeChain _ (st1.config.first_free_page) rest
      refine FreeChain_agree hch1 ?_
      intro c hc
      rw [write_page_at_file_ne st1 o page c (Nat.ne_of_gt (ho0 c hc))]

/-- Elements of a prefix cut at the strict-lower count are below the probe
(sorted list). -/
theorem sorted_take_countP_lt {α : Type} [LinearOrder α] (q : α) :
    ∀ (l : List α), l.Pairwise (· < ·) →
    ∀ y ∈ l.take (l.countP (fun k => decide (k < q))), y < q := by
  intro l
  induction l with
  | nil => intro _ y hy; simp at hy
  | cons a t ih =>
    intro hs y hy
    obtain ⟨ha, hs'⟩ := List.pairwise_cons.mp hs
    by_cases haq : a < q
    · have hcc : (a :: t).countP (fun k => decide (k < q)) =
          t.countP (fun k => decide (k < q)) + 1 := by
        rw [List.countP_cons]
        simp [haq]
      rw [hcc, List.take_succ_cons] at hy
      rcases List.mem_cons.mp hy with rfl | hy
      · exact haq
      · exact ih hs' y hy
    · have hz : (a :: t).countP (fun k => decide (k < q)) = 0 := by
        rw [List.countP_eq_zero]
        intro x hx
        rcases List.mem_cons.mp hx with rfl | hx
        · simpa using haq
        · simp only [decide_eq_true_eq]
          intro hlt
          exact haq (lt_trans (ha x hx) hlt)
      rw [hz] at hy
      simp at hy

/-- Elements of the suffix from the strict-lower count on are above an
absent probe (sorted list). -/
theorem sorted_drop_countP_gt {α : Type} [LinearOrder α] (q : α) :
    ∀ (l : List α), l.Pairwise (· < ·) → q ∉ l →
    ∀ y ∈ l.drop (l.countP (fun k => decide (k < q))), q < y := by
  intro l
  induction l with
  | nil => intro _ _ y hy; simp at hy
  | cons a t ih =>
    intro hs hq y hy
    obtain ⟨ha, hs'⟩ := List.pairwise_cons.mp hs
    by_cases haq : a < q
    · have hcc : (a :: t).countP (fun k => decide (k < q)) =
          t.countP (fun k => decide (k < q)) + 1 := by
        rw [List.countP_cons]
        simp [haq]
      rw [hcc, List.drop_succ_cons] at hy
      exact ih hs' (fun hm => hq (List.mem_cons_of_mem a hm)) y hy
    · have hz : (a :: t).countP (fun k => decide (k < q)) = 0 := by
        rw [List.countP_eq_zero]
        intro x hx
        rcases List.mem_cons.mp hx with rfl | hx
        · simpa using haq
        · simp only [decide_eq_true_eq]
          intro hlt
          exact haq (lt_trans (ha x hx) hlt)
      rw [hz, List.drop_zero] at hy
      have hqa : q < a := by
        rcases lt_or_eq_of_le (le_of_not_lt haq) with h | h
        · exact h
        · exact absurd (h ▸ List.mem_cons_self a t) hq
      rcases List.mem_cons.mp hy with rfl | hy
      · exact hqa
      · exact lt_trans hqa (ha y hy)

/-- `map` commutes with in-bounds `insertIdx`. -/
theorem map_insertIdx_comm {α β : Type} (f : α → β) (x : α) :
    ∀ (l : List α) (n : Nat), n ≤ l.length →
    (l.insertIdx n x).map f = (l.map f).insertIdx n (f x) := by
  intro l
  induction l with
  | nil =>
    intro n hn
    have : n = 0 := by simpa using hn
    subst this
    rfl
  | cons a t ih =>
    intro n hn
    cases n with
    | zero => rfl
    | succ m =>
      rw [List.insertIdx_succ_cons, List.map_cons, ih m (by simpa using hn),
        List.map_cons, List.insertIdx_succ_cons]

/-- Sum of a pointwise-bounded map is at most the bound times the length. -/
theorem sum_map_le_mul {α : Type} (f : α → Nat) (b : Nat) :
    ∀ (l : List α), (∀ y ∈ l, f y ≤ b) → (l.map f).sum ≤ b * l.length := by
  intro l
  induction l with
  | nil => intro _; simp
  | cons a t ih =>
    intro hb
    rw [List.map_cons, List.sum_cons, List.length_cons]
    have h1 := hb a (List.mem_cons_self a t)
    have h2 := ih (fun y hy => hb y (List.mem_cons_of_mem a hy))
    calc f a + (t.map f).sum ≤ b + b * t.length := by omega
    _ = b * (t.length + 1) := by ring

/-- Length bounds the sum of a map that is everywhere at least one. -/
theorem length_le_sum_map {α : Type} (f : α → Nat) :
    ∀ (l : List α), (∀ y ∈ l, 1 ≤ f y) → l.length ≤ (l.map f).sum := by
  intro l
  induction l with
  | nil => intro _; simp
  | cons a t ih =>
    intro hb
    rw [List.map_cons, List.sum_cons, List.length_cons]
    have h1 := hb a (List.mem_cons_self a t)
    have h2 := ih (fun y hy => hb y (List.mem_cons_of_mem a hy))
    omega

/-- `FreeQueue::add` keeps the queue sorted and duplicate-free; membership
grows by exactly the added offset. -/
theorem FreeQueue_add_spec (q : List Nat) (x : Nat) (hs : q.Pairwise (· < ·)) :
    (FreeQueue.add q x).Pairwise (· < ·) ∧
    (∀ y, y ∈ FreeQueue.add q x ↔ y = x ∨ y ∈ q) := by
  unfold FreeQueue.add
  rw [rustBinarySearch_eq 0 q x hs]
  by_cases hmem : x ∈ q
  · rw [if_pos hmem]
    exact ⟨hs, fun y => by
      constructor
      · exact fun hy => Or.inr hy
      · rintro (rfl | hy)
        · exact hmem
        · exact hy⟩
  · rw [if_neg hmem]
    have hcle : q.countP (fun k => decide (k < x)) ≤ q.length := List.countP_le_length _
    constructor
    · exact pairwise_insertIdx x q _ hcle hs
        (fun y hy => sorted_take_countP_lt x q hs y hy)
        (fun y hy => sorted_drop_countP_gt x q hs hmem y hy)
    · intro y
      exact mem_insertIdx_iff x y q _ hcle

/-- A hit of `find?` on `range n` is the least index satisfying the
predicate. -/
theorem find?_range_min {p : Nat → Bool} : ∀ {n j : Nat},
    (List.range n).find? p = some j → p j = true ∧ ∀ i, i < j → p i = false := by
  intro n
  induction n with
  | zero => intro j h; simp at h
  | succ n ih =>
    intro j h
    rw [List.range_succ, List.find?_append] at h
    cases hf : (List.range n).find? p with
    | some j' =>
      rw [hf] at h
      have : j' = j := by simpa using h
      exact ih (this ▸ hf)
    | none =>
      rw [hf] at h
      have hall : ∀ i ∈ List.range n, ¬ p i = true := List.find?_eq_none.mp hf
      cases hpn : p n with
      | true =>
        have hj : j = n := by
          rw [List.find?_cons, hpn] at h
          simpa using h.symm
        subst hj
        exact ⟨hpn, fun i hi => by
          have := hall i (List.mem_range.mpr hi)
          simpa using this⟩
      | false =>
        rw [List.find?_cons, hpn] at h
        simp at h

/-- The first `specCutIdx` key lengths sum to at most `total/2 + 1`, the
first `specCutIdx + 1` to more (when the cut is nonzero). -/
theorem specCutIdx_bounds (keys : List Key) (h0 : specCutIdx keys ≠ 0) :
    ((keys.take (specCutIdx keys)).map List.length).sum ≤
      (keys.map List.length).sum / 2 + 1 ∧
    (keys.map List.length).sum / 2 + 1 <
      ((keys.take (specCutIdx keys + 1)).map List.length).sum := by
  simp only [specCutIdx] at h0 ⊢
  cases hf : (List.range keys.length).find?
      (fun i => decide (((keys.take (i + 1)).map List.length).sum >
        (keys.map List.length).sum / 2 + 1)) with
  | none => rw [hf] at h0; simp at h0
  | some j =>
    simp only [Option.getD_some] at h0 ⊢
    obtain ⟨hpj, hmin⟩ := find?_range_min hf
    have hj0 : j ≠ 0 := by
      simp only [hf, Option.getD_some] at h0
      exact h0
    constructor
    · obtain ⟨j', rfl⟩ : ∃ j', j = j' + 1 := ⟨j - 1, by omega⟩
      have := hmin j' (by omega)
      simpa using this
    · simpa using hpj

/-- The cut is nonzero when the first key alone does not qualify but the
whole list does. -/
theorem specCutIdx_ne_zero (keys : List Key)
    (hfirst : ((keys.take 1).map List.length).sum ≤ (keys.map List.length).sum / 2 + 1)
    (hlast : (keys.map List.length).sum / 2 + 1 < (keys.map List.length).sum)
    (hne : keys ≠ []) :
    specCutIdx keys ≠ 0 := by
  simp only [specCutIdx]
  have hlen : 0 < keys.length := List.length_pos.mpr hne
  have hsome : ∃ i ∈ List.range keys.length,
      (fun i => decide (((keys.take (i + 1)).map List.length).sum >
        (keys.map List.length).sum / 2 + 1)) i = true := by
    refine ⟨keys.length - 1, List.mem_range.mpr (by omega), ?_⟩
    have : keys.take (keys.length - 1 + 1) = keys := by
      rw [show keys.length - 1 + 1 = keys.length from by omega]
      simp
    simp only [this, decide_eq_true_eq]
    exact hlast
  have hisSome := List.find?_isSome.mpr hsome
  cases hf : (List.range keys.length).find?
      (fun i => decide (((keys.take (i + 1)).map List.length).sum >
        (keys.map List.length).sum / 2 + 1)) with
  | none => rw [hf] at hisSome; simp at hisSome
  | some j =>
    simp only [Option.getD_some]
    obtain ⟨hpj, _⟩ := find?_range_min hf
    intro hj0
    subst hj0
    simp only [decide_eq_true_eq, Nat.zero_add] at hpj
    omega

/-- Splitting a mapped sum at a cut. -/
theorem sum_map_take_drop {α : Type} (f : α → Nat) (l : List α) (c : Nat) :
    ((l.take c).map f).sum + ((l.drop c).map f).sum = (l.map f).sum := by
  conv_rhs => rw [← List.take_append_drop c l]
  rw [List.map_append, List.sum_append]

/-- The leaf branch of `insert_cow`, exposed as an equation. -/
theorem insert_cow_leaf_eq (st : PagerState) (fq : List Nat) (fuel : Nat)
    (nd : Node) (o : Nat) (kv : KeyValuePair)
    (next previous : Option Nat) (pairs : List KeyValuePair) (occ : Nat)
    (hnk : nd.node_kind = .leaf next previous pairs occ) :
    BTree.insert_cow st fq (fuel + 1) nd o kv =
    (if PAGE_SIZE - occ < 1 + kv.key.length + VALUE_SIZE then
      match split_key_value_pairs pairs with
      | .error e => (.error e, fq, st)
      | .ok (promoted_key, key_value_pairs, sibling_key_value_pairs) =>
        let key_value_pairs :=
          if kv.key ≤ promoted_key then
            key_value_pairs.insertIdx
              (childIdx (key_value_pairs.map (fun p => p.key)) kv.key) kv
          else key_value_pairs
        let sibling_key_value_pairs :=
          if kv.key ≤ promoted_key then sibling_key_value_pairs
          else sibling_key_value_pairs.insertIdx
            (childIdx (sibling_key_value_pairs.map (fun p => p.key)) kv.key) kv
        match pageOfNode ⟨.leaf next previous key_value_pairs 0, none⟩ with
        | .error e => (.error e, fq, st)
        | .ok new_node_page =>
          match Pager.write_page st new_node_page with
          | (new_node_offset, st) =>
            let fq := FreeQueue.add fq o
            match pageOfNode
                ⟨.leaf none none sibling_key_value_pairs 0, nd.parent_offset⟩ with
            | .error e => (.error e, fq, st)
            | .ok sibling_page =>
              match Pager.write_page st sibling_page with
              | (sibling_offset, st) =>
                (.ok (.DidSplit promoted_key new_node_offset sibling_offset), fq, st)
    else
      let idx := childIdx (pairs.map (fun p => p.key)) kv.key
      match pageOfNode ⟨.leaf next previous (pairs.insertIdx idx kv) occ, none⟩ with
      | .error e => (.error e, fq, st)
      | .ok page =>
        match Pager.write_page st page with
        | (new_addr, st) => (.ok (.NewOffset new_addr), FreeQueue.add fq o, st)) := by
  conv_lhs => unfold BTree.insert_cow
  rw [hnk]

/-- The internal branch of `insert_cow`, exposed as an equation. -/
theorem insert_cow_internal_eq (st : PagerState) (fq : List Nat) (fuel : Nat)
    (nd : Node) (o : Nat) (kv : KeyValuePair)
    (keys : List Key) (children : List Nat) (occ : Nat)
    (hnk : nd.node_kind = .internal keys children occ) :
    BTree.insert_cow st fq (fuel + 1) nd o kv =
    (match children[childIdx keys kv.key]? with
    | none => (.error .InternalNodeNoChild, fq, st)
    | some child_offset =>
      match nodeOfPage (Pager.get_page st child_offset) with
      | .error e => (.error e, fq, st)
      | .ok child =>
        match BTree.insert_cow st fq fuel child child_offset kv with
        | (.error e, fq, st) => (.error e, fq, st)
        | (.ok (.NewOffset new_child_offset), fq, st) =>
          match pageOfNode
              ⟨.internal keys (children.set (childIdx keys kv.key) new_child_offset)
                occ, none⟩ with
          | .error e => (.error e, fq, st)
          | .ok page =>
            match Pager.write_page st page with
            | (o2, st) => (.ok (.NewOffset o2), FreeQueue.add fq o, st)
        | (.ok (.DidSplit promoted_key first second), fq, st) =>
          if PAGE_SIZE - occ < PTR_SIZE + promoted_key.length + 1 + 1 then
            let keys2 := keys.insertIdx (childIdx keys kv.key) promoted_key
            let children2 := (children.set (childIdx keys kv.key) first).insertIdx
              (childIdx keys kv.key + 1) second
            let median_idx := find_median_key_idx keys2
            if median_idx = 0 then (.error .ImpossibleSplit, fq, st)
            else
              match keys2.drop median_idx with
              | [] => (.error .rustPanic, fq, st)
              | new_promoted_key :: sibling_keys =>
                let sibling_children := children2.drop (median_idx + 1)
                match pageOfNode
                    ⟨.internal (keys2.take median_idx) (children2.take (median_idx + 1)) 0,
                      none⟩ with
                | .error e => (.error e, fq, st)
                | .ok first_page =>
                  match Pager.write_page st first_page with
                  | (first_offset, st) =>
                    match pageOfNode ⟨.internal sibling_keys sibling_children 0, none⟩ with
                    | .error e => (.error e, fq, st)
                    | .ok second_page =>
                      match Pager.write_page st second_page with
                      | (second_offset, st) =>
                        (.ok (.DidSplit new_promoted_key first_offset second_offset),
                          fq, st)
          else
            let keys2 := keys.insertIdx (childIdx keys kv.key) promoted_key
            let children2 := (children.set (childIdx keys kv.key) first).insertIdx
              (childIdx keys kv.key + 1) second
            match pageOfNode ⟨.internal keys2 children2 occ, none⟩ with
            | .error e => (.error e, fq, st)
            | .ok page =>
              match Pager.write_page st page with
              | (o2, st) => (.ok (.NewOffset o2), FreeQueue.add fq o, st)) := by
  conv_lhs => unfold BTree.insert_cow
  rw [hnk]

/-- Cutting a represented children sequence at separator index `m`: the two
sides are themselves represented sequences, bridged by the separator. -/
theorem ReprKids_cut
    (R : Nat → Option Key → Option Key → List KeyValuePair → List Nat → Prop) :
    ∀ (ks : List Key) (m : Nat) (cs : List Nat) (lo hi : Option Key)
      (L : List KeyValuePair) (O : List Nat),
    m < ks.length →
    ReprKids R lo hi ks cs L O →
    ∃ L1 L2 O1 O2, L = L1 ++ L2 ∧ O = O1 ++ O2 ∧
      ReprKids R lo (some (ks.getD m [])) (ks.take m) (cs.take (m + 1)) L1 O1 ∧
      ReprKids R (some (ks.getD m [])) hi (ks.drop (m + 1)) (cs.drop (m + 1)) L2 O2 := by
  intro ks
  induction ks with
  | nil => intro m cs lo hi L O hm; simp at hm
  | cons k ks ih =>
    intro m cs lo hi L O hm hk
    match cs with
    | [] => exact (hk : False).elim
    | c :: cs =>
      obtain ⟨L1, L2, O1, O2, hL, hO, hc, hrest⟩ := hk
      cases m with
      | zero =>
        refine ⟨L1, L2, O1, O2, hL, hO, ?_, ?_⟩
        · show ReprKids R lo (some k) [] [c] L1 O1
          exact hc
        · show ReprKids R (some k) hi ks cs L2 O2
          exact hrest
      | succ m' =>
        obtain ⟨L2a, L2b, O2a, O2b, hL2, hO2, hleft, hright⟩ :=
          ih m' cs (some k) hi L2 O2 (by simpa using hm) hrest
        refine ⟨L1 ++ L2a, L2b, O1 ++ O2a, O2b, ?_, ?_, ?_, ?_⟩
        · rw [hL, hL2, List.append_assoc]
        · rw [hO, hO2, List.append_assoc]
        · show ReprKids R lo (some ((k :: ks).getD (m' + 1) []))
            (k :: ks.take m') (c :: cs.take (m' + 1)) (L1 ++ L2a) (O1 ++ O2a)
          exact ⟨L1, L2a, O1, O2a, rfl, rfl, hc, hleft⟩
        · show ReprKids R (some (ks.getD m' [])) hi
            (ks.drop (m' + 1)) (cs.drop (m' + 1)) L2b O2b
          exact hright

/-- A leaf slot sum, separated into the per-pair overhead and the key
bytes. -/
theorem sum_map_slot (L : List KeyValuePair) :
    (L.map (fun kv => 1 + kv.key.length + VALUE_SIZE)).sum =
      9 * L.length + ((L.map (fun p => p.key)).map List.length).sum := by
  induction L with
  | nil => rfl
  | cons kv rest ih =>
    simp only [List.map_cons, List.sum_cons, List.length_cons]
    rw [ih]
    simp only [VALUE_SIZE]
    omega

/-- An internal slot sum, separated into the per-key length byte and the key
bytes. -/
theorem sum_map_one_add (keys : List Key) :
    (keys.map (fun k => 1 + k.length)).sum =
      keys.length + (keys.map List.length).sum := by
  induction keys with
  | nil => rfl
  | cons k rest ih =>
    simp only [List.map_cons, List.sum_cons, List.length_cons, ih]
    omega

/-- Two consecutive `write_page`s: both land on fresh offsets (popped from
the sorted free list or bump-allocated), which are distinct, nonzero,
page-aligned and below the final cursor; the rest of the file, the cached
root and the chain invariant survive. -/
theorem write_two_pages_spec (st : PagerState) (p1 p2 : Page) (C : List Nat)
    (hch : FreeChain st st.config.first_free_page C)
    (hsort : C.Pairwise (· < ·))
    (hCprops : ∀ c ∈ C, c ≠ 0 ∧ c < st.curser ∧ c % PAGE_SIZE = 0)
    (hcursA : st.curser % PAGE_SIZE = 0) (hcurs0 : 0 < st.curser) :
    ∃ o1 st1 o2 st' C',
      Pager.write_page st p1 = (o1, st1) ∧
      Pager.write_page st1 p2 = (o2, st') ∧
      st'.file o1 = p1 ∧ st'.file o2 = p2 ∧ o1 ≠ o2 ∧
      (∀ y, y ≠ o1 → y ≠ o2 → st'.file y = st.file y) ∧
      st'.log = st.log ++ [(o1, p1.data), (o2, p2.data)] ∧
      st'.config.root_page = st.config.root_page ∧
      st.curser ≤ st'.curser ∧ st'.curser % PAGE_SIZE = 0 ∧ 0 < st'.curser ∧
      FreeChain st' st'.config.first_free_page C' ∧
      C'.Pairwise (· < ·) ∧ (∀ x ∈ C', x ∈ C) ∧
      (∀ p ∈ [o1, o2], p ≠ 0 ∧ p < st'.curser ∧ p % PAGE_SIZE = 0 ∧ p ∉ C' ∧
        (p ∈ C ∨ st.curser ≤ p)) := by
  have hPS : PAGE_SIZE = 8192 := rfl
  obtain ⟨o1, st1, C1, hwr1, hf1, hf1ne, hlog1, hroot1, hch1, hC1sort, hcurs1, hcase1⟩ :=
    write_page_spec st p1 C hch hsort
  obtain ⟨o2, st2, C2, hwr2, hf2, hf2ne, hlog2, hroot2, hch2, hC2sort, hcurs2, hcase2⟩ :=
    write_page_spec st1 p2 C1 hch1 hC1sort
  have hC1sub : ∀ x ∈ C1, x ∈ C := by
    rcases hcase1 with ⟨hCeq, _⟩ | ⟨_, hC1eq, _, _⟩
    · rw [hCeq]; exact fun x hx => List.mem_cons_of_mem _ hx
    · rw [hC1eq]; intro x hx; simp at hx
  have hC2sub : ∀ x ∈ C2, x ∈ C := by
    intro x hx
    rcases hcase2 with ⟨hC1eq, _⟩ | ⟨_, hC2eq, _, _⟩
    · exact hC1sub x (by rw [hC1eq]; exact List.mem_cons_of_mem _ hx)
    · rw [hC2eq] at hx; simp at hx
  have ho1 : o1 ≠ 0 ∧ o1 < st1.curser ∧ o1 % PAGE_SIZE = 0 ∧ o1 ∉ C1 ∧
      (o1 ∈ C ∨ st.curser ≤ o1) := by
    rcases hcase1 with ⟨hCeq, hceq⟩ | ⟨hCeq, hC1eq, ho1eq, hceq⟩
    · have hm : o1 ∈ C := by rw [hCeq]; exact List.mem_cons_self _ _
      obtain ⟨hz, hlt, hal⟩ := hCprops o1 hm
      rw [hCeq] at hsort
      obtain ⟨hlt2, _⟩ := List.pairwise_cons.mp hsort
      exact ⟨hz, by omega, hal, fun hmem => lt_irrefl o1 (hlt2 o1 hmem),
        Or.inl hm⟩
    · subst ho1eq
      rw [hC1eq]
      exact ⟨by omega, by omega, hcursA, by simp, Or.inr (le_refl _)⟩
  have ho2 : o2 ≠ 0 ∧ o2 < st2.curser ∧ o2 % PAGE_SIZE = 0 ∧ o2 ∉ C2 ∧
      (o2 ∈ C1 ∨ st1.curser ≤ o2) := by
    have hC1props : ∀ c ∈ C1, c ≠ 0 ∧ c < st1.curser ∧ c % PAGE_SIZE = 0 := by
      intro x hx
      obtain ⟨hz, hlt, hal⟩ := hCprops x (hC1sub x hx)
      exact ⟨hz, by omega, hal⟩
    rcases hcase2 with ⟨hC1eq, hceq⟩ | ⟨hC1eq, hC2eq, ho2eq, hceq⟩
    · have hm : o2 ∈ C1 := by rw [hC1eq]; exact List.mem_cons_self _ _
      obtain ⟨hz, hlt, hal⟩ := hC1props o2 hm
      rw [hC1eq] at hC1sort
      obtain ⟨hlt2, _⟩ := List.pairwise_cons.mp hC1sort
      exact ⟨hz, by omega, hal, fun hmem => lt_irrefl o2 (hlt2 o2 hmem),
        Or.inl hm⟩
    · subst ho2eq
      rw [hC2eq]
      have hst1A : st1.curser % PAGE_SIZE = 0 := by
        rcases hcase1 with ⟨_, hceq1⟩ | ⟨_, _, _, hceq1⟩
        · rw [hceq1]; exact hcursA
        · rw [hceq1]
          simp only [PAGE_SIZE] at hcursA ⊢
          omega
      exact ⟨by omega, by omega, hst1A, by simp, Or.inr (le_refl _)⟩
  have hne12 : o1 ≠ o2 := by
    rcases ho2.2.2.2.2 with hm | hge
    · intro he
      exact ho1.2.2.2.1 (he ▸ hm)
    · intro he
      subst he
      have := ho1.2.1
      omega
  refine ⟨o1, st1, o2, st2, C2, hwr1, hwr2, ?_, hf2, hne12, ?_, ?_,
    by rw [hroot2, hroot1], by omega, ?_, ?_, hch2, hC2sort, hC2sub, ?_⟩
  · rw [hf2ne o1 hne12, hf1]
  · intro y hy1 hy2
    rw [hf2ne y hy2, hf1ne y hy1]
  · rw [hlog2, hlog1, List.append_assoc]
    rfl
  · rcases hcase2 with ⟨_, hceq⟩ | ⟨_, _, _, hceq⟩ <;> rcases hcase1 with ⟨_, hceq1⟩ | ⟨_, _, _, hceq1⟩ <;>
      rw [hceq, hceq1] <;> simp only [PAGE_SIZE] at hcursA ⊢ <;> omega
  · rcases hcase2 with ⟨_, hceq⟩ | ⟨_, _, _, hceq⟩ <;> rw [hceq] <;> omega
  · intro p hp
    rcases List.mem_cons.mp hp with rfl | hp
    · have ho1C2 : p ∉ C2 := by
        intro hm
        rcases hcase2 with ⟨hC1eq, _⟩ | ⟨_, hC2eq, _, _⟩
        · exact ho1.2.2.2.1 (by rw [hC1eq]; exact List.mem_cons_of_mem _ hm)
        · rw [hC2eq] at hm; simp at hm
      refine ⟨ho1.1, by have := ho1.2.1; omega, ho1.2.2.1, ho1C2, ho1.2.2.2.2⟩
    · rcases List.mem_cons.mp hp with rfl | hp
      · refine ⟨ho2.1, ho2.2.1, ho2.2.2.1, ho2.2.2.2.1, ?_⟩
        rcases ho2.2.2.2.2 with hm | hge
        · exact Or.inl (hC1sub p hm)
        · exact Or.inr (by omega)
      · simp at hp

/-- One step of the internal-node insert: with the routed child resolved and
parsed, the operation reduces to a match on the recursive call's result. -/
theorem insert_cow_internal_step (st : PagerState) (fq : List Nat) (f : Nat)
    (nd child : Node) (o co : Nat) (kv : KeyValuePair)
    (keys : List Key) (children : List Nat) (occ : Nat)
    (hnk : nd.node_kind = .internal keys children occ)
    (hidx : children[childIdx keys kv.key]? = some co)
    (hcp : nodeOfPage (Pager.get_page st co) = .ok child) :
    BTree.insert_cow st fq (f + 1) nd o kv =
    (match BTree.insert_cow st fq f child co kv with
    | (.error e, fq, st) => (.error e, fq, st)
    | (.ok (.NewOffset new_child_offset), fq, st) =>
      match pageOfNode
          ⟨.internal keys (children.set (childIdx keys kv.key) new_child_offset)
            occ, none⟩ with
      | .error e => (.error e, fq, st)
      | .ok page =>
        match Pager.write_page st page with
        | (o2, st) => (.ok (.NewOffset o2), FreeQueue.add fq o, st)
    | (.ok (.DidSplit promoted_key first second), fq, st) =>
      if PAGE_SIZE - occ < PTR_SIZE + promoted_key.length + 1 + 1 then
        let keys2 := keys.insertIdx (childIdx keys kv.key) promoted_key
        let children2 := (children.set (childIdx keys kv.key) first).insertIdx
          (childIdx keys kv.key + 1) second
        let median_idx := find_median_key_idx keys2
        if median_idx = 0 then (.error .ImpossibleSplit, fq, st)
        else
          match keys2.drop median_idx with
          | [] => (.error .rustPanic, fq, st)
          | new_promoted_key :: sibling_keys =>
            let sibling_children := children2.drop (median_idx + 1)
            match pageOfNode
                ⟨.internal (keys2.take median_idx) (children2.take (median_idx + 1)) 0,
                  none⟩ with
            | .error e => (.error e, fq, st)
            | .ok first_page =>
              match Pager.write_page st first_page with
              | (first_offset, st) =>
                match pageOfNode ⟨.internal sibling_keys sibling_children 0, none⟩ with
                | .error e => (.error e, fq, st)
                | .ok second_page =>
                  match Pager.write_page st second_page with
                  | (second_offset, st) =>
                    (.ok (.DidSplit new_promoted_key first_offset second_offset),
                      fq, st)
      else
        let keys2 := keys.insertIdx (childIdx keys kv.key) promoted_key
        let children2 := (children.set (childIdx keys kv.key) first).insertIdx
          (childIdx keys kv.key + 1) second
        match pageOfNode ⟨.internal keys2 children2 occ, none⟩ with
        | .error e => (.error e, fq, st)
        | .ok page =>
          match Pager.write_page st page with
          | (o2, st) => (.ok (.NewOffset o2), FreeQueue.add fq o, st)) := by
  rw [insert_cow_internal_eq st fq f nd o kv keys children occ hnk, hidx]
  show ((match nodeOfPage (Pager.get_page st co) with
    | .error e => (.error e, fq, st)
    | .ok child =>
      match BTree.insert_cow st fq f child co kv with
      | (.error e, fq, st) => (.error e, fq, st)
      | (.ok (.NewOffset new_child_offset), fq, st) =>
        match pageOfNode
            ⟨.internal keys (children.set (childIdx keys kv.key) new_child_offset)
              occ, none⟩ with
        | .error e => (.error e, fq, st)
        | .ok page =>
          match Pager.write_page st page with
          | (o2, st) => (.ok (.NewOffset o2), FreeQueue.add fq o, st)
      | (.ok (.DidSplit promoted_key first second), fq, st) =>
        if PAGE_SIZE - occ < PTR_SIZE + promoted_key.length + 1 + 1 then
          let keys2 := keys.insertIdx (childIdx keys kv.key) promoted_key
          let children2 := (children.set (childIdx keys kv.key) first).insertIdx
            (childIdx keys kv.key + 1) second
          let median_idx := find_median_key_idx keys2
          if median_idx = 0 then (.error .ImpossibleSplit, fq, st)
          else
            match keys2.drop median_idx with
            | [] => (.error .rustPanic, fq, st)
            | new_promoted_key :: sibling_keys =>
              let sibling_children := children2.drop (median_idx + 1)
              match pageOfNode
                  ⟨.internal (keys2.take median_idx)
                    (children2.take (median_idx + 1)) 0, none⟩ with
              | .error e => (.error e, fq, st)
              | .ok first_page =>
                match Pager.write_page st first_page with
                | (first_offset, st) =>
                  match pageOfNode
                      ⟨.internal sibling_keys sibling_children 0, none⟩ with
                  | .error e => (.error e, fq, st)
                  | .ok second_page =>
                    match Pager.write_page st second_page with
                    | (second_offset, st) =>
                      (.ok (.DidSplit new_promoted_key first_offset second_offset),
                        fq, st)
        else
          let keys2 := keys.insertIdx (childIdx keys kv.key) promoted_key
          let children2 := (children.set (childIdx keys kv.key) first).insertIdx
            (childIdx keys kv.key + 1) second
          match pageOfNode ⟨.internal keys2 children2 occ, none⟩ with
          | .error e => (.error e, fq, st)
          | .ok page =>
            match Pager.write_page st page with
            | (o2, st) => (.ok (.NewOffset o2), FreeQueue.add fq o, st) :
      Except Error InsertCOWStatus × List Nat × PagerState)) = _
  rw [hcp]

/-- `insertIdx` at an in-bounds position splits as take/cons/drop. -/
theorem insertIdx_take_drop {α : Type} (x : α) :
    ∀ (l : List α) (n : Nat), n ≤ l.length →
    l.insertIdx n x = l.take n ++ x :: l.drop n := by
  intro l
  induction l with
  | nil =>
    intro n hn
    have hn0 : n = 0 := by simpa using hn
    subst hn0
    rfl
  | cons a as ih =>
    intro n hn
    cases n with
    | zero => rfl
    | succ m =>
      rw [List.insertIdx_succ_cons, ih m (by simpa using hn)]
      rfl

/-- The cons step of the pair serialiser, as an equation. -/
theorem encodePairs_cons (o : Nat) (x : KeyValuePair) (rest : List KeyValuePair) :
    encodePairs o (x :: rest) =
    if x.key.length > KEY_MAX_SIZE then .error .KeyOverflowError
    else if o + x.key.length + 1 + VALUE_SIZE ≥ PAGE_SIZE then .error .UnexpectedError
    else
      match encodePairs (o + 1 + x.key.length + VALUE_SIZE) rest with
      | .error e => .error e
      | .ok bs => .ok ((x.key.length :: x.key) ++ be8 x.value ++ bs) := rfl

/-- The pair serialiser hits `KeyOverflowError` at the first over-long key,
provided the preceding (legal) pairs pass their space checks. -/
theorem encodePairs_overflow (kv : KeyValuePair) (B : List KeyValuePair)
    (hkv : KEY_MAX_SIZE < kv.key.length) :
    ∀ (A : List KeyValuePair) (o : Nat),
    (∀ x ∈ A, x.key.length ≤ KEY_MAX_SIZE) →
    o + (A.map (fun x => 1 + x.key.length + VALUE_SIZE)).sum ≤ PAGE_SIZE - 1 →
    encodePairs o (A ++ kv :: B) = .error .KeyOverflowError := by
  intro A
  induction A with
  | nil =>
    intro o _ _
    show encodePairs o (kv :: B) = _
    rw [encodePairs_cons, if_pos (show kv.key.length > KEY_MAX_SIZE from hkv)]
  | cons x A2 ih =>
    intro o hA hsz
    have hx : x.key.length ≤ KEY_MAX_SIZE := hA x (List.mem_cons_self x A2)
    have hPS : PAGE_SIZE = 8192 := rfl
    have hVS : VALUE_SIZE = 8 := rfl
    simp only [List.map_cons, List.sum_cons] at hsz
    show encodePairs o (x :: (A2 ++ kv :: B)) = _
    rw [encodePairs_cons, if_neg (by omega), if_neg (by omega),
      ih (o + 1 + x.key.length + VALUE_SIZE)
        (fun y hy => hA y (List.mem_cons_of_mem x hy)) (by omega)]

/-- Serialising a leaf whose pair list embeds an over-long key fails with
`KeyOverflowError`, provided the pairs before it fit the page. -/
theorem pageOfNode_leaf_overflow (next previous : Option Nat)
    (A : List KeyValuePair) (kv : KeyValuePair) (B : List KeyValuePair)
    (occ : Nat) (par : Option Nat)
    (hkv : KEY_MAX_SIZE < kv.key.length)
    (hA : ∀ x ∈ A, x.key.length ≤ KEY_MAX_SIZE)
    (hsz : LEAF_HEADER_SIZE + (A.map (fun x => 1 + x.key.length + VALUE_SIZE)).sum ≤
      PAGE_SIZE - 1) :
    pageOfNode ⟨.leaf next previous (A ++ kv :: B) occ, par⟩ =
      .error .KeyOverflowError := by
  rw [pageOfNode_leaf_eq, encodePairs_overflow kv B hkv A LEAF_HEADER_SIZE hA hsz]

/-- Inserting a pair whose key exceeds 255 bytes into any represented
subtree fails — with `KeyOverflowError` from the node serialiser, or with
`ImpossibleSplit` when an overfull leaf cannot be split — and the only page
the failing path can write is a fresh one (popped from the free list or
bump-allocated), so the subtree's own pages survive untouched and the
cached root offset never moves. -/
theorem insert_cow_oversized : ∀ (h : Nat) (st : PagerState) (fq : List Nat)
    (fuel : Nat) (nd : Node) (o : Nat) (kv : KeyValuePair) (lo hi : Option Key)
    (L : List KeyValuePair) (O C : List Nat),
    ReprAt st h o lo hi L O →
    nodeOfPage (st.file o) = Except.ok nd →
    h ≤ fuel →
    KEY_MAX_SIZE < kv.key.length →
    FreeChain st st.config.first_free_page C →
    C.Pairwise (· < ·) →
    (∀ c ∈ C, c ≠ 0 ∧ c < st.curser ∧ c % PAGE_SIZE = 0) →
    (∀ p ∈ O, p ≠ 0 ∧ p < st.curser ∧ p % PAGE_SIZE = 0) →
    (∀ c ∈ C, c ∉ O) →
    st.curser % PAGE_SIZE = 0 →
    0 < st.curser →
    ∃ (e : Error) (fq2 : List Nat) (st2 : PagerState) (N : List Nat),
      BTree.insert_cow st fq fuel nd o kv = (Except.error e, fq2, st2) ∧
      (e = Error.KeyOverflowError ∨ e = Error.ImpossibleSplit) ∧
      st2.config.root_page = st.config.root_page ∧
      (∀ p, p ∉ N → st2.file p = st.file p) ∧
      (∀ p ∈ N, p ∈ C ∨ st.curser ≤ p) := by
  intro h
  induction h with
  | zero =>
    intro st fq fuel nd o kv lo hi L O C hrep
    exact (hrep : False).elim
  | succ h ih =>
    intro st fq fuel nd o kv lo hi L O C hrep hparse hfuel hlong hch hCsort
      hCprops hOprops hCO hcursA hcurs0
    obtain ⟨nd2, hparse2, hpar, hrest⟩ := hrep
    rw [hparse] at hparse2
    obtain rfl : nd = nd2 := Except.ok.inj hparse2
    obtain ⟨f, rfl⟩ : ∃ f, fuel = f + 1 := ⟨fuel - 1, by omega⟩
    have hKM : KEY_MAX_SIZE = 255 := rfl
    have hPS : PAGE_SIZE = 8192 := rfl
    have hVS : VALUE_SIZE = 8 := rfl
    have hLH : LEAF_HEADER_SIZE = 34 := rfl
    cases hnk : nd.node_kind with
    | leaf next previous pairs occ =>
      rw [hnk] at hrest
      obtain ⟨hnext, hprev, hLp, hOeq, hs, hb, hocc, hole⟩ := hrest
      subst hLp
      subst hOeq
      subst hnext
      subst hprev
      by_cases hfit : PAGE_SIZE - occ < 1 + kv.key.length + VALUE_SIZE
      · -- overfull leaf: the split path
        by_cases hc0 : specCutIdx (L.map (fun p => p.key)) = 0
        · -- the leaf cannot be split
          refine ⟨Error.ImpossibleSplit, fq, st, [], ?_, Or.inr rfl, rfl,
            fun p _ => rfl, fun p hp => absurd hp (List.not_mem_nil p)⟩
          rw [insert_cow_leaf_eq st fq f nd o kv none none L occ hnk, if_pos hfit,
            split_key_value_pairs_eq L, if_pos hc0]
        · -- a real split; the oversized pair kills the serialiser of the
          -- half it is routed into
          have hclt : specCutIdx (L.map (fun p => p.key)) < L.length := by
            have := specCutIdx_lt_length (L.map (fun p => p.key)) hc0
            simpa using this
          set c := specCutIdx (L.map (fun p => p.key)) with hc
          have hsplit_eq : split_key_value_pairs L =
              Except.ok ((L.getD (c - 1) default).key, L.take c, L.drop c) := by
            rw [split_key_value_pairs_eq L, if_neg hc0]
          have hsumTD := sum_map_take_drop
            (fun x => 1 + x.key.length + VALUE_SIZE) L c
          have hsz0 : LEAF_HEADER_SIZE +
              (L.map (fun x => 1 + x.key.length + VALUE_SIZE)).sum ≤
              PAGE_SIZE - 1 := by
            omega
          by_cases hroute : kv.key ≤ (L.getD (c - 1) default).key
          · -- routed left: nothing is written before the failure
            have htksorted : ((L.take c).map (fun p => p.key)).Pairwise (· < ·) := by
              rw [List.map_take]
              exact hs.sublist (List.take_sublist _ _)
            have hiL_le : childIdx ((L.take c).map (fun p => p.key)) kv.key ≤
                (L.take c).length := by
              rw [childIdx_eq_countP _ _ htksorted]
              have hle : (((L.take c).map (fun p => p.key)).countP
                  (fun k => decide (k < kv.key))) ≤
                  ((L.take c).map (fun p => p.key)).length := by
                apply List.countP_le_length
              rw [List.length_map] at hle
              exact hle
            have hdecomp : (L.take c).insertIdx
                (childIdx ((L.take c).map (fun p => p.key)) kv.key) kv =
                (L.take c).take (childIdx ((L.take c).map (fun p => p.key)) kv.key)
                  ++ kv :: (L.take c).drop
                    (childIdx ((L.take c).map (fun p => p.key)) kv.key) :=
              insertIdx_take_drop kv (L.take c) _ hiL_le
            have hsub1 := sum_map_take_drop
              (fun x => 1 + x.key.length + VALUE_SIZE) (L.take c)
              (childIdx ((L.take c).map (fun p => p.key)) kv.key)
            have hser : pageOfNode ⟨.leaf none none ((L.take c).insertIdx
                (childIdx ((L.take c).map (fun p => p.key)) kv.key) kv) 0, none⟩ =
                .error .KeyOverflowError := by
              rw [hdecomp]
              refine pageOfNode_leaf_overflow none none _ kv _ 0 none hlong ?_ ?_
              · exact fun x hx =>
                  (hb x (List.mem_of_mem_take (List.mem_of_mem_take hx))).2.1
              · omega
            refine ⟨Error.KeyOverflowError, fq, st, [], ?_, Or.inl rfl, rfl,
              fun p _ => rfl, fun p hp => absurd hp (List.not_mem_nil p)⟩
            rw [insert_cow_leaf_eq st fq f nd o kv none none L occ hnk, if_pos hfit,
              hsplit_eq]
            show (match pageOfNode ⟨.leaf none none
                (if kv.key ≤ (L.getD (c - 1) default).key then
                  (L.take c).insertIdx
                    (childIdx ((L.take c).map (fun p => p.key)) kv.key) kv
                 else L.take c) 0, none⟩ with
              | Except.error e => (Except.error e, fq, st)
              | Except.ok new_node_page =>
                match Pager.write_page st new_node_page with
                | (new_node_offset, st) =>
                  match pageOfNode ⟨.leaf none none
                      (if kv.key ≤ (L.getD (c - 1) default).key then L.drop c
                       else (L.drop c).insertIdx
                         (childIdx ((L.drop c).map (fun p => p.key)) kv.key) kv) 0,
                      nd.parent_offset⟩ with
                  | Except.error e => (Except.error e, FreeQueue.add fq o, st)
                  | Except.ok sibling_page =>
                    match Pager.write_page st sibling_page with
                    | (sibling_offset, st) =>
                      (Except.ok (InsertCOWStatus.DidSplit
                        ((L.getD (c - 1) default).key) new_node_offset
                        sibling_offset), FreeQueue.add fq o, st)) =
              (Except.error Error.KeyOverflowError, fq, st)
            rw [if_pos hroute, hser]
          · -- routed right: the left half is written (to a fresh page),
            -- then the sibling serialiser fails
            have hszL : LEAF_HEADER_SIZE + ((L.take c).map
                (fun x => 1 + x.key.length + VALUE_SIZE)).sum ≤ PAGE_SIZE - 1 := by
              omega
            obtain ⟨pageL, hpageL⟩ := pageOfNode_leaf_ok none none (L.take c) 0 none
              (fun x hx => (hb x (List.mem_of_mem_take hx)).2.1) hszL
            obtain ⟨o1, st1, C1, hwr1, hf1, hf1ne, hlog1, hroot1, hch1, hC1sort,
              hcurs1, hcase1⟩ := write_page_spec st pageL C hch hCsort
            have hdksorted : ((L.drop c).map (fun p => p.key)).Pairwise (· < ·) := by
              rw [List.map_drop]
              exact hs.sublist (List.drop_sublist _ _)
            have hiR_le : childIdx ((L.drop c).map (fun p => p.key)) kv.key ≤
                (L.drop c).length := by
              rw [childIdx_eq_countP _ _ hdksorted]
              have hle : (((L.drop c).map (fun p => p.key)).countP
                  (fun k => decide (k < kv.key))) ≤
                  ((L.drop c).map (fun p => p.key)).length := by
                apply List.countP_le_length
              rw [List.length_map] at hle
              exact hle
            have hdecomp : (L.drop c).insertIdx
                (childIdx ((L.drop c).map (fun p => p.key)) kv.key) kv =
                (L.drop c).take (childIdx ((L.drop c).map (fun p => p.key)) kv.key)
                  ++ kv :: (L.drop c).drop
                    (childIdx ((L.drop c).map (fun p => p.key)) kv.key) :=
              insertIdx_take_drop kv (L.drop c) _ hiR_le
            have hsub1 := sum_map_take_drop
              (fun x => 1 + x.key.length + VALUE_SIZE) (L.drop c)
              (childIdx ((L.drop c).map (fun p => p.key)) kv.key)
            have hser : pageOfNode ⟨.leaf none none ((L.drop c).insertIdx
                (childIdx ((L.drop c).map (fun p => p.key)) kv.key) kv) 0,
                nd.parent_offset⟩ = .error .KeyOverflowError := by
              rw [hpar, hdecomp]
              refine pageOfNode_leaf_overflow none none _ kv _ 0 none hlong ?_ ?_
              · exact fun x hx =>
                  (hb x (List.mem_of_mem_drop (List.mem_of_mem_take hx))).2.1
              · omega
            refine ⟨Error.KeyOverflowError, FreeQueue.add fq o, st1, [o1], ?_,
              Or.inl rfl, hroot1, ?_, ?_⟩
            · rw [insert_cow_leaf_eq st fq f nd o kv none none L occ hnk,
                if_pos hfit, hsplit_eq]
              show (match pageOfNode ⟨.leaf none none
                  (if kv.key ≤ (L.getD (c - 1) default).key then
                    (L.take c).insertIdx
                      (childIdx ((L.take c).map (fun p => p.key)) kv.key) kv
                   else L.take c) 0, none⟩ with
                | Except.error e => (Except.error e, fq, st)
                | Except.ok new_node_page =>
                  match Pager.write_page st new_node_page with
                  | (new_node_offset, st) =>
                    match pageOfNode ⟨.leaf none none
                        (if kv.key ≤ (L.getD (c - 1) default).key then L.drop c
                         else (L.drop c).insertIdx
                           (childIdx ((L.drop c).map (fun p => p.key)) kv.key) kv)
                        0, nd.parent_offset⟩ with
                    | Except.error e => (Except.error e, FreeQueue.add fq o, st)
                    | Except.ok sibling_page =>
                      match Pager.write_page st sibling_page with
                      | (sibling_offset, st) =>
                        (Except.ok (InsertCOWStatus.DidSplit
                          ((L.getD (c - 1) default).key) new_node_offset
                          sibling_offset), FreeQueue.add fq o, st)) =
                (Except.error Error.KeyOverflowError, FreeQueue.add fq o, st1)
              rw [if_neg hroute, if_neg hroute, hpageL]
              show (match Pager.write_page st pageL with
                | (new_node_offset, st) =>
                  match pageOfNode ⟨.leaf none none
                      ((L.drop c).insertIdx
                        (childIdx ((L.drop c).map (fun p => p.key)) kv.key) kv) 0,
                      nd.parent_offset⟩ with
                  | Except.error e => (Except.error e, FreeQueue.add fq o, st)
                  | Except.ok sibling_page =>
                    match Pager.write_page st sibling_page with
                    | (sibling_offset, st) =>
                      (Except.ok (InsertCOWStatus.DidSplit
                        ((L.getD (c - 1) default).key) new_node_offset
                        sibling_offset), FreeQueue.add fq o, st)) =
                (Except.error Error.KeyOverflowError, FreeQueue.add fq o, st1)
              rw [hwr1]
              show (match pageOfNode ⟨.leaf none none
                  ((L.drop c).insertIdx
                    (childIdx ((L.drop c).map (fun p => p.key)) kv.key) kv) 0,
                  nd.parent_offset⟩ with
                | Except.error e => (Except.error e, FreeQueue.add fq o, st1)
                | Except.ok sibling_page =>
                  match Pager.write_page st1 sibling_page with
                  | (sibling_offset, st) =>
                    (Except.ok (InsertCOWStatus.DidSplit
                      ((L.getD (c - 1) default).key) o1 sibling_offset),
                      FreeQueue.add fq o, st)) =
                (Except.error Error.KeyOverflowError, FreeQueue.add fq o, st1)
              rw [hser]
            · intro p hp
              have hne : p ≠ o1 := by simpa using hp
              exact hf1ne p hne
            · intro p hp
              have hpe : p = o1 := by simpa using hp
              subst hpe
              rcases hcase1 with ⟨hCeq, _⟩ | ⟨_, _, ho1eq, _⟩
              · exact Or.inl (by rw [hCeq]; exact List.mem_cons_self _ _)
              · exact Or.inr (by omega)
      · -- the pair fits the leaf: the serialiser is reached directly and
        -- fails on the key length
        have hidx_le : childIdx (L.map (fun p => p.key)) kv.key ≤ L.length := by
          rw [childIdx_eq_countP _ _ hs]
          have hle : ((L.map (fun p => p.key)).countP
              (fun k => decide (k < kv.key))) ≤ (L.map (fun p => p.key)).length := by
            apply List.countP_le_length
          rw [List.length_map] at hle
          exact hle
        have hdecomp : L.insertIdx (childIdx (L.map (fun p => p.key)) kv.key) kv =
            L.take (childIdx (L.map (fun p => p.key)) kv.key) ++
              kv :: L.drop (childIdx (L.map (fun p => p.key)) kv.key) :=
          insertIdx_take_drop kv L _ hidx_le
        have hsub1 := sum_map_take_drop (fun x => 1 + x.key.length + VALUE_SIZE) L
          (childIdx (L.map (fun p => p.key)) kv.key)
        have hser : pageOfNode ⟨.leaf none none
            (L.insertIdx (childIdx (L.map (fun p => p.key)) kv.key) kv) occ,
            none⟩ = .error .KeyOverflowError := by
          rw [hdecomp]
          refine pageOfNode_leaf_overflow none none _ kv _ occ none hlong ?_ ?_
          · exact fun x hx => (hb x (List.mem_of_mem_take hx)).2.1
          · omega
        refine ⟨Error.KeyOverflowError, fq, st, [], ?_, Or.inl rfl, rfl,
          fun p _ => rfl, fun p hp => absurd hp (List.not_mem_nil p)⟩
        rw [insert_cow_leaf_eq st fq f nd o kv none none L occ hnk, if_neg hfit]
        show (match pageOfNode ⟨.leaf none none
            (L.insertIdx (childIdx (L.map (fun p => p.key)) kv.key) kv) occ,
            none⟩ with
          | Except.error e => (Except.error e, fq, st)
          | Except.ok page =>
            match Pager.write_page st page with
            | (new_addr, st) => (Except.ok (InsertCOWStatus.NewOffset new_addr),
                FreeQueue.add fq o, st)) =
          (Except.error Error.KeyOverflowError, fq, st)
        rw [hser]
    | internal keys children occ =>
      rw [hnk] at hrest
      obtain ⟨O2, hOeq, hkne, hksort, hkb, hocc, hole, hkids⟩ := hrest
      subst hOeq
      obtain ⟨co, lo2, hi2, Lc, Oc, hidx, hcrep, hlk, hOcsub⟩ :=
        ReprKids_route st h kv.key keys children lo hi L O2 hkids hksort
      obtain ⟨child, hchildparse⟩ :
          ∃ child, nodeOfPage (st.file co) = Except.ok child := by
        cases h with
        | zero => exact (hcrep : False).elim
        | succ h2 =>
          obtain ⟨child, hcp, _, _⟩ := hcrep
          exact ⟨child, hcp⟩
      obtain ⟨e0, fq0, st0, N0, hrec, hedisj, hroot0, hagree0, hN0props⟩ :=
        ih st fq f child co kv lo2 hi2 Lc Oc C hcrep hchildparse (by omega) hlong
          hch hCsort hCprops
          (fun p hp => hOprops p (List.mem_cons_of_mem o (hOcsub p hp)))
          (fun cc hcc hm => hCO cc hcc (List.mem_cons_of_mem o (hOcsub _ hm)))
          hcursA hcurs0
      refine ⟨e0, fq0, st0, N0, ?_, hedisj, hroot0, hagree0, hN0props⟩
      have hidx2 : children[childIdx keys kv.key]? = some co := by
        rw [childIdx_eq_countP keys kv.key hksort]
        exact hidx
      rw [insert_cow_internal_step st fq f nd child o co kv keys children occ hnk
        hidx2 hchildparse, hrec]

/-- C6 (amended): for every insert of a key longer than 255 bytes into a
well-formed tree, the operation fails and no entry for that key is ever
stored — the root offset is unchanged, the tree's pages survive untouched,
and a subsequent search of the key still returns nothing. The error is
`KeyOverflowError` or `ImpossibleSplit` (not always `KeyOverflowError`:
when the oversized pair overflows the target leaf the split path runs
before the serialiser's key-length check, and an unsplittable leaf then
yields `ImpossibleSplit`). -/
theorem claimC6 (st : PagerState) (h root fuel : Nat) (L : List KeyValuePair)
    (O C : List Nat) (key : Key) (value : Nat)
    (hroot : st.config.root_page = some root)
    (hrep : ReprAt st h root none none L O)
    (hfuel : h ≤ fuel)
    (hch : FreeChain st st.config.first_free_page C)
    (hCsort : C.Pairwise (· < ·))
    (hCprops : ∀ c ∈ C, c ≠ 0 ∧ c < st.curser ∧ c % PAGE_SIZE = 0)
    (hOprops : ∀ p ∈ O, p ≠ 0 ∧ p < st.curser ∧ p % PAGE_SIZE = 0)
    (hCO : ∀ c ∈ C, c ∉ O)
    (hcursA : st.curser % PAGE_SIZE = 0) (hcurs0 : 0 < st.curser)
    (hlong : KEY_MAX_SIZE < key.length) :
    ∃ e st2, BTree.insert fuel st key value = (Except.error e, st2) ∧
      (e = Error.KeyOverflowError ∨ e = Error.ImpossibleSplit) ∧
      st2.config.root_page = st.config.root_page ∧
      (∀ p ∈ O, st2.file p = st.file p) ∧
      BTree.search fuel st2 key = (Except.ok none, st2) := by
  obtain ⟨rootnd, hrparse⟩ : ∃ nd, nodeOfPage (st.file root) = Except.ok nd := by
    cases h with
    | zero => exact (hrep : False).elim
    | succ h2 =>
      obtain ⟨nd, hp, _, _⟩ := hrep
      exact ⟨nd, hp⟩
  obtain ⟨e0, fq0, st0, N0, hrec, hedisj, hroot0, hagree0, hN0props⟩ :=
    insert_cow_oversized h st [] fuel rootnd root ⟨key, value⟩ none none L O C
      hrep hrparse hfuel hlong hch hCsort hCprops hOprops hCO hcursA hcurs0
  have hNO : ∀ p ∈ N0, p ∉ O := by
    intro p hp hm
    rcases hN0props p hp with hpc | hge
    · exact hCO p hpc hm
    · obtain ⟨_, hlt, _⟩ := hOprops p hm
      omega
  have hagreeO : ∀ p ∈ O, st0.file p = st.file p :=
    fun p hp => hagree0 p (fun hn => hNO p hn hp)
  have hins : BTree.insert fuel st key value = (Except.error e0, st0) := by
    unfold BTree.insert
    rw [hroot]
    show (match nodeOfPage (Pager.get_page st root) with
      | Except.error e => (Except.error e, st)
      | Except.ok rnode =>
        match BTree.insert_cow st [] fuel rnode root ⟨key, value⟩ with
        | (Except.error e, _, st) => (Except.error e, st)
        | (Except.ok (InsertCOWStatus.NewOffset o), fq, st) =>
          let fq := FreeQueue.add fq root
          let st := Pager.set_root_page st o
          Pager.free_pages fuel st fq
        | (Except.ok (InsertCOWStatus.DidSplit promoted_key first second), fq, st) =>
          match pageOfNode ⟨.internal [promoted_key] [first, second] 0, none⟩ with
          | Except.error e => (Except.error e, st)
          | Except.ok page =>
            match Pager.write_page st page with
            | (new_root_offset, st) =>
              let fq := FreeQueue.add fq root
              let st := Pager.set_root_page st new_root_offset
              Pager.free_pages fuel st fq) = _
    rw [show Pager.get_page st root = st.file root from rfl, hrparse]
    show (match BTree.insert_cow st [] fuel rootnd root ⟨key, value⟩ with
      | (Except.error e, _, st) => (Except.error e, st)
      | (Except.ok (InsertCOWStatus.NewOffset o), fq, st) =>
        let fq := FreeQueue.add fq root
        let st := Pager.set_root_page st o
        Pager.free_pages fuel st fq
      | (Except.ok (InsertCOWStatus.DidSplit promoted_key first second), fq, st) =>
        match pageOfNode ⟨.internal [promoted_key] [first, second] 0, none⟩ with
        | Except.error e => (Except.error e, st)
        | Except.ok page =>
          match Pager.write_page st page with
          | (new_root_offset, st) =>
            let fq := FreeQueue.add fq root
            let st := Pager.set_root_page st new_root_offset
            Pager.free_pages fuel st fq) = _
    rw [hrec]
  have hrootnew : st0.config.root_page = some root := by rw [hroot0, hroot]
  have hrep0 : ReprAt st0 h root none none L O :=
    ReprAt_agree h st st0 root none none L O hrep hagreeO
  have hnone : lookupKV L key = none := by
    refine lookupKV_eq_none L key ?_
    intro kvp hkvp heq
    have h1 := ((ReprAt_bounds h st root none none L O hrep).2 kvp hkvp).2.1
    rw [heq] at h1
    have hKM : KEY_MAX_SIZE = 255 := rfl
    omega
  refine ⟨e0, st0, hins, hedisj, hroot0, hagreeO, ?_⟩
  rw [search_correct st0 h root L O key fuel hrootnew hrep0 hfuel, hnone]

/-- C6 witness: the amended theorem applied to the freshly opened tree and a
concrete 256-byte key. -/
theorem claimC6_witness :
    ∃ e st2, BTree.insert 4 freshState (List.replicate 256 97) 1 =
        (Except.error e, st2) ∧
      (e = Error.KeyOverflowError ∨ e = Error.ImpossibleSplit) ∧
      st2.config.root_page = freshState.config.root_page ∧
      (∀ p ∈ [8192], st2.file p = freshState.file p) ∧
      BTree.search 4 st2 (List.replicate 256 97) = (Except.ok none, st2) :=
  claimC6 freshState 1 8192 4 [] [8192] [] (List.replicate 256 97) 1
    rfl
    ⟨⟨.leaf none none [] 35, none⟩, rfl, rfl, rfl, rfl, rfl, rfl,
      List.Pairwise.nil, (by intro kvp hkvp; simp at hkvp), rfl, by decide⟩
    (by decide)
    FreeChain.nil
    List.Pairwise.nil
    (by intro c hc; simp at hc)
    (by intro p hp
        simp only [List.mem_singleton] at hp
        subst hp
        exact ⟨by decide, by decide, by decide⟩)
    (by intro c hc; simp at hc)
    (by decide) (by decide)
    (by rw [List.length_replicate]; decide)

end Inefficax
